import Mathlib

/-!
# Verification of the containerdns radix tree core (`src/core/radtree.h`)

The repository ships only the interface `src/core/radtree.h`; the
implementation file (`radtree.c`) is not present.  Following the header's
documentation and the specification, we build a shallow embedding of the
compressed radix trie: keys are byte strings (`List Nat`), a node holds an
optional element and a sparse, sorted-by-selection-byte list of edges, and
each edge carries the additional label bytes after its selection byte
together with the child node.  C node pointers are modelled by the unique
key (path) that identifies a node, and `NULL` results by `Option`.
-/

namespace Radtree

/-- A key is a binary string: a list of byte values. -/
abbrev Key := List Nat

/-- Modelled from the spec: `bstr_common_ext` (number of bytes in common
at the start of two binary strings); the implementation in `radtree.c`
is missing from the sources. -/
def bstr_common_ext : Key → Key → Nat
  | x :: xs, y :: ys => if x = y then 1 + bstr_common_ext xs ys else 0
  | _, _ => 0

/-- Modelled from the spec: `bstr_is_prefix_ext` (true if the first string
is a prefix of the second); the implementation in `radtree.c` is missing
from the sources. -/
def bstr_is_prefix_ext : Key → Key → Bool
  | [], _ => true
  | _ :: _, [] => false
  | x :: xs, y :: ys => x = y && bstr_is_prefix_ext xs ys

/-- Strict key order of the tree, from the header: keys
"are sorted, a prefix is sorted before its suffixes" — byte-lexicographic
order in which a strict prefix sorts before its extensions. -/
def keyLtb : Key → Key → Bool
  | [], [] => false
  | [], _ :: _ => true
  | _ :: _, [] => false
  | a :: as, b :: bs => a < b || (a = b && keyLtb as bs)

/-- A radix tree lookup node (`struct radnode`): optional data element and
the sparse lookup array, modelled as a list of edges
`(selection byte, additional string, child)` kept sorted by selection
byte.  `struct radsel` is the `(additional string, child)` part. -/
inductive Radnode (α : Type) : Type where
  | mk (elem : Option α) (children : List (Nat × Key × Radnode α)) : Radnode α

/-- The element field of a node. -/
def Radnode.elem {α : Type} : Radnode α → Option α
  | .mk e _ => e

/-- The edge list of a node. -/
def Radnode.children {α : Type} : Radnode α → List (Nat × Key × Radnode α)
  | .mk _ cs => cs

/-- The radix tree (`struct radtree`): root node and element count. -/
structure Rtree (α : Type) : Type where
  root : Radnode α
  count : Nat

/-- `radix_tree_create`: a fresh tree has an element-less root and
count 0. -/
def radix_tree_create {α : Type} : Rtree α :=
  { root := .mk none [], count := 0 }

/-- `radix_tree_clear`: delete the intermediate nodes, back to the empty
tree. -/
def radix_tree_clear {α : Type} (_rt : Rtree α) : Rtree α :=
  radix_tree_create

/-- Look up the edge for a selection byte in a node's edge list. -/
def findEdge {α : Type} : List (Nat × Key × Radnode α) → Nat →
    Option (Key × Radnode α)
  | [], _ => none
  | (b, s, c) :: rest, x => if x = b then some (s, c) else findEdge rest x

theorem findEdge_mem {α : Type} {cs : List (Nat × Key × Radnode α)}
    {x : Nat} {s : Key} {c : Radnode α} (h : findEdge cs x = some (s, c)) :
    (x, s, c) ∈ cs := by
  induction cs with
  | nil => simp [findEdge] at h
  | cons hd tl ih =>
    obtain ⟨b, s0, c0⟩ := hd
    by_cases hb : x = b
    · subst hb
      simp [findEdge] at h
      simp [h.1, h.2]
    · simp [findEdge, hb] at h
      exact List.mem_cons_of_mem _ (ih h)

theorem sizeOf_child_lt {α : Type} {cs : List (Nat × Key × Radnode α)}
    {b : Nat} {s : Key} {c : Radnode α} (h : (b, s, c) ∈ cs)
    (e : Option α) : sizeOf c < sizeOf (Radnode.mk e cs) := by
  have h1 : sizeOf (b, s, c) ≤ sizeOf cs := le_of_lt (List.sizeOf_lt_of_mem h)
  have h2 : sizeOf c < sizeOf (b, s, c) := by
    simp
    omega
  have h3 : sizeOf cs < sizeOf (Radnode.mk e cs) := by
    simp
  omega

theorem sizeOf_findEdge {α : Type} {cs : List (Nat × Key × Radnode α)}
    {x : Nat} {s : Key} {c : Radnode α} (h : findEdge cs x = some (s, c))
    (e : Option α) : sizeOf c < sizeOf (Radnode.mk e cs) :=
  sizeOf_child_lt (findEdge_mem h) e

/-- Modelled from the spec (§4.2, the implementation in `radtree.c` is
missing): descend from a node, at each step selecting the edge for the
next key byte and requiring the edge's additional string to be a prefix
of the rest of the key; return the node where the key is exhausted, if
its element is set. -/
def searchNode {α : Type} : Radnode α → Key → Option (Radnode α)
  | n, [] => if n.elem.isSome then some n else none
  | .mk el cs, b :: k' =>
    match h : findEdge cs b with
    | none => none
    | some (s, c) =>
      if bstr_is_prefix_ext s k' then
        searchNode c (k'.drop s.length)
      else none
termination_by n _ => sizeOf n
decreasing_by exact sizeOf_findEdge h _

/-- `radix_search`: find the node for a key in the tree (absent if the key
is not present or its node holds no element). -/
def radix_search {α : Type} (rt : Rtree α) (k : Key) : Option (Radnode α) :=
  searchNode rt.root k

/-- The element stored for a key, if any. -/
def searchElem {α : Type} (n : Radnode α) (k : Key) : Option α :=
  (searchNode n k).bind Radnode.elem

mutual

/-- Modelled from the spec (§3, the implementation in `radtree.c` is
missing): the association list of (key, element) pairs stored in a
subtree, in trie order: the node's own element (key `[]`) first, then
each edge's subtree with `selection byte :: additional string` prepended. -/
def toList {α : Type} : Radnode α → List (Key × α)
  | .mk el cs =>
    (match el with | some e => [(([] : Key), e)] | none => []) ++ toListEdges cs
termination_by n => sizeOf n
decreasing_by all_goals (simp <;> omega)

/-- The association list of the subtrees hanging off an edge list. -/
def toListEdges {α : Type} : List (Nat × Key × Radnode α) → List (Key × α)
  | [] => []
  | (b, s, c) :: rest =>
    (toList c).map (fun p => (b :: s ++ p.1, p.2)) ++ toListEdges rest
termination_by cs => sizeOf cs
decreasing_by all_goals (simp <;> omega)

end

@[simp] theorem toList_mk {α : Type} (el : Option α)
    (cs : List (Nat × Key × Radnode α)) :
    toList (.mk el cs) =
      (match el with | some e => [(([] : Key), e)] | none => []) ++
        toListEdges cs := by
  rw [toList.eq_def]

@[simp] theorem toListEdges_nil {α : Type} :
    toListEdges ([] : List (Nat × Key × Radnode α)) = [] := by
  rw [toListEdges.eq_def]

@[simp] theorem toListEdges_cons {α : Type} (b : Nat) (s : Key)
    (c : Radnode α) (rest : List (Nat × Key × Radnode α)) :
    toListEdges ((b, s, c) :: rest) =
      (toList c).map (fun p => (b :: s ++ p.1, p.2)) ++ toListEdges rest := by
  rw [toListEdges.eq_def]

mutual

/-- The number of nodes in a subtree whose element is non-absent. -/
def countElems {α : Type} : Radnode α → Nat
  | .mk el cs => (if el.isSome then 1 else 0) + countElemsEdges cs
termination_by n => sizeOf n
decreasing_by all_goals (simp <;> omega)

/-- The number of element-holding nodes below an edge list. -/
def countElemsEdges {α : Type} : List (Nat × Key × Radnode α) → Nat
  | [] => 0
  | (_, _, c) :: rest => countElems c + countElemsEdges rest
termination_by cs => sizeOf cs
decreasing_by all_goals (simp <;> omega)

end

@[simp] theorem countElems_mk {α : Type} (el : Option α)
    (cs : List (Nat × Key × Radnode α)) :
    countElems (.mk el cs) =
      (if el.isSome then 1 else 0) + countElemsEdges cs := by
  rw [countElems.eq_def]

@[simp] theorem countElemsEdges_nil {α : Type} :
    countElemsEdges ([] : List (Nat × Key × Radnode α)) = 0 := by
  rw [countElemsEdges.eq_def]

@[simp] theorem countElemsEdges_cons {α : Type} (b : Nat) (s : Key)
    (c : Radnode α) (rest : List (Nat × Key × Radnode α)) :
    countElemsEdges ((b, s, c) :: rest) =
      countElems c + countElemsEdges rest := by
  rw [countElemsEdges.eq_def]

/-- Edge lists are sorted strictly by selection byte. -/
def sortedEdges {α : Type} (cs : List (Nat × Key × Radnode α)) : Prop :=
  List.Pairwise (fun p q => p.1 < q.1) cs

mutual

/-- Well-formedness of a non-root node (spec §3 invariants): the edge list
is sorted by selection byte, all children are well formed, and — path
compression — the node has an element or at least two edges. -/
def wfNode {α : Type} : Radnode α → Prop
  | .mk el cs => sortedEdges cs ∧ wfEdges cs ∧ (el.isSome ∨ 2 ≤ cs.length)
termination_by n => sizeOf n
decreasing_by all_goals (simp <;> omega)

/-- All children along an edge list are well formed. -/
def wfEdges {α : Type} : List (Nat × Key × Radnode α) → Prop
  | [] => True
  | (_, _, c) :: rest => wfNode c ∧ wfEdges rest
termination_by cs => sizeOf cs
decreasing_by all_goals (simp <;> omega)

end

theorem wfNode_def {α : Type} (el : Option α)
    (cs : List (Nat × Key × Radnode α)) :
    wfNode (.mk el cs) =
      (sortedEdges cs ∧ wfEdges cs ∧ (el.isSome ∨ 2 ≤ cs.length)) := by
  rw [wfNode.eq_def]

@[simp] theorem wfEdges_nil {α : Type} :
    wfEdges ([] : List (Nat × Key × Radnode α)) = True := by
  rw [wfEdges.eq_def]

@[simp] theorem wfEdges_cons {α : Type} (b : Nat) (s : Key)
    (c : Radnode α) (rest : List (Nat × Key × Radnode α)) :
    wfEdges ((b, s, c) :: rest) = (wfNode c ∧ wfEdges rest) := by
  rw [wfEdges.eq_def]

/-- Well-formedness at the root (the root is exempt from the
path-compression rule). -/
def wfRoot {α : Type} : Radnode α → Prop
  | .mk _ cs => sortedEdges cs ∧ wfEdges cs

/-- Well-formedness of a whole tree. -/
def wfTree {α : Type} (rt : Rtree α) : Prop := wfRoot rt.root

end Radtree

namespace Radtree

/-- Replace the edge for a selection byte (label and child). -/
def setEdge {α : Type} : List (Nat × Key × Radnode α) → Nat → Key →
    Radnode α → List (Nat × Key × Radnode α)
  | [], _, _, _ => []
  | (b, s, c) :: rest, x, s', c' =>
    if x = b then (b, s', c') :: rest else (b, s, c) :: setEdge rest x s' c'

/-- Remove the edge for a selection byte. -/
def removeEdge {α : Type} : List (Nat × Key × Radnode α) → Nat →
    List (Nat × Key × Radnode α)
  | [], _ => []
  | (b, s, c) :: rest, x =>
    if x = b then rest else (b, s, c) :: removeEdge rest x

/-- Add a new edge for a selection byte not yet present, keeping the list
sorted by selection byte (spec §4.1: growing the lookup array). -/
def addEdge {α : Type} : List (Nat × Key × Radnode α) → Nat → Key →
    Radnode α → List (Nat × Key × Radnode α)
  | [], x, s', c' => [(x, s', c')]
  | (b, s, c) :: rest, x, s', c' =>
    if x < b then (x, s', c') :: (b, s, c) :: rest
    else (b, s, c) :: addEdge rest x s' c'

/-- Modelled from the spec (§4.3, the implementation in `radtree.c` is
missing): insert an element for a key below a node.  Returns `none` on a
duplicate key (the node for the key already holds an element), otherwise
the restructured node: set the element when the key ends at an existing
node, add a fresh edge when the selection byte has none, descend when the
edge label is fully consumed, and otherwise split the edge at the longest
common prefix of its label and the key remainder. -/
def insertNode {α : Type} : Radnode α → Key → α → Option (Radnode α)
  | .mk (some _) _, [], _ => none
  | .mk none cs, [], e => some (.mk (some e) cs)
  | .mk el cs, b :: k', e =>
    match h : findEdge cs b with
    | none => some (.mk el (addEdge cs b k' (.mk (some e) [])))
    | some (s, c) =>
      if bstr_is_prefix_ext s k' then
        (insertNode c (k'.drop s.length) e).map
          (fun c' => .mk el (setEdge cs b s c'))
      else
        let p := s.take (bstr_common_ext s k')
        match s.drop (bstr_common_ext s k'), k'.drop (bstr_common_ext s k') with
        | x :: srest, [] =>
          some (.mk el (setEdge cs b p (.mk (some e) [(x, srest, c)])))
        | x :: srest, y :: krest =>
          some (.mk el (setEdge cs b p
            (.mk none (addEdge [(x, srest, c)] y krest (.mk (some e) [])))))
        | [], _ => none
termination_by n _ _ => sizeOf n
decreasing_by exact sizeOf_findEdge h _

/-- `radix_insert`: insert an element into the tree.  The result pairs the
tree after the call with the C return value: the new node for the element
(identified by its key) on success, absent on duplicate-key failure (the
tree is unchanged). -/
def radix_insert {α : Type} (rt : Rtree α) (k : Key) (e : α) :
    Rtree α × Option Key :=
  match insertNode rt.root k e with
  | none => (rt, none)
  | some r => ({ root := r, count := rt.count + 1 }, some k)

/-- Modelled from the spec: allocation failure (§7) makes `radix_insert`
return `NULL` with the structure unchanged; the out-of-memory behaviour of
the missing `radtree.c` is modelled by an explicit allocation-success
flag. -/
def radix_insert_alloc {α : Type} (allocOk : Bool) (rt : Rtree α) (k : Key)
    (e : α) : Rtree α × Option Key :=
  if allocOk then radix_insert rt k e else (rt, none)

/-- Modelled from the spec (§4.4): restore path compression on the way
back up a deletion: an element-less child with no edges is removed from
its parent, and an element-less child with exactly one edge is merged
into its incoming edge (label concatenation). -/
def fixEdge {α : Type} (s : Key) (c : Radnode α) : Option (Key × Radnode α) :=
  match c with
  | .mk none [] => none
  | .mk none [(x, xs, g)] => some (s ++ x :: xs, g)
  | _ => some (s, c)

/-- Modelled from the spec (§4.4, the implementation in `radtree.c` is
missing): clear the element of the node the key leads to, then re-compress
along the return path with `fixEdge`.  The root itself is exempt. -/
def delNode {α : Type} : Radnode α → Key → Radnode α
  | .mk _ cs, [] => .mk none cs
  | .mk el cs, b :: k' =>
    match h : findEdge cs b with
    | none => .mk el cs
    | some (s, c) =>
      if bstr_is_prefix_ext s k' then
        match fixEdge s (delNode c (k'.drop s.length)) with
        | none => .mk el (removeEdge cs b)
        | some (s2, c2) => .mk el (setEdge cs b s2 c2)
      else .mk el cs
termination_by n _ => sizeOf n
decreasing_by exact sizeOf_findEdge h _

/-- `radix_delete`: delete the element of a node (given by the node
reference, modelled as its key; references are obtained from
`radix_search`/`radix_insert`, so they lead to a node holding an
element).  An absent reference deletes nothing. -/
def radix_delete {α : Type} (rt : Rtree α) (n : Option Key) : Rtree α :=
  match n with
  | none => rt
  | some k =>
    if (searchElem rt.root k).isSome then
      { root := delNode rt.root k, count := rt.count - 1 }
    else rt

/-- The earliest edge with selection byte strictly above `x` (the next
sibling of the edge for `x` in a sorted edge list). -/
def minEdgeAbove {α : Type} : List (Nat × Key × Radnode α) → Nat →
    Option (Nat × Key × Radnode α)
  | [], _ => none
  | (b, s, c) :: rest, x =>
    if x < b then some (b, s, c) else minEdgeAbove rest x

/-- The latest edge with selection byte strictly below `x` (the previous
sibling of the edge for `x` in a sorted edge list). -/
def maxEdgeBelow {α : Type} : List (Nat × Key × Radnode α) → Nat →
    Option (Nat × Key × Radnode α)
  | [], _ => none
  | (b, s, c) :: rest, x =>
    if b < x then
      match maxEdgeBelow rest x with
      | none => some (b, s, c)
      | some r => some r
    else none

theorem mem_of_getLast?_eq {β : Type} {l : List β} {a : β}
    (h : l.getLast? = some a) : a ∈ l := by
  obtain ⟨hne, heq⟩ := List.mem_getLast?_eq_getLast (l := l) (x := a) h
  exact heq ▸ List.getLast_mem hne

/-- Modelled from the spec (§4.6): the key of the first (smallest) element
in a subtree: the node's own element if present, else descend the lowest
edge. -/
def firstKeyNode {α : Type} : Radnode α → Option Key
  | .mk (some _) _ => some []
  | .mk none cs =>
    match h : cs with
    | [] => none
    | (b, s, c) :: _ => (firstKeyNode c).map (fun r => b :: s ++ r)
termination_by n => sizeOf n
decreasing_by exact sizeOf_child_lt (List.mem_cons_self _ _) _

/-- Modelled from the spec (§4.6): the key of the last (largest) element
in a subtree: descend the highest edge to the end, falling back to the
node's own element when there are no edges. -/
def lastKeyNode {α : Type} : Radnode α → Option Key
  | .mk el cs =>
    match h : cs.getLast? with
    | some (b, s, c) => (lastKeyNode c).map (fun r => b :: s ++ r)
    | none => if el.isSome then some [] else none
termination_by n => sizeOf n
decreasing_by exact sizeOf_child_lt (mem_of_getLast?_eq h) _

/-- `radix_first`: the first (smallest) element of the tree, as the key
identifying its node. -/
def radix_first {α : Type} (rt : Rtree α) : Option Key :=
  firstKeyNode rt.root

/-- `radix_last`: the last (largest) element of the tree, as the key
identifying its node. -/
def radix_last {α : Type} (rt : Rtree α) : Option Key :=
  lastKeyNode rt.root

/-- Modelled from the spec (§4.6, the implementation in `radtree.c` is
missing): the next element after the node a key leads to: the first
element below the node itself, or else the first element of the next
sibling edge at the closest ancestor that has one. -/
def nextKeyNode {α : Type} : Radnode α → Key → Option Key
  | .mk _ cs, [] =>
    match h : cs with
    | [] => none
    | (b, s, c) :: _ => (firstKeyNode c).map (fun r => b :: s ++ r)
  | .mk _ cs, b :: k' =>
    match h : findEdge cs b with
    | none => none
    | some (s, c) =>
      if bstr_is_prefix_ext s k' then
        match nextKeyNode c (k'.drop s.length) with
        | some r => some (b :: s ++ r)
        | none =>
          match minEdgeAbove cs b with
          | none => none
          | some (b2, s2, c2) => (firstKeyNode c2).map (fun r => b2 :: s2 ++ r)
      else none
termination_by n _ => sizeOf n
decreasing_by
  all_goals first
  | exact sizeOf_findEdge h _
  | exact sizeOf_child_lt (List.mem_cons_self _ _) _

/-- The best candidate below the edge for byte `b`: the last element of
the previous sibling's subtree, else the node's own element. -/
def prevHereKey {α : Type} (el : Option α) (cs : List (Nat × Key × Radnode α))
    (b : Nat) : Option Key :=
  match maxEdgeBelow cs b with
  | some (b0, s0, c0) => (lastKeyNode c0).map (fun r => b0 :: s0 ++ r)
  | none => if el.isSome then some [] else none

/-- Modelled from the spec (§4.6, the implementation in `radtree.c` is
missing): the previous element before the node a key leads to: the last
element of the previous sibling edge at the closest ancestor that has
one, with each ancestor's own element as a candidate on the way up. -/
def prevKeyNode {α : Type} : Radnode α → Key → Option Key
  | _, [] => none
  | .mk el cs, b :: k' =>
    match h : findEdge cs b with
    | none => none
    | some (s, c) =>
      if bstr_is_prefix_ext s k' then
        match prevKeyNode c (k'.drop s.length) with
        | some r => some (b :: s ++ r)
        | none => prevHereKey el cs b
      else none
termination_by n _ => sizeOf n
decreasing_by exact sizeOf_findEdge h _

/-- `radix_next`: the next element after a node (the node and the result
are identified by their keys). -/
def radix_next {α : Type} (rt : Rtree α) (k : Key) : Option Key :=
  nextKeyNode rt.root k

/-- `radix_prev`: the previous element before a node (the node and the
result are identified by their keys). -/
def radix_prev {α : Type} (rt : Rtree α) (k : Key) : Option Key :=
  prevKeyNode rt.root k

/-- Modelled from the spec (§4.5, the implementation in `radtree.c` is
missing): find the node for the key, or else the closest smaller element:
exact hit when the key ends at an element-holding node; on divergence,
either the whole selected subtree is greater than the key (take the
previous sibling's last element or an ancestor element) or it is entirely
smaller (take its last element). -/
def fleNode {α : Type} : Radnode α → Key → Bool × Option Key
  | .mk el _, [] => if el.isSome then (true, some []) else (false, none)
  | .mk el cs, b :: k' =>
    match h : findEdge cs b with
    | none => (false, prevHereKey el cs b)
    | some (s, c) =>
      if bstr_is_prefix_ext s k' then
        match fleNode c (k'.drop s.length) with
        | (ex, some r) => (ex, some (b :: s ++ r))
        | (_, none) => (false, prevHereKey el cs b)
      else if keyLtb k' s then (false, prevHereKey el cs b)
      else (false, (lastKeyNode c).map (fun r => b :: s ++ r))
termination_by n _ => sizeOf n
decreasing_by exact sizeOf_findEdge h _

/-- `radix_find_less_equal`: the exact-match flag together with the node
(by key) of the exact match or the closest smaller element. -/
def radix_find_less_equal {α : Type} (rt : Rtree α) (k : Key) :
    Bool × Option Key :=
  fleNode rt.root k

/-- A public mutating operation of the tree interface. -/
inductive Op (α : Type) : Type where
  | ins (k : Key) (e : α) : Op α
  | del (n : Option Key) : Op α
  | clear : Op α

/-- Apply one public operation to the tree. -/
def applyOp {α : Type} (rt : Rtree α) : Op α → Rtree α
  | .ins k e => (radix_insert rt k e).1
  | .del n => radix_delete rt n
  | .clear => radix_tree_clear rt

/-- Run a sequence of public operations. -/
def runOps {α : Type} (rt : Rtree α) : List (Op α) → Rtree α
  | [] => rt
  | op :: rest => runOps (applyOp rt op) rest

end Radtree
namespace Radtree

/-! ### Properties of the key order and the byte-string utilities -/

theorem keyLtb_irrefl : ∀ k : Key, keyLtb k k = false
  | [] => rfl
  | _ :: ks => by simp [keyLtb, keyLtb_irrefl ks]

theorem keyLtb_trans : ∀ {a b c : Key}, keyLtb a b = true →
    keyLtb b c = true → keyLtb a c = true
  | [], _ :: _, _ :: _, _, _ => rfl
  | x :: xs, y :: ys, z :: zs, h1, h2 => by
    simp [keyLtb] at h1 h2 ⊢
    rcases h1 with h1 | ⟨rfl, h1⟩ <;> rcases h2 with h2 | ⟨rfl, h2⟩
    · exact Or.inl (h1.trans h2)
    · exact Or.inl h1
    · exact Or.inl h2
    · exact Or.inr ⟨rfl, keyLtb_trans h1 h2⟩

theorem keyLtb_total : ∀ a b : Key, keyLtb a b = true ∨ a = b ∨
    keyLtb b a = true
  | [], [] => Or.inr (Or.inl rfl)
  | [], _ :: _ => Or.inl rfl
  | _ :: _, [] => Or.inr (Or.inr rfl)
  | x :: xs, y :: ys => by
    rcases Nat.lt_trichotomy x y with h | rfl | h
    · exact Or.inl (by simp [keyLtb, h])
    · rcases keyLtb_total xs ys with h | rfl | h
      · exact Or.inl (by simp [keyLtb, h])
      · exact Or.inr (Or.inl rfl)
      · exact Or.inr (Or.inr (by simp [keyLtb, h]))
    · exact Or.inr (Or.inr (by simp [keyLtb, h]))

theorem keyLtb_asymm {a b : Key} (h : keyLtb a b = true) :
    keyLtb b a = false := by
  by_contra hc
  have hba : keyLtb b a = true := by
    cases hk : keyLtb b a
    · exact absurd hk hc
    · rfl
  have := keyLtb_trans h hba
  rw [keyLtb_irrefl] at this
  exact Bool.false_ne_true this

theorem keyLtb_ne {a b : Key} (h : keyLtb a b = true) : a ≠ b := by
  rintro rfl
  rw [keyLtb_irrefl] at h
  exact Bool.false_ne_true h

@[simp] theorem keyLtb_nil_cons {x : Nat} {xs : Key} :
    keyLtb [] (x :: xs) = true := rfl

@[simp] theorem keyLtb_cons_same {a : Nat} {x y : Key} :
    keyLtb (a :: x) (a :: y) = keyLtb x y := by
  simp [keyLtb]

theorem keyLtb_cons_lt {a b : Nat} (x y : Key) (h : a < b) :
    keyLtb (a :: x) (b :: y) = true := by
  simp [keyLtb, h]

@[simp] theorem keyLtb_append_left : ∀ (p x y : Key),
    keyLtb (p ++ x) (p ++ y) = keyLtb x y
  | [], _, _ => rfl
  | _ :: ps, x, y => by simp [keyLtb_append_left ps x y]

theorem keyLtb_self_append {x : Key} (p : Key) (h : x ≠ []) :
    keyLtb p (p ++ x) = true := by
  have : keyLtb ([] : Key) x = true := by
    cases x with
    | nil => exact absurd rfl h
    | cons a as => rfl
  calc keyLtb p (p ++ x) = keyLtb (p ++ []) (p ++ x) := by simp
  _ = keyLtb [] x := keyLtb_append_left p [] x
  _ = true := this

theorem bstr_is_prefix_iff : ∀ {p x : Key},
    bstr_is_prefix_ext p x = true ↔ ∃ r, x = p ++ r
  | [], x => by simp [bstr_is_prefix_ext]
  | a :: ps, [] => by simp [bstr_is_prefix_ext]
  | a :: ps, b :: xs => by
    simp only [bstr_is_prefix_ext, Bool.and_eq_true, decide_eq_true_eq]
    constructor
    · rintro ⟨rfl, h⟩
      obtain ⟨r, rfl⟩ := bstr_is_prefix_iff.mp h
      exact ⟨r, rfl⟩
    · rintro ⟨r, hr⟩
      rw [List.cons_append] at hr
      obtain ⟨rfl, rfl⟩ : b = a ∧ xs = ps ++ r := by
        exact ⟨by injection hr, by injection hr⟩
      exact ⟨rfl, bstr_is_prefix_iff.mpr ⟨r, rfl⟩⟩

theorem bstr_prefix_drop {s k : Key} (h : bstr_is_prefix_ext s k = true) :
    k = s ++ k.drop s.length := by
  obtain ⟨r, rfl⟩ := bstr_is_prefix_iff.mp h
  simp

theorem bstr_common_le_left : ∀ x y : Key, bstr_common_ext x y ≤ x.length
  | [], _ => by simp [bstr_common_ext]
  | _ :: _, [] => by simp [bstr_common_ext]
  | a :: xs, b :: ys => by
    by_cases h : a = b
    · have := bstr_common_le_left xs ys
      simp [bstr_common_ext, h]
      omega
    · simp [bstr_common_ext, h]

theorem bstr_common_le_right : ∀ x y : Key, bstr_common_ext x y ≤ y.length
  | [], _ => by simp [bstr_common_ext]
  | _ :: _, [] => by simp [bstr_common_ext]
  | a :: xs, b :: ys => by
    by_cases h : a = b
    · have := bstr_common_le_right xs ys
      simp [bstr_common_ext, h]
      omega
    · simp [bstr_common_ext, h]

theorem bstr_common_take : ∀ x y : Key,
    x.take (bstr_common_ext x y) = y.take (bstr_common_ext x y)
  | [], _ => by simp [bstr_common_ext]
  | _ :: _, [] => by simp [bstr_common_ext]
  | a :: xs, b :: ys => by
    by_cases h : a = b
    · subst h
      simp [bstr_common_ext, Nat.add_comm 1, bstr_common_take xs ys]
    · simp [bstr_common_ext, h]

theorem bstr_common_ne : ∀ (x y : Key) {a b : Nat} {xs ys : Key},
    x.drop (bstr_common_ext x y) = a :: xs →
    y.drop (bstr_common_ext x y) = b :: ys → a ≠ b
  | [], _, _, _, _, _ => by simp [bstr_common_ext]
  | _ :: _, [], _, _, _, _ => by intro _ h; simp [bstr_common_ext] at h
  | u :: us, v :: vs, a, b, xs, ys => by
    by_cases h : u = v
    · subst h
      simp only [bstr_common_ext, if_pos rfl, Nat.add_comm 1, List.drop_succ_cons]
      exact bstr_common_ne us vs
    · intro h1 h2
      simp [bstr_common_ext, h] at h1 h2
      obtain ⟨rfl, -⟩ := h1
      obtain ⟨rfl, -⟩ := h2
      exact h

end Radtree
namespace Radtree

/-! ### The stored association list: membership, sortedness -/

theorem mem_toListEdges {α : Type} {cs : List (Nat × Key × Radnode α)}
    {p : Key × α} :
    p ∈ toListEdges cs ↔
      ∃ b s c, (b, s, c) ∈ cs ∧ ∃ q ∈ toList c, p = (b :: s ++ q.1, q.2) := by
  induction cs with
  | nil => simp
  | cons hd rest ih =>
    obtain ⟨b0, s0, c0⟩ := hd
    rw [toListEdges_cons]
    simp only [List.mem_append, ih, List.mem_map, List.mem_cons]
    constructor
    · rintro (⟨q, hq, rfl⟩ | ⟨b, s, c, hm, q, hq, rfl⟩)
      · exact ⟨b0, s0, c0, Or.inl rfl, q, hq, rfl⟩
      · exact ⟨b, s, c, Or.inr hm, q, hq, rfl⟩
    · rintro ⟨b, s, c, hm | hm, q, hq, rfl⟩
      · obtain ⟨rfl, rfl, rfl⟩ : b0 = b ∧ s0 = s ∧ c0 = c := by
          refine ⟨?_, ?_, ?_⟩ <;> [skip; skip; skip] <;>
            first
            | exact congrArg Prod.fst hm.symm
            | exact congrArg (fun x => x.2.1) hm.symm
            | exact congrArg (fun x => x.2.2) hm.symm
        exact Or.inl ⟨q, hq, rfl⟩
      · exact Or.inr ⟨b, s, c, hm, q, hq, rfl⟩

theorem mem_toList_mk {α : Type} {el : Option α}
    {cs : List (Nat × Key × Radnode α)} {p : Key × α} :
    p ∈ toList (.mk el cs) ↔
      (el = some p.2 ∧ p.1 = []) ∨ p ∈ toListEdges cs := by
  rw [toList_mk]
  cases el with
  | none => simp
  | some e =>
    obtain ⟨p1, p2⟩ := p
    simp only [List.mem_append, List.mem_singleton, Prod.mk.injEq]
    constructor
    · rintro (⟨rfl, rfl⟩ | h)
      · exact Or.inl ⟨rfl, rfl⟩
      · exact Or.inr h
    · rintro (⟨he, hp⟩ | h)
      · left
        cases he
        exact ⟨hp, rfl⟩
      · exact Or.inr h

/-- Keys of an association list are strictly ascending in the tree
order. -/
def sortedKeys {α : Type} (l : List (Key × α)) : Prop :=
  l.Pairwise (fun p q => keyLtb p.1 q.1 = true)

theorem wfEdges_iff {α : Type} {cs : List (Nat × Key × Radnode α)} :
    wfEdges cs ↔ ∀ b s c, (b, s, c) ∈ cs → wfNode c := by
  induction cs with
  | nil => simp
  | cons hd rest ih =>
    obtain ⟨b0, s0, c0⟩ := hd
    rw [wfEdges_cons]
    rw [ih]
    constructor
    · rintro ⟨h1, h2⟩ b s c hm
      rcases List.mem_cons.mp hm with hm | hm
      · simp only [Prod.mk.injEq] at hm
        obtain ⟨rfl, rfl, rfl⟩ := hm
        exact h1
      · exact h2 b s c hm
    · intro h
      exact ⟨h b0 s0 c0 (List.mem_cons_self _ _),
        fun b s c hm => h b s c (List.mem_cons_of_mem _ hm)⟩

theorem wfNode_iff {α : Type} {el : Option α}
    {cs : List (Nat × Key × Radnode α)} :
    wfNode (.mk el cs) ↔ sortedEdges cs ∧ wfEdges cs ∧
      (el.isSome ∨ 2 ≤ cs.length) := by
  rw [wfNode_def]

theorem wfRoot_iff {α : Type} {el : Option α}
    {cs : List (Nat × Key × Radnode α)} :
    wfRoot (.mk el cs) ↔ sortedEdges cs ∧ wfEdges cs := by
  rw [wfRoot]


theorem wfNode_wfRoot {α : Type} {n : Radnode α} (h : wfNode n) : wfRoot n := by
  cases n with
  | mk el cs =>
    rw [wfNode_iff] at h
    exact wfRoot_iff.mpr ⟨h.1, h.2.1⟩

theorem toListEdges_sorted {α : Type} {cs : List (Nat × Key × Radnode α)}
    (hs : sortedEdges cs) (hw : wfEdges cs)
    (ih : ∀ b s c, (b, s, c) ∈ cs → sortedKeys (toList c)) :
    sortedKeys (toListEdges cs) := by
  induction cs with
  | nil => simp [sortedKeys]
  | cons hd rest tih =>
    obtain ⟨b0, s0, c0⟩ := hd
    rw [wfEdges_cons] at hw
    rw [toListEdges_cons]
    unfold sortedKeys
    rw [List.pairwise_append]
    refine ⟨?_, ?_, ?_⟩
    · rw [List.pairwise_map]
      have := ih b0 s0 c0 (List.mem_cons_self _ _)
      refine this.imp (fun hpq => ?_)
      simpa using hpq
    · exact tih (List.Pairwise.sublist (List.sublist_cons_self _ _) hs)
        hw.2 (fun b s c hm => ih b s c (List.mem_cons_of_mem _ hm))
    · intro x hx y hy
      obtain ⟨q, -, rfl⟩ := List.mem_map.mp hx
      obtain ⟨b, s, c, hm, q2, -, rfl⟩ := mem_toListEdges.mp hy
      have hb : b0 < b := by
        have := List.pairwise_cons.mp hs
        exact this.1 (b, s, c) hm
      exact keyLtb_cons_lt _ _ hb

/-- Induction over a node and all its descendants. -/
def radnodeInd {α : Type} {P : Radnode α → Prop}
    (h : ∀ el cs, (∀ b s c, (b, s, c) ∈ cs → P c) → P (.mk el cs)) :
    ∀ n, P n
  | .mk el cs => h el cs (fun _ _ c hm => radnodeInd h c)
termination_by n => sizeOf n
decreasing_by exact sizeOf_child_lt hm _

theorem toList_sorted {α : Type} : ∀ n : Radnode α, wfRoot n →
    sortedKeys (toList n) := by
  refine radnodeInd (fun el cs ih hwf => ?_)
  rw [wfRoot_iff] at hwf
  have hedges : sortedKeys (toListEdges cs) :=
    toListEdges_sorted hwf.1 hwf.2 (fun b s c hm =>
      ih b s c hm (wfNode_wfRoot (wfEdges_iff.mp hwf.2 b s c hm)))
  rw [toList_mk]
  cases el with
  | none => simpa using hedges
  | some e =>
    unfold sortedKeys
    rw [List.pairwise_append]
    refine ⟨by simp, hedges, ?_⟩
    rintro x hx y hy
    obtain ⟨b, s, c, -, q, -, rfl⟩ := mem_toListEdges.mp hy
    simp at hx
    simp [hx]

theorem sortedKeys_nodup {α : Type} {l : List (Key × α)}
    (h : sortedKeys l) : (l.map Prod.fst).Nodup := by
  unfold List.Nodup
  rw [List.pairwise_map]
  exact h.imp (fun hpq => keyLtb_ne hpq)

end Radtree
namespace Radtree

/-! ### Edge-list lookup and update lemmas -/

theorem findEdge_none {α : Type} {cs : List (Nat × Key × Radnode α)}
    {x : Nat} : findEdge cs x = none ↔ ∀ s c, (x, s, c) ∉ cs := by
  induction cs with
  | nil => simp [findEdge]
  | cons hd rest ih =>
    obtain ⟨b, s0, c0⟩ := hd
    by_cases hb : x = b
    · subst hb
      simp only [findEdge, if_pos rfl]
      constructor
      · intro h
        simp at h
      · intro h
        exact absurd (List.mem_cons_self _ _) (h s0 c0)
    · simp only [findEdge, if_neg hb, ih, List.mem_cons]
      constructor
      · rintro h s c (hm | hm)
        · simp only [Prod.mk.injEq] at hm
          exact hb hm.1
        · exact h s c hm
      · intro h s c hm
        exact h s c (Or.inr hm)

theorem findEdge_of_mem {α : Type} {cs : List (Nat × Key × Radnode α)}
    {x : Nat} {s : Key} {c : Radnode α} (hs : sortedEdges cs)
    (hm : (x, s, c) ∈ cs) : findEdge cs x = some (s, c) := by
  induction cs with
  | nil => simp at hm
  | cons hd rest ih =>
    obtain ⟨b, s0, c0⟩ := hd
    rcases List.mem_cons.mp hm with hm | hm
    · simp only [Prod.mk.injEq] at hm
      obtain ⟨rfl, rfl, rfl⟩ := hm
      simp [findEdge]
    · have hb : b < x := (List.pairwise_cons.mp hs).1 (x, s, c) hm
      have hxb : x ≠ b := fun h => absurd (h ▸ hb) (lt_irrefl x)
      simp only [findEdge, if_neg hxb]
      exact ih (List.Pairwise.sublist (List.sublist_cons_self _ _) hs) hm

theorem findEdge_addEdge_self {α : Type} {cs : List (Nat × Key × Radnode α)}
    {x : Nat} (s' : Key) (c' : Radnode α) (h : findEdge cs x = none) :
    findEdge (addEdge cs x s' c') x = some (s', c') := by
  induction cs with
  | nil => simp [addEdge, findEdge]
  | cons hd rest ih =>
    obtain ⟨b, s0, c0⟩ := hd
    have hxb : x ≠ b := by
      intro hh
      subst hh
      simp [findEdge] at h
    by_cases hlt : x < b
    · simp [addEdge, hlt, findEdge]
    · simp only [findEdge, if_neg hxb] at h
      simp [addEdge, hlt, findEdge, if_neg hxb, ih h]

theorem findEdge_setEdge_self {α : Type} {cs : List (Nat × Key × Radnode α)}
    {x : Nat} {s0 : Key} {c0 : Radnode α} (s' : Key) (c' : Radnode α)
    (h : findEdge cs x = some (s0, c0)) :
    findEdge (setEdge cs x s' c') x = some (s', c') := by
  induction cs with
  | nil => simp [findEdge] at h
  | cons hd rest ih =>
    obtain ⟨b, s1, c1⟩ := hd
    by_cases hb : x = b
    · subst hb
      simp [setEdge, findEdge]
    · simp only [findEdge, if_neg hb] at h
      simp [setEdge, hb, findEdge, ih h]

theorem findEdge_setEdge_other {α : Type} {cs : List (Nat × Key × Radnode α)}
    {x y : Nat} (s' : Key) (c' : Radnode α) (h : y ≠ x) :
    findEdge (setEdge cs x s' c') y = findEdge cs y := by
  induction cs with
  | nil => simp [setEdge]
  | cons hd rest ih =>
    obtain ⟨b, s1, c1⟩ := hd
    by_cases hb : x = b
    · subst hb
      simp [setEdge, findEdge, h]
    · by_cases hyb : y = b
      · subst hyb
        simp [setEdge, if_neg hb, findEdge]
      · simp [setEdge, if_neg hb, findEdge, if_neg hyb, ih]

theorem findEdge_removeEdge_self {α : Type}
    {cs : List (Nat × Key × Radnode α)} {x : Nat} (hs : sortedEdges cs) :
    findEdge (removeEdge cs x) x = none := by
  induction cs with
  | nil => simp [removeEdge, findEdge]
  | cons hd rest ih =>
    obtain ⟨b, s0, c0⟩ := hd
    have hrest := (List.pairwise_cons.mp hs).2
    by_cases hb : x = b
    · subst hb
      simp only [removeEdge, if_pos rfl]
      rw [findEdge_none]
      intro s c hm
      have := (List.pairwise_cons.mp hs).1 (x, s, c) hm
      exact lt_irrefl x this
    · simp [removeEdge, hb, findEdge, ih hrest]

theorem findEdge_removeEdge_other {α : Type}
    {cs : List (Nat × Key × Radnode α)} {x y : Nat} (h : y ≠ x) :
    findEdge (removeEdge cs x) y = findEdge cs y := by
  induction cs with
  | nil => simp [removeEdge]
  | cons hd rest ih =>
    obtain ⟨b, s0, c0⟩ := hd
    by_cases hb : x = b
    · subst hb
      simp [removeEdge, findEdge, h]
    · by_cases hyb : y = b
      · subst hyb
        simp [removeEdge, if_neg hb, findEdge]
      · simp [removeEdge, if_neg hb, findEdge, if_neg hyb, ih]

theorem mem_addEdge {α : Type} {cs : List (Nat × Key × Radnode α)}
    {x : Nat} {s' : Key} {c' : Radnode α} {p : Nat × Key × Radnode α} :
    p ∈ addEdge cs x s' c' ↔ p = (x, s', c') ∨ p ∈ cs := by
  induction cs with
  | nil => simp [addEdge]
  | cons hd rest ih =>
    obtain ⟨b, s0, c0⟩ := hd
    by_cases hlt : x < b
    · simp [addEdge, hlt]
    · simp only [addEdge, if_neg hlt, List.mem_cons, ih]
      tauto

theorem mem_setEdge {α : Type} {cs : List (Nat × Key × Radnode α)}
    {x : Nat} {s' : Key} {c' : Radnode α} {p : Nat × Key × Radnode α}
    : p ∈ setEdge cs x s' c' → p = (x, s', c') ∨ p ∈ cs := by
  induction cs generalizing p with
  | nil => intro h; simp [setEdge] at h
  | cons hd rest ih =>
    intro h
    obtain ⟨b, s0, c0⟩ := hd
    by_cases hb : x = b
    · subst hb
      simp only [setEdge, eq_self_iff_true, if_true, List.mem_cons] at h
      rcases h with hA | hA
      · exact Or.inl hA
      · exact Or.inr (List.mem_cons_of_mem _ hA)
    · simp only [setEdge, if_neg hb, List.mem_cons] at h
      rcases h with hA | hA
      · exact Or.inr (List.mem_cons.mpr (Or.inl hA))
      · rcases ih hA with h2 | h2
        · exact Or.inl h2
        · exact Or.inr (List.mem_cons_of_mem _ h2)

theorem setEdge_map_fst {α : Type} (cs : List (Nat × Key × Radnode α))
    (x : Nat) (s' : Key) (c' : Radnode α) :
    (setEdge cs x s' c').map Prod.fst = cs.map Prod.fst := by
  induction cs with
  | nil => simp [setEdge]
  | cons hd rest ih =>
    obtain ⟨b, s0, c0⟩ := hd
    by_cases hb : x = b
    · subst hb
      simp [setEdge]
    · simp [setEdge, hb, ih]

theorem sortedEdges_map_fst {α : Type} {cs : List (Nat × Key × Radnode α)} :
    sortedEdges cs ↔ (cs.map Prod.fst).Pairwise (· < ·) := by
  unfold sortedEdges
  rw [List.pairwise_map]

theorem sortedEdges_setEdge {α : Type} {cs : List (Nat × Key × Radnode α)}
    {x : Nat} {s' : Key} {c' : Radnode α} (hs : sortedEdges cs) :
    sortedEdges (setEdge cs x s' c') := by
  rw [sortedEdges_map_fst, setEdge_map_fst]
  exact sortedEdges_map_fst.mp hs

theorem removeEdge_sublist {α : Type} (cs : List (Nat × Key × Radnode α))
    (x : Nat) : (removeEdge cs x).Sublist cs := by
  induction cs with
  | nil => simp [removeEdge]
  | cons hd rest ih =>
    obtain ⟨b, s0, c0⟩ := hd
    by_cases hb : x = b
    · subst hb
      simp only [removeEdge, if_pos rfl]
      exact List.sublist_cons_self _ _
    · simp only [removeEdge, if_neg hb]
      exact List.Sublist.cons₂ _ ih

theorem sortedEdges_removeEdge {α : Type} {cs : List (Nat × Key × Radnode α)}
    {x : Nat} (hs : sortedEdges cs) : sortedEdges (removeEdge cs x) :=
  List.Pairwise.sublist (removeEdge_sublist cs x) hs

theorem sortedEdges_addEdge {α : Type} {cs : List (Nat × Key × Radnode α)}
    {x : Nat} {s' : Key} {c' : Radnode α} (hs : sortedEdges cs)
    (hnone : findEdge cs x = none) : sortedEdges (addEdge cs x s' c') := by
  induction cs with
  | nil => simp [addEdge, sortedEdges]
  | cons hd rest ih =>
    obtain ⟨b, s0, c0⟩ := hd
    have hxb : x ≠ b := by
      intro hh
      subst hh
      simp [findEdge] at hnone
    have hrest : findEdge rest x = none := by
      simpa [findEdge, if_neg hxb] using hnone
    have hcons := List.pairwise_cons.mp hs
    by_cases hlt : x < b
    · simp only [addEdge, if_pos hlt]
      unfold sortedEdges
      rw [List.pairwise_cons]
      refine ⟨?_, hs⟩
      intro p hp
      rcases List.mem_cons.mp hp with rfl | hp
      · exact hlt
      · exact lt_trans hlt (hcons.1 p hp)
    · simp only [addEdge, if_neg hlt]
      unfold sortedEdges
      rw [List.pairwise_cons]
      refine ⟨?_, ih hcons.2 hrest⟩
      intro p hp
      rcases mem_addEdge.mp hp with rfl | hp
      · exact lt_of_le_of_ne (Nat.le_of_not_lt hlt) (Ne.symm hxb)
      · exact hcons.1 p hp

end Radtree
namespace Radtree

/-! ### Search: unfolding equations and correspondence with the stored list -/

theorem searchNode_nil {α : Type} (n : Radnode α) :
    searchNode n [] = if n.elem.isSome then some n else none := by
  cases n with
  | mk el cs => rw [searchNode.eq_def]

theorem searchNode_cons_none {α : Type} {el : Option α}
    {cs : List (Nat × Key × Radnode α)} {b : Nat} (k' : Key)
    (hf : findEdge cs b = none) :
    searchNode (.mk el cs) (b :: k') = none := by
  rw [searchNode.eq_def]
  split
  all_goals try split
  all_goals simp_all

theorem searchNode_cons_pfx {α : Type} {el : Option α}
    {cs : List (Nat × Key × Radnode α)} {b : Nat} {k' s : Key}
    {c : Radnode α} (hf : findEdge cs b = some (s, c))
    (hp : bstr_is_prefix_ext s k' = true) :
    searchNode (.mk el cs) (b :: k') = searchNode c (k'.drop s.length) := by
  rw [searchNode.eq_def]
  split
  all_goals try split
  all_goals simp_all

theorem searchNode_cons_nopfx {α : Type} {el : Option α}
    {cs : List (Nat × Key × Radnode α)} {b : Nat} {k' s : Key}
    {c : Radnode α} (hf : findEdge cs b = some (s, c))
    (hp : ¬ bstr_is_prefix_ext s k' = true) :
    searchNode (.mk el cs) (b :: k') = none := by
  rw [searchNode.eq_def]
  split
  all_goals try split
  all_goals simp_all

theorem searchElem_nil {α : Type} (el : Option α)
    (cs : List (Nat × Key × Radnode α)) :
    searchElem (.mk el cs) [] = el := by
  rw [searchElem, searchNode_nil]
  cases el <;> simp [Radnode.elem]

theorem searchElem_cons_none {α : Type} {el : Option α}
    {cs : List (Nat × Key × Radnode α)} {b : Nat} (k' : Key)
    (hf : findEdge cs b = none) :
    searchElem (.mk el cs) (b :: k') = none := by
  rw [searchElem, searchNode_cons_none k' hf]
  rfl

theorem searchElem_cons_pfx {α : Type} {el : Option α}
    {cs : List (Nat × Key × Radnode α)} {b : Nat} {k' s : Key}
    {c : Radnode α} (hf : findEdge cs b = some (s, c))
    (hp : bstr_is_prefix_ext s k' = true) :
    searchElem (.mk el cs) (b :: k') = searchElem c (k'.drop s.length) := by
  rw [searchElem, searchNode_cons_pfx hf hp, searchElem]

theorem searchElem_cons_nopfx {α : Type} {el : Option α}
    {cs : List (Nat × Key × Radnode α)} {b : Nat} {k' s : Key}
    {c : Radnode α} (hf : findEdge cs b = some (s, c))
    (hp : ¬ bstr_is_prefix_ext s k' = true) :
    searchElem (.mk el cs) (b :: k') = none := by
  rw [searchElem, searchNode_cons_nopfx hf hp]
  rfl

theorem searchNode_isSome_elem {α : Type} : ∀ (n : Radnode α) (k : Key)
    (m : Radnode α), searchNode n k = some m → m.elem.isSome := by
  refine radnodeInd (fun el cs ih k m => ?_)
  cases k with
  | nil =>
    rw [searchNode_nil]
    by_cases h : (Radnode.mk el cs).elem.isSome
    · rw [if_pos h]
      rintro heq
      cases heq
      exact h
    · rw [if_neg h]
      rintro ⟨⟩
  | cons b k' =>
    cases hf : findEdge cs b with
    | none =>
      rw [searchNode_cons_none k' hf]
      rintro ⟨⟩
    | some sc =>
      obtain ⟨s, c⟩ := sc
      by_cases hp : bstr_is_prefix_ext s k'
      · rw [searchNode_cons_pfx hf hp]
        exact ih b s c (findEdge_mem hf) _ m
      · rw [searchNode_cons_nopfx hf hp]
        rintro ⟨⟩

theorem searchElem_eq_none_iff {α : Type} (n : Radnode α) (k : Key) :
    searchElem n k = none ↔ searchNode n k = none := by
  rw [searchElem]
  cases hs : searchNode n k with
  | none => simp [hs]
  | some m =>
    have hm := searchNode_isSome_elem n k m hs
    rw [Option.isSome_iff_exists] at hm
    obtain ⟨e, he⟩ := hm
    simp [hs, he]

theorem searchElem_toList {α : Type} : ∀ n : Radnode α, wfRoot n →
    ∀ (k : Key) (e : α), (searchElem n k = some e ↔ (k, e) ∈ toList n) := by
  refine radnodeInd (fun el cs ih hwf k e => ?_)
  rw [wfRoot_iff] at hwf
  cases k with
  | nil =>
    rw [searchElem_nil, mem_toList_mk]
    constructor
    · intro h
      exact Or.inl ⟨h, rfl⟩
    · rintro (⟨h, -⟩ | h)
      · exact h
      · obtain ⟨b, s, c, -, q, -, heq⟩ := mem_toListEdges.mp h
        exact absurd (congrArg Prod.fst heq) (by simp)
  | cons b k' =>
    rw [mem_toList_mk]
    cases hf : findEdge cs b with
    | none =>
      rw [searchElem_cons_none k' hf]
      constructor
      · rintro ⟨⟩
      · rintro (⟨-, habs⟩ | h)
        · exact absurd habs (by simp)
        · obtain ⟨b2, s2, c2, hm2, q, -, heq⟩ := mem_toListEdges.mp h
          have hfst := congrArg Prod.fst heq
          injection hfst with hb2 hk
          subst hb2
          exact absurd hm2 (findEdge_none.mp hf s2 c2)
    | some sc =>
      obtain ⟨s, c⟩ := sc
      have hmem := findEdge_mem hf
      by_cases hp : bstr_is_prefix_ext s k'
      · rw [searchElem_cons_pfx hf hp]
        have hwfc : wfRoot c := wfNode_wfRoot (wfEdges_iff.mp hwf.2 _ _ _ hmem)
        rw [ih b s c hmem hwfc (k'.drop s.length) e]
        constructor
        · intro hq
          refine Or.inr (mem_toListEdges.mpr
            ⟨b, s, c, hmem, (k'.drop s.length, e), hq, ?_⟩)
          have hd : k' = s ++ k'.drop s.length := bstr_prefix_drop hp
          rw [Prod.mk.injEq]
          exact ⟨congrArg (fun t => b :: t) hd, rfl⟩
        · rintro (⟨-, habs⟩ | h)
          · exact absurd habs (by simp)
          · obtain ⟨b2, s2, c2, hm2, q, hq, heq⟩ := mem_toListEdges.mp h
            have hfst := congrArg Prod.fst heq
            injection hfst with hb2 hk
            subst hb2
            have hfind2 := findEdge_of_mem hwf.1 hm2
            rw [hf] at hfind2
            have hpair := Option.some.inj hfind2
            have hs2 : s2 = s := (congrArg Prod.fst hpair).symm
            have hc2 : c2 = c := (congrArg Prod.snd hpair).symm
            subst hs2
            subst hc2
            have hq1 : q.1 = k'.drop s2.length := by
              rw [hk]
              simp
            have he2 : q.2 = e := (congrArg Prod.snd heq).symm
            have hqeq : q = (k'.drop s2.length, e) := by
              rw [Prod.ext_iff]
              exact ⟨hq1, he2⟩
            rwa [hqeq] at hq
      · rw [searchElem_cons_nopfx hf hp]
        constructor
        · rintro ⟨⟩
        · rintro (⟨-, habs⟩ | h)
          · exact absurd habs (by simp)
          · obtain ⟨b2, s2, c2, hm2, q, hq, heq⟩ := mem_toListEdges.mp h
            have hfst := congrArg Prod.fst heq
            injection hfst with hb2 hk
            subst hb2
            have hfind2 := findEdge_of_mem hwf.1 hm2
            rw [hf] at hfind2
            have hpair := Option.some.inj hfind2
            have hs2 : s2 = s := (congrArg Prod.fst hpair).symm
            subst hs2
            exact absurd (bstr_is_prefix_iff.mpr ⟨q.1, hk⟩) hp

end Radtree
namespace Radtree

/-! ### Insert and delete: unfolding equations -/

theorem insertNode_nil_dup {α : Type} (x : α)
    (cs : List (Nat × Key × Radnode α)) (e : α) :
    insertNode (.mk (some x) cs) [] e = none := by
  rw [insertNode.eq_def]

theorem insertNode_nil_free {α : Type} (cs : List (Nat × Key × Radnode α))
    (e : α) :
    insertNode (.mk none cs) [] e = some (.mk (some e) cs) := by
  rw [insertNode.eq_def]

theorem insertNode_cons_nofind {α : Type} {el : Option α}
    {cs : List (Nat × Key × Radnode α)} {b : Nat} (k' : Key) (e : α)
    (hf : findEdge cs b = none) :
    insertNode (.mk el cs) (b :: k') e =
      some (.mk el (addEdge cs b k' (.mk (some e) []))) := by
  rw [insertNode.eq_def]
  split
  all_goals try split
  all_goals simp_all
  all_goals try split
  all_goals simp_all [List.drop_eq_nil_of_le]

theorem insertNode_cons_pfx {α : Type} {el : Option α}
    {cs : List (Nat × Key × Radnode α)} {b : Nat} {k' s : Key}
    {c : Radnode α} (e : α) (hf : findEdge cs b = some (s, c))
    (hp : bstr_is_prefix_ext s k' = true) :
    insertNode (.mk el cs) (b :: k') e =
      (insertNode c (k'.drop s.length) e).map
        (fun c' => .mk el (setEdge cs b s c')) := by
  rw [insertNode.eq_def]
  split
  all_goals try split
  all_goals simp_all
  all_goals try split
  all_goals simp_all [List.drop_eq_nil_of_le]

theorem insertNode_cons_split_elem {α : Type} {el : Option α}
    {cs : List (Nat × Key × Radnode α)} {b : Nat} {k' s : Key}
    {c : Radnode α} {x : Nat} {srest : Key} (e : α)
    (hf : findEdge cs b = some (s, c))
    (hp : ¬ bstr_is_prefix_ext s k' = true)
    (hds : s.drop (bstr_common_ext s k') = x :: srest)
    (hdk : k'.drop (bstr_common_ext s k') = []) :
    insertNode (.mk el cs) (b :: k') e =
      some (.mk el (setEdge cs b (s.take (bstr_common_ext s k'))
        (.mk (some e) [(x, srest, c)]))) := by
  rw [insertNode.eq_def]
  split
  all_goals try split
  all_goals simp_all
  all_goals try split
  all_goals simp_all [List.drop_eq_nil_of_le]

theorem insertNode_cons_split_two {α : Type} {el : Option α}
    {cs : List (Nat × Key × Radnode α)} {b : Nat} {k' s : Key}
    {c : Radnode α} {x y : Nat} {srest krest : Key} (e : α)
    (hf : findEdge cs b = some (s, c))
    (hp : ¬ bstr_is_prefix_ext s k' = true)
    (hds : s.drop (bstr_common_ext s k') = x :: srest)
    (hdk : k'.drop (bstr_common_ext s k') = y :: krest) :
    insertNode (.mk el cs) (b :: k') e =
      some (.mk el (setEdge cs b (s.take (bstr_common_ext s k'))
        (.mk none (addEdge [(x, srest, c)] y krest (.mk (some e) []))))) := by
  rw [insertNode.eq_def]
  split
  all_goals try split
  all_goals simp_all
  all_goals try split
  all_goals simp_all [List.drop_eq_nil_of_le]

theorem delNode_nil {α : Type} (el : Option α)
    (cs : List (Nat × Key × Radnode α)) :
    delNode (.mk el cs) [] = .mk none cs := by
  rw [delNode.eq_def]

theorem delNode_cons_nofind {α : Type} {el : Option α}
    {cs : List (Nat × Key × Radnode α)} {b : Nat} (k' : Key)
    (hf : findEdge cs b = none) :
    delNode (.mk el cs) (b :: k') = .mk el cs := by
  rw [delNode.eq_def]
  split
  all_goals try split
  all_goals simp_all
  all_goals try split
  all_goals simp_all [List.drop_eq_nil_of_le]

theorem delNode_cons_nopfx {α : Type} {el : Option α}
    {cs : List (Nat × Key × Radnode α)} {b : Nat} {k' s : Key}
    {c : Radnode α} (hf : findEdge cs b = some (s, c))
    (hp : ¬ bstr_is_prefix_ext s k' = true) :
    delNode (.mk el cs) (b :: k') = .mk el cs := by
  rw [delNode.eq_def]
  split
  all_goals try split
  all_goals simp_all
  all_goals try split
  all_goals simp_all [List.drop_eq_nil_of_le]

theorem delNode_cons_pfx_rem {α : Type} {el : Option α}
    {cs : List (Nat × Key × Radnode α)} {b : Nat} {k' s : Key}
    {c : Radnode α} (hf : findEdge cs b = some (s, c))
    (hp : bstr_is_prefix_ext s k' = true)
    (hfix : fixEdge s (delNode c (k'.drop s.length)) = none) :
    delNode (.mk el cs) (b :: k') = .mk el (removeEdge cs b) := by
  rw [delNode.eq_def]
  split
  all_goals try split
  all_goals simp_all
  all_goals try split
  all_goals simp_all [List.drop_eq_nil_of_le]

theorem delNode_cons_pfx_set {α : Type} {el : Option α}
    {cs : List (Nat × Key × Radnode α)} {b : Nat} {k' s s2 : Key}
    {c c2 : Radnode α} (hf : findEdge cs b = some (s, c))
    (hp : bstr_is_prefix_ext s k' = true)
    (hfix : fixEdge s (delNode c (k'.drop s.length)) = some (s2, c2)) :
    delNode (.mk el cs) (b :: k') = .mk el (setEdge cs b s2 c2) := by
  rw [delNode.eq_def]
  split
  all_goals try split
  all_goals simp_all
  all_goals try split
  all_goals simp_all [List.drop_eq_nil_of_le]

theorem fixEdge_none_iff {α : Type} {s : Key} {c : Radnode α} :
    fixEdge s c = none ↔ c = .mk none [] := by
  cases c with
  | mk el cs =>
    cases el with
    | some e =>
      cases cs with
      | nil => simp [fixEdge]
      | cons hd rest =>
        cases rest <;> simp [fixEdge]
    | none =>
      cases cs with
      | nil => simp [fixEdge]
      | cons hd rest =>
        obtain ⟨x, xs, g⟩ := hd
        cases rest <;> simp [fixEdge]

theorem fixEdge_merge {α : Type} (s : Key) (x : Nat) (xs : Key)
    (g : Radnode α) :
    fixEdge s (.mk none [(x, xs, g)]) = some (s ++ x :: xs, g) := rfl

theorem fixEdge_keep {α : Type} {s : Key} {c : Radnode α}
    (h : c.elem.isSome ∨ 2 ≤ c.children.length) :
    fixEdge s c = some (s, c) := by
  cases c with
  | mk el cs =>
    cases el with
    | some e =>
      cases cs with
      | nil => rfl
      | cons hd rest => cases rest <;> rfl
    | none =>
      cases cs with
      | nil => simp [Radnode.elem, Radnode.children] at h
      | cons hd rest =>
        cases rest with
        | nil =>
          simp [Radnode.elem, Radnode.children] at h
        | cons hd2 rest2 => rfl

end Radtree
namespace Radtree

/-! ### Insert: duplicate failure and search-after-insert -/

theorem bstr_is_prefix_refl (x : Key) : bstr_is_prefix_ext x x = true :=
  bstr_is_prefix_iff.mpr ⟨[], (List.append_nil _).symm⟩

theorem bstr_common_full_right {s k' : Key}
    (h : k'.drop (bstr_common_ext s k') = []) : s.take (bstr_common_ext s k') = k' := by
  have h1 : (k'.drop (bstr_common_ext s k')).length = 0 := by rw [h]; rfl
  rw [List.length_drop] at h1
  have h2 : bstr_common_ext s k' ≤ k'.length := bstr_common_le_right s k'
  have h3 : bstr_common_ext s k' = k'.length := by omega
  rw [bstr_common_take s k', h3, List.take_length]

theorem bstr_common_lt_left {s k' : Key} {x : Nat} {srest : Key}
    (h : s.drop (bstr_common_ext s k') = x :: srest) :
    bstr_common_ext s k' < s.length := by
  have h1 : (s.drop (bstr_common_ext s k')).length = s.length - bstr_common_ext s k' := List.length_drop _ _
  rw [h] at h1
  simp at h1
  omega

theorem insertNode_dup {α : Type} : ∀ (n : Radnode α) (k : Key) (e0 e : α),
    searchElem n k = some e0 → insertNode n k e = none := by
  refine radnodeInd (fun el cs ih k e0 e hs => ?_)
  cases k with
  | nil =>
    rw [searchElem_nil] at hs
    rw [hs]
    exact insertNode_nil_dup e0 cs e
  | cons b k' =>
    cases hf : findEdge cs b with
    | none =>
      rw [searchElem_cons_none k' hf] at hs
      cases hs
    | some sc =>
      obtain ⟨s, c⟩ := sc
      by_cases hp : bstr_is_prefix_ext s k'
      · rw [searchElem_cons_pfx hf hp] at hs
        rw [insertNode_cons_pfx e hf hp,
          ih b s c (findEdge_mem hf) _ e0 e hs]
        rfl
      · rw [searchElem_cons_nopfx hf hp] at hs
        cases hs

theorem insertNode_searchElem {α : Type} : ∀ (n : Radnode α) (k : Key)
    (e : α) (n' : Radnode α),
    insertNode n k e = some n' → searchElem n' k = some e := by
  refine radnodeInd (fun el cs ih k e n' hins => ?_)
  cases k with
  | nil =>
    cases el with
    | some x =>
      rw [insertNode_nil_dup x cs e] at hins
      cases hins
    | none =>
      rw [insertNode_nil_free cs e] at hins
      obtain rfl := Option.some.inj hins
      rw [searchElem_nil]
  | cons b k' =>
    cases hf : findEdge cs b with
    | none =>
      rw [insertNode_cons_nofind k' e hf] at hins
      obtain rfl := Option.some.inj hins
      have hfa := findEdge_addEdge_self k' (Radnode.mk (some e) []) hf
      rw [searchElem_cons_pfx hfa (bstr_is_prefix_refl k'), List.drop_length,
        searchElem_nil]
    | some sc =>
      obtain ⟨s, c⟩ := sc
      by_cases hp : bstr_is_prefix_ext s k'
      · rw [insertNode_cons_pfx e hf hp] at hins
        cases hrec : insertNode c (k'.drop s.length) e with
        | none =>
          rw [hrec] at hins
          cases hins
        | some c' =>
          rw [hrec] at hins
          obtain rfl := Option.some.inj hins
          have hf2 := findEdge_setEdge_self s c' hf
          rw [searchElem_cons_pfx hf2 hp]
          exact ih b s c (findEdge_mem hf) _ e c' hrec
      · cases hds : s.drop (bstr_common_ext s k') with
        | nil =>
          exfalso
          have h1 : (s.drop (bstr_common_ext s k')).length =
              s.length - bstr_common_ext s k' := List.length_drop _ _
          rw [hds] at h1
          simp at h1
          have h2 : bstr_common_ext s k' ≤ s.length := bstr_common_le_left s k'
          have h3 : bstr_common_ext s k' = s.length := by omega
          have h4 : s.take (bstr_common_ext s k') = s := by
            rw [h3, List.take_length]
          have h5 : k' = s ++ k'.drop (bstr_common_ext s k') := by
            conv_lhs => rw [← List.take_append_drop (bstr_common_ext s k') k']
            rw [← bstr_common_take s k', h4]
          exact hp (bstr_is_prefix_iff.mpr ⟨_, h5⟩)
        | cons x srest =>
          cases hdk : k'.drop (bstr_common_ext s k') with
          | nil =>
            rw [insertNode_cons_split_elem e hf hp hds hdk] at hins
            obtain rfl := Option.some.inj hins
            have hpk : s.take (bstr_common_ext s k') = k' :=
              bstr_common_full_right hdk
            have hf2 := findEdge_setEdge_self (s.take (bstr_common_ext s k'))
              (Radnode.mk (some e) [(x, srest, c)]) hf
            rw [searchElem_cons_pfx hf2 (by rw [hpk]; exact bstr_is_prefix_refl k')]
            rw [hpk, List.drop_length, searchElem_nil]
          | cons y krest =>
            rw [insertNode_cons_split_two e hf hp hds hdk] at hins
            obtain rfl := Option.some.inj hins
            have hmlt : bstr_common_ext s k' < s.length := bstr_common_lt_left hds
            have hlenp : (s.take (bstr_common_ext s k')).length =
                bstr_common_ext s k' := by
              rw [List.length_take]
              omega
            have hk'eq : k' = s.take (bstr_common_ext s k') ++ y :: krest := by
              conv_lhs => rw [← List.take_append_drop (bstr_common_ext s k') k']
              rw [← bstr_common_take s k', hdk]
            have hf2 := findEdge_setEdge_self (s.take (bstr_common_ext s k'))
              (Radnode.mk none (addEdge [(x, srest, c)] y krest
                (Radnode.mk (some e) []))) hf
            rw [searchElem_cons_pfx hf2 (bstr_is_prefix_iff.mpr ⟨_, hk'eq⟩)]
            have hdrop : k'.drop (s.take (bstr_common_ext s k')).length =
                y :: krest := by
              rw [hlenp]
              exact hdk
            rw [hdrop]
            have hxy : x ≠ y := bstr_common_ne s k' hds hdk
            have hfy : findEdge [(x, srest, c)] y = none := by
              simp [findEdge]
              intro h
              exact absurd h.symm hxy
            have hfa := findEdge_addEdge_self krest (Radnode.mk (some e) []) hfy
            rw [searchElem_cons_pfx hfa (bstr_is_prefix_refl krest),
              List.drop_length, searchElem_nil]

end Radtree
namespace Radtree

/-! ### Delete: search-after-delete is absent -/

theorem delNode_searchElem {α : Type} : ∀ n : Radnode α, wfRoot n →
    ∀ k : Key, searchElem (delNode n k) k = none := by
  refine radnodeInd (fun el cs ih hwf k => ?_)
  rw [wfRoot_iff] at hwf
  cases k with
  | nil => rw [delNode_nil, searchElem_nil]
  | cons b k' =>
    cases hf : findEdge cs b with
    | none =>
      rw [delNode_cons_nofind k' hf]
      exact searchElem_cons_none k' hf
    | some sc =>
      obtain ⟨s, c⟩ := sc
      have hmem := findEdge_mem hf
      have hwfc : wfRoot c := wfNode_wfRoot (wfEdges_iff.mp hwf.2 _ _ _ hmem)
      by_cases hp : bstr_is_prefix_ext s k'
      · have hrec := ih b s c hmem hwfc (k'.drop s.length)
        cases hc' : delNode c (k'.drop s.length) with
        | mk el' cs' =>
          cases el' with
          | some e' =>
            have hfix : fixEdge s (Radnode.mk (some e') cs') =
                some (s, .mk (some e') cs') :=
              fixEdge_keep (Or.inl (by simp [Radnode.elem]))
            rw [delNode_cons_pfx_set hf hp (by rw [hc']; exact hfix)]
            have hf2 := findEdge_setEdge_self s (Radnode.mk (some e') cs') hf
            rw [searchElem_cons_pfx hf2 hp]
            rw [hc'] at hrec
            exact hrec
          | none =>
            cases cs' with
            | nil =>
              have hfix : fixEdge s (Radnode.mk none
                  ([] : List (Nat × Key × Radnode α))) = none :=
                fixEdge_none_iff.mpr rfl
              rw [delNode_cons_pfx_rem hf hp (by rw [hc']; exact hfix)]
              have hnone : findEdge (removeEdge cs b) b = none :=
                findEdge_removeEdge_self hwf.1
              exact searchElem_cons_none k' hnone
            | cons hd rest =>
              cases rest with
              | nil =>
                obtain ⟨x, xs, g⟩ := hd
                have hfix := fixEdge_merge s x xs g
                rw [delNode_cons_pfx_set hf hp (by rw [hc']; exact hfix)]
                have hf2 := findEdge_setEdge_self (s ++ x :: xs) g hf
                by_cases hp2 : bstr_is_prefix_ext (s ++ x :: xs) k'
                · rw [searchElem_cons_pfx hf2 hp2]
                  obtain ⟨t, ht⟩ := bstr_is_prefix_iff.mp hp2
                  rw [hc'] at hrec
                  have hd1 : k'.drop s.length = x :: (xs ++ t) := by
                    rw [ht, List.append_assoc]
                    exact List.drop_left _ _
                  rw [hd1] at hrec
                  have hfx : findEdge [(x, xs, g)] x = some (xs, g) := by
                    simp [findEdge]
                  have hpx : bstr_is_prefix_ext xs (xs ++ t) = true :=
                    bstr_is_prefix_iff.mpr ⟨t, rfl⟩
                  rw [searchElem_cons_pfx hfx hpx] at hrec
                  rw [List.drop_left] at hrec
                  rw [ht, List.drop_left]
                  exact hrec
                · rw [searchElem_cons_nopfx hf2 hp2]
              | cons hd2 rest2 =>
                have hfix : fixEdge s (Radnode.mk none (hd :: hd2 :: rest2)) =
                    some (s, .mk none (hd :: hd2 :: rest2)) :=
                  fixEdge_keep (Or.inr (by simp [Radnode.children]))
                rw [delNode_cons_pfx_set hf hp (by rw [hc']; exact hfix)]
                have hf2 := findEdge_setEdge_self s
                  (Radnode.mk none (hd :: hd2 :: rest2)) hf
                rw [searchElem_cons_pfx hf2 hp]
                rw [hc'] at hrec
                exact hrec
      · rw [delNode_cons_nopfx hf hp]
        exact searchElem_cons_nopfx hf hp

end Radtree
namespace Radtree

/-! ### Element counting under insert and delete -/

theorem countElemsEdges_addEdge {α : Type}
    (cs : List (Nat × Key × Radnode α)) (x : Nat) (s' : Key)
    (c' : Radnode α) :
    countElemsEdges (addEdge cs x s' c') = countElemsEdges cs + countElems c' := by
  induction cs with
  | nil => simp [addEdge]
  | cons hd rest ih =>
    obtain ⟨b, s0, c0⟩ := hd
    by_cases hlt : x < b
    · simp only [addEdge, if_pos hlt, countElemsEdges_cons]
      omega
    · simp only [addEdge, if_neg hlt, countElemsEdges_cons, ih]
      omega

theorem countElemsEdges_setEdge {α : Type}
    {cs : List (Nat × Key × Radnode α)} {x : Nat} {s : Key} {c : Radnode α}
    (hf : findEdge cs x = some (s, c)) (s' : Key) (c' : Radnode α) :
    countElemsEdges (setEdge cs x s' c') + countElems c =
      countElemsEdges cs + countElems c' := by
  induction cs with
  | nil => simp [findEdge] at hf
  | cons hd rest ih =>
    obtain ⟨b, s0, c0⟩ := hd
    by_cases hb : x = b
    · subst hb
      simp only [findEdge, if_pos rfl] at hf
      obtain ⟨rfl, rfl⟩ : s0 = s ∧ c0 = c := by
        have := Option.some.inj hf
        exact ⟨congrArg Prod.fst this, congrArg Prod.snd this⟩
      simp only [setEdge, eq_self_iff_true, if_true, countElemsEdges_cons]
      omega
    · simp only [findEdge, if_neg hb] at hf
      simp only [setEdge, if_neg hb, countElemsEdges_cons]
      have := ih hf
      omega

theorem countElemsEdges_removeEdge {α : Type}
    {cs : List (Nat × Key × Radnode α)} {x : Nat} {s : Key} {c : Radnode α}
    (hf : findEdge cs x = some (s, c)) :
    countElemsEdges (removeEdge cs x) + countElems c = countElemsEdges cs := by
  induction cs with
  | nil => simp [findEdge] at hf
  | cons hd rest ih =>
    obtain ⟨b, s0, c0⟩ := hd
    by_cases hb : x = b
    · subst hb
      simp only [findEdge, if_pos rfl] at hf
      obtain ⟨rfl, rfl⟩ : s0 = s ∧ c0 = c := by
        have := Option.some.inj hf
        exact ⟨congrArg Prod.fst this, congrArg Prod.snd this⟩
      simp only [removeEdge, eq_self_iff_true, if_true, countElemsEdges_cons]
      omega
    · simp only [findEdge, if_neg hb] at hf
      simp only [removeEdge, if_neg hb, countElemsEdges_cons]
      have := ih hf
      omega

theorem insertNode_count {α : Type} : ∀ (n : Radnode α) (k : Key) (e : α)
    (n' : Radnode α), insertNode n k e = some n' →
    countElems n' = countElems n + 1 := by
  refine radnodeInd (fun el cs ih k e n' hins => ?_)
  cases k with
  | nil =>
    cases el with
    | some x =>
      rw [insertNode_nil_dup x cs e] at hins
      cases hins
    | none =>
      rw [insertNode_nil_free cs e] at hins
      obtain rfl := Option.some.inj hins
      simp [countElems_mk]
      omega
  | cons b k' =>
    cases hf : findEdge cs b with
    | none =>
      rw [insertNode_cons_nofind k' e hf] at hins
      obtain rfl := Option.some.inj hins
      simp [countElemsEdges_addEdge]
      omega
    | some sc =>
      obtain ⟨s, c⟩ := sc
      by_cases hp : bstr_is_prefix_ext s k'
      · rw [insertNode_cons_pfx e hf hp] at hins
        cases hrec : insertNode c (k'.drop s.length) e with
        | none =>
          rw [hrec] at hins
          cases hins
        | some c' =>
          rw [hrec] at hins
          obtain rfl := Option.some.inj hins
          have hcount := ih b s c (findEdge_mem hf) _ e c' hrec
          have hset := countElemsEdges_setEdge hf s c'
          simp only [countElems_mk]
          omega
      · cases hds : s.drop (bstr_common_ext s k') with
        | nil =>
          rw [insertNode.eq_def] at hins
          simp only [hf] at hins
          exfalso
          have h1 : (s.drop (bstr_common_ext s k')).length =
              s.length - bstr_common_ext s k' := List.length_drop _ _
          rw [hds] at h1
          simp at h1
          have h2 : bstr_common_ext s k' ≤ s.length := bstr_common_le_left s k'
          have h3 : bstr_common_ext s k' = s.length := by omega
          have h4 : s.take (bstr_common_ext s k') = s := by
            rw [h3, List.take_length]
          have h5 : k' = s ++ k'.drop (bstr_common_ext s k') := by
            conv_lhs => rw [← List.take_append_drop (bstr_common_ext s k') k']
            rw [← bstr_common_take s k', h4]
          exact hp (bstr_is_prefix_iff.mpr ⟨_, h5⟩)
        | cons x srest =>
          cases hdk : k'.drop (bstr_common_ext s k') with
          | nil =>
            rw [insertNode_cons_split_elem e hf hp hds hdk] at hins
            obtain rfl := Option.some.inj hins
            have hset := countElemsEdges_setEdge hf
              (s.take (bstr_common_ext s k'))
              (Radnode.mk (some e) [(x, srest, c)])
            simp only [countElems_mk] at hset ⊢
            simp only [countElemsEdges_cons, countElemsEdges_nil] at hset
            simp at hset
            omega
          | cons y krest =>
            rw [insertNode_cons_split_two e hf hp hds hdk] at hins
            obtain rfl := Option.some.inj hins
            have hset := countElemsEdges_setEdge hf
              (s.take (bstr_common_ext s k'))
              (Radnode.mk none (addEdge [(x, srest, c)] y krest
                (Radnode.mk (some e) [])))
            simp only [countElems_mk, countElemsEdges_addEdge,
              countElemsEdges_cons, countElemsEdges_nil] at hset ⊢
            simp at hset
            omega

end Radtree
namespace Radtree

theorem delNode_count {α : Type} : ∀ (n : Radnode α) (k : Key) (e0 : α),
    searchElem n k = some e0 → countElems (delNode n k) + 1 = countElems n := by
  refine radnodeInd (fun el cs ih k e0 hs => ?_)
  cases k with
  | nil =>
    rw [searchElem_nil] at hs
    rw [delNode_nil, hs]
    simp
    omega
  | cons b k' =>
    cases hf : findEdge cs b with
    | none =>
      rw [searchElem_cons_none k' hf] at hs
      cases hs
    | some sc =>
      obtain ⟨s, c⟩ := sc
      by_cases hp : bstr_is_prefix_ext s k'
      · rw [searchElem_cons_pfx hf hp] at hs
        have hrec := ih b s c (findEdge_mem hf) _ e0 hs
        cases hc' : delNode c (k'.drop s.length) with
        | mk el' cs' =>
          rw [hc'] at hrec
          cases el' with
          | some e' =>
            have hfix : fixEdge s (Radnode.mk (some e') cs') =
                some (s, .mk (some e') cs') :=
              fixEdge_keep (Or.inl (by simp [Radnode.elem]))
            rw [delNode_cons_pfx_set hf hp (by rw [hc']; exact hfix)]
            have hset := countElemsEdges_setEdge hf s (Radnode.mk (some e') cs')
            simp only [countElems_mk] at hrec hset ⊢
            omega
          | none =>
            cases cs' with
            | nil =>
              have hfix : fixEdge s (Radnode.mk none
                  ([] : List (Nat × Key × Radnode α))) = none :=
                fixEdge_none_iff.mpr rfl
              rw [delNode_cons_pfx_rem hf hp (by rw [hc']; exact hfix)]
              have hrem := countElemsEdges_removeEdge hf
              simp only [countElems_mk, countElemsEdges_nil] at hrec hrem ⊢
              simp at hrec
              omega
            | cons hd rest =>
              cases rest with
              | nil =>
                obtain ⟨x, xs, g⟩ := hd
                have hfix := fixEdge_merge s x xs g
                rw [delNode_cons_pfx_set hf hp (by rw [hc']; exact hfix)]
                have hset := countElemsEdges_setEdge hf (s ++ x :: xs) g
                simp only [countElems_mk, countElemsEdges_cons,
                  countElemsEdges_nil] at hrec hset ⊢
                simp at hrec
                omega
              | cons hd2 rest2 =>
                have hfix : fixEdge s (Radnode.mk none (hd :: hd2 :: rest2)) =
                    some (s, .mk none (hd :: hd2 :: rest2)) :=
                  fixEdge_keep (Or.inr (by simp [Radnode.children]))
                rw [delNode_cons_pfx_set hf hp (by rw [hc']; exact hfix)]
                have hset := countElemsEdges_setEdge hf s
                  (Radnode.mk none (hd :: hd2 :: rest2))
                simp only [countElems_mk] at hrec hset ⊢
                omega
      · rw [searchElem_cons_nopfx hf hp] at hs
        cases hs

end Radtree
namespace Radtree

/-! ### Structural invariant preservation -/

theorem addEdge_length {α : Type} (cs : List (Nat × Key × Radnode α))
    (x : Nat) (s' : Key) (c' : Radnode α) :
    (addEdge cs x s' c').length = cs.length + 1 := by
  induction cs with
  | nil => simp [addEdge]
  | cons hd rest ih =>
    obtain ⟨b, s0, c0⟩ := hd
    by_cases hlt : x < b <;> simp [addEdge, hlt, ih]

theorem setEdge_length {α : Type} (cs : List (Nat × Key × Radnode α))
    (x : Nat) (s' : Key) (c' : Radnode α) :
    (setEdge cs x s' c').length = cs.length := by
  have h := congrArg List.length (setEdge_map_fst cs x s' c')
  simpa using h

theorem wfEdges_setEdge {α : Type} {cs : List (Nat × Key × Radnode α)}
    {x : Nat} {s' : Key} {c' : Radnode α} (hw : wfEdges cs)
    (hc' : wfNode c') : wfEdges (setEdge cs x s' c') := by
  rw [wfEdges_iff]
  intro b s c hm
  rcases mem_setEdge hm with heq | hm2
  · obtain ⟨-, -, rfl⟩ : b = x ∧ s = s' ∧ c = c' := by
      simpa using heq
    exact hc'
  · exact wfEdges_iff.mp hw b s c hm2

theorem wfEdges_addEdge {α : Type} {cs : List (Nat × Key × Radnode α)}
    {x : Nat} {s' : Key} {c' : Radnode α} (hw : wfEdges cs)
    (hc' : wfNode c') : wfEdges (addEdge cs x s' c') := by
  rw [wfEdges_iff]
  intro b s c hm
  rcases mem_addEdge.mp hm with heq | hm2
  · obtain ⟨-, -, rfl⟩ : b = x ∧ s = s' ∧ c = c' := by
      simpa using heq
    exact hc'
  · exact wfEdges_iff.mp hw b s c hm2

theorem wfEdges_sublist {α : Type} {cs cs2 : List (Nat × Key × Radnode α)}
    (hsub : cs2.Sublist cs) (hw : wfEdges cs) : wfEdges cs2 := by
  rw [wfEdges_iff]
  intro b s c hm
  exact wfEdges_iff.mp hw b s c (hsub.mem hm)

theorem wfNode_leaf {α : Type} (e : α) : wfNode (.mk (some e) []) := by
  rw [wfNode_def]
  refine ⟨by simp [sortedEdges], by simp, Or.inl rfl⟩

theorem insertNode_wfParts {α : Type} : ∀ (n : Radnode α) (k : Key) (e : α)
    (n' : Radnode α), insertNode n k e = some n' →
    sortedEdges n.children → wfEdges n.children →
    sortedEdges n'.children ∧ wfEdges n'.children ∧
      (n.elem.isSome = true → n'.elem.isSome = true) ∧
      n.children.length ≤ n'.children.length := by
  refine radnodeInd (fun el cs ih k e n' hins hsort hwe => ?_)
  simp only [Radnode.children] at hsort hwe
  cases k with
  | nil =>
    cases el with
    | some x =>
      rw [insertNode_nil_dup x cs e] at hins
      cases hins
    | none =>
      rw [insertNode_nil_free cs e] at hins
      obtain rfl := Option.some.inj hins
      exact ⟨hsort, hwe, by simp [Radnode.elem], le_refl _⟩
  | cons b k' =>
    cases hf : findEdge cs b with
    | none =>
      rw [insertNode_cons_nofind k' e hf] at hins
      obtain rfl := Option.some.inj hins
      refine ⟨sortedEdges_addEdge hsort hf, wfEdges_addEdge hwe (wfNode_leaf e),
        by simp [Radnode.elem], ?_⟩
      simp only [Radnode.children, addEdge_length]
      omega
    | some sc =>
      obtain ⟨s, c⟩ := sc
      have hmem := findEdge_mem hf
      have hwfc : wfNode c := wfEdges_iff.mp hwe _ _ _ hmem
      by_cases hp : bstr_is_prefix_ext s k'
      · rw [insertNode_cons_pfx e hf hp] at hins
        cases hrec : insertNode c (k'.drop s.length) e with
        | none =>
          rw [hrec] at hins
          cases hins
        | some c' =>
          rw [hrec] at hins
          obtain rfl := Option.some.inj hins
          cases c with
          | mk cel ccs =>
            rw [wfNode_def] at hwfc
            have hparts := ih b s _ hmem _ e c' hrec hwfc.1 hwfc.2.1
            have hwfc' : wfNode c' := by
              cases c' with
              | mk cel' ccs' =>
                rw [wfNode_def]
                simp only [Radnode.children, Radnode.elem] at hparts
                refine ⟨hparts.1, hparts.2.1, ?_⟩
                rcases hwfc.2.2 with hel | hlen
                · exact Or.inl (hparts.2.2.1 hel)
                · exact Or.inr (le_trans hlen hparts.2.2.2)
            exact ⟨sortedEdges_setEdge hsort, wfEdges_setEdge hwe hwfc',
              fun h => h, by simp [Radnode.children, setEdge_length]⟩
      · cases hds : s.drop (bstr_common_ext s k') with
        | nil =>
          rw [insertNode.eq_def] at hins
          simp only [hf] at hins
          exfalso
          have h1 : (s.drop (bstr_common_ext s k')).length =
              s.length - bstr_common_ext s k' := List.length_drop _ _
          rw [hds] at h1
          simp at h1
          have h2 : bstr_common_ext s k' ≤ s.length := bstr_common_le_left s k'
          have h3 : bstr_common_ext s k' = s.length := by omega
          have h4 : s.take (bstr_common_ext s k') = s := by
            rw [h3, List.take_length]
          have h5 : k' = s ++ k'.drop (bstr_common_ext s k') := by
            conv_lhs => rw [← List.take_append_drop (bstr_common_ext s k') k']
            rw [← bstr_common_take s k', h4]
          exact hp (bstr_is_prefix_iff.mpr ⟨_, h5⟩)
        | cons x srest =>
          cases hdk : k'.drop (bstr_common_ext s k') with
          | nil =>
            rw [insertNode_cons_split_elem e hf hp hds hdk] at hins
            obtain rfl := Option.some.inj hins
            have hinter : wfNode (Radnode.mk (some e) [(x, srest, c)]) := by
              rw [wfNode_def]
              refine ⟨by simp [sortedEdges], by simp [hwfc], Or.inl rfl⟩
            exact ⟨sortedEdges_setEdge hsort, wfEdges_setEdge hwe hinter,
              fun h => h, by simp [Radnode.children, setEdge_length]⟩
          | cons y krest =>
            rw [insertNode_cons_split_two e hf hp hds hdk] at hins
            obtain rfl := Option.some.inj hins
            have hxy : x ≠ y := bstr_common_ne s k' hds hdk
            have hfy : findEdge [(x, srest, c)] y = none := by
              simp [findEdge]
              intro h
              exact absurd h.symm hxy
            have hinter : wfNode (Radnode.mk none
                (addEdge [(x, srest, c)] y krest (Radnode.mk (some e) []))) := by
              rw [wfNode_def]
              refine ⟨sortedEdges_addEdge (by simp [sortedEdges]) hfy,
                wfEdges_addEdge (by simp [hwfc]) (wfNode_leaf e), Or.inr ?_⟩
              simp [addEdge_length]
            exact ⟨sortedEdges_setEdge hsort, wfEdges_setEdge hwe hinter,
              fun h => h, by simp [Radnode.children, setEdge_length]⟩

theorem insertNode_wfRoot {α : Type} {n n' : Radnode α} {k : Key} {e : α}
    (hins : insertNode n k e = some n') (hwf : wfRoot n) : wfRoot n' := by
  cases n with
  | mk el cs =>
    rw [wfRoot_iff] at hwf
    have := insertNode_wfParts _ k e n' hins hwf.1 hwf.2
    cases n' with
    | mk el' cs' =>
      rw [wfRoot_iff]
      simp only [Radnode.children] at this
      exact ⟨this.1, this.2.1⟩

end Radtree
namespace Radtree

theorem delNode_wfParts {α : Type} : ∀ (n : Radnode α) (k : Key),
    sortedEdges n.children → wfEdges n.children →
    sortedEdges (delNode n k).children ∧ wfEdges (delNode n k).children := by
  refine radnodeInd (fun el cs ih k hsort hwe => ?_)
  simp only [Radnode.children] at hsort hwe
  cases k with
  | nil =>
    rw [delNode_nil]
    exact ⟨hsort, hwe⟩
  | cons b k' =>
    cases hf : findEdge cs b with
    | none =>
      rw [delNode_cons_nofind k' hf]
      exact ⟨hsort, hwe⟩
    | some sc =>
      obtain ⟨s, c⟩ := sc
      have hmem := findEdge_mem hf
      have hwfc : wfNode c := wfEdges_iff.mp hwe _ _ _ hmem
      by_cases hp : bstr_is_prefix_ext s k'
      · have hrec := ih b s c hmem (k'.drop s.length)
          (by cases c with | mk cel ccs => exact (wfNode_def cel ccs ▸ hwfc).1)
          (by cases c with | mk cel ccs => exact (wfNode_def cel ccs ▸ hwfc).2.1)
        cases hc' : delNode c (k'.drop s.length) with
        | mk el' cs' =>
          rw [hc'] at hrec
          simp only [Radnode.children] at hrec
          cases el' with
          | some e' =>
            have hfix : fixEdge s (Radnode.mk (some e') cs') =
                some (s, .mk (some e') cs') :=
              fixEdge_keep (Or.inl (by simp [Radnode.elem]))
            rw [delNode_cons_pfx_set hf hp (by rw [hc']; exact hfix)]
            have hwfc' : wfNode (Radnode.mk (some e') cs') := by
              rw [wfNode_def]
              exact ⟨hrec.1, hrec.2, Or.inl rfl⟩
            exact ⟨sortedEdges_setEdge hsort, wfEdges_setEdge hwe hwfc'⟩
          | none =>
            cases cs' with
            | nil =>
              have hfix : fixEdge s (Radnode.mk none
                  ([] : List (Nat × Key × Radnode α))) = none :=
                fixEdge_none_iff.mpr rfl
              rw [delNode_cons_pfx_rem hf hp (by rw [hc']; exact hfix)]
              exact ⟨sortedEdges_removeEdge hsort,
                wfEdges_sublist (removeEdge_sublist cs b) hwe⟩
            | cons hd rest =>
              cases rest with
              | nil =>
                obtain ⟨x, xs, g⟩ := hd
                have hfix := fixEdge_merge s x xs g
                rw [delNode_cons_pfx_set hf hp (by rw [hc']; exact hfix)]
                have hwfg : wfNode g := by
                  have := hrec.2
                  rw [wfEdges_iff] at this
                  exact this x xs g (List.mem_cons_self _ _)
                exact ⟨sortedEdges_setEdge hsort, wfEdges_setEdge hwe hwfg⟩
              | cons hd2 rest2 =>
                have hfix : fixEdge s (Radnode.mk none (hd :: hd2 :: rest2)) =
                    some (s, .mk none (hd :: hd2 :: rest2)) :=
                  fixEdge_keep (Or.inr (by simp [Radnode.children]))
                rw [delNode_cons_pfx_set hf hp (by rw [hc']; exact hfix)]
                have hwfc' : wfNode (Radnode.mk none (hd :: hd2 :: rest2)) := by
                  rw [wfNode_def]
                  refine ⟨hrec.1, hrec.2, Or.inr (by simp)⟩
                exact ⟨sortedEdges_setEdge hsort, wfEdges_setEdge hwe hwfc'⟩
      · rw [delNode_cons_nopfx hf hp]
        exact ⟨hsort, hwe⟩

theorem delNode_wfRoot {α : Type} {n : Radnode α} {k : Key}
    (hwf : wfRoot n) : wfRoot (delNode n k) := by
  cases n with
  | mk el cs =>
    rw [wfRoot_iff] at hwf
    have := delNode_wfParts (Radnode.mk el cs) k
      (show sortedEdges (Radnode.mk el cs).children from hwf.1)
      (show wfEdges (Radnode.mk el cs).children from hwf.2)
    cases hd : delNode (Radnode.mk el cs) k with
    | mk el' cs' =>
      rw [hd] at this
      rw [wfRoot_iff]
      simp only [Radnode.children] at this
      exact this

end Radtree
namespace Radtree

/-! ### Tree-level invariant through the public operations -/

/-- Tree invariant: well-formed structure and accurate element count. -/
def treeInv {α : Type} (rt : Rtree α) : Prop :=
  wfRoot rt.root ∧ rt.count = countElems rt.root

theorem treeInv_create {α : Type} : treeInv (@radix_tree_create α) := by
  constructor
  · rw [radix_tree_create, wfRoot_iff]
    simp [sortedEdges]
  · rw [radix_tree_create]
    simp

theorem treeInv_insert {α : Type} (rt : Rtree α) (k : Key) (e : α)
    (h : treeInv rt) : treeInv (radix_insert rt k e).1 := by
  rw [radix_insert]
  cases hi : insertNode rt.root k e with
  | none => exact h
  | some r =>
    constructor
    · exact insertNode_wfRoot hi h.1
    · have := insertNode_count rt.root k e r hi
      simp only
      rw [this, h.2]

theorem treeInv_delete {α : Type} (rt : Rtree α) (n : Option Key)
    (h : treeInv rt) : treeInv (radix_delete rt n) := by
  cases n with
  | none => exact h
  | some k =>
    rw [radix_delete]
    by_cases hs : (searchElem rt.root k).isSome
    · rw [if_pos hs]
      rw [Option.isSome_iff_exists] at hs
      obtain ⟨e0, he0⟩ := hs
      constructor
      · exact delNode_wfRoot h.1
      · have hdc := delNode_count rt.root k e0 he0
        have h2 := h.2
        simp only
        omega
    · rw [if_neg hs]
      exact h

theorem treeInv_applyOp {α : Type} (rt : Rtree α) (op : Op α)
    (h : treeInv rt) : treeInv (applyOp rt op) := by
  cases op with
  | ins k e => exact treeInv_insert rt k e h
  | del n => exact treeInv_delete rt n h
  | clear => exact treeInv_create

theorem treeInv_runOps {α : Type} (ops : List (Op α)) : ∀ rt : Rtree α,
    treeInv rt → treeInv (runOps rt ops) := by
  induction ops with
  | nil => intro rt h; exact h
  | cons op rest ih =>
    intro rt h
    rw [runOps]
    exact ih _ (treeInv_applyOp rt op h)

mutual

/-- All nodes of a subtree (the node itself and every descendant). -/
def subnodes {α : Type} : Radnode α → List (Radnode α)
  | .mk el cs => .mk el cs :: subnodesEdges cs
termination_by n => sizeOf n
decreasing_by all_goals (simp <;> omega)

/-- All nodes hanging off an edge list. -/
def subnodesEdges {α : Type} : List (Nat × Key × Radnode α) → List (Radnode α)
  | [] => []
  | (_, _, c) :: rest => subnodes c ++ subnodesEdges rest
termination_by cs => sizeOf cs
decreasing_by all_goals (simp <;> omega)

end

@[simp] theorem subnodes_mk {α : Type} (el : Option α)
    (cs : List (Nat × Key × Radnode α)) :
    subnodes (.mk el cs) = .mk el cs :: subnodesEdges cs := by
  rw [subnodes.eq_def]

@[simp] theorem subnodesEdges_nil {α : Type} :
    subnodesEdges ([] : List (Nat × Key × Radnode α)) = [] := by
  rw [subnodesEdges.eq_def]

@[simp] theorem subnodesEdges_cons {α : Type} (b : Nat) (s : Key)
    (c : Radnode α) (rest : List (Nat × Key × Radnode α)) :
    subnodesEdges ((b, s, c) :: rest) = subnodes c ++ subnodesEdges rest := by
  rw [subnodesEdges.eq_def]

theorem mem_subnodesEdges {α : Type} {cs : List (Nat × Key × Radnode α)}
    {m : Radnode α} :
    m ∈ subnodesEdges cs ↔ ∃ b s c, (b, s, c) ∈ cs ∧ m ∈ subnodes c := by
  induction cs with
  | nil => simp
  | cons hd rest ih =>
    obtain ⟨b0, s0, c0⟩ := hd
    simp only [subnodesEdges_cons, List.mem_append, ih, List.mem_cons]
    constructor
    · rintro (hm | ⟨b, s, c, hmem, hm⟩)
      · exact ⟨b0, s0, c0, Or.inl rfl, hm⟩
      · exact ⟨b, s, c, Or.inr hmem, hm⟩
    · rintro ⟨b, s, c, hmem | hmem, hm⟩
      · obtain ⟨-, -, rfl⟩ : b0 = b ∧ s0 = s ∧ c0 = c := by
          simpa using hmem.symm
        exact Or.inl hm
      · exact Or.inr ⟨b, s, c, hmem, hm⟩

/-- In a well-formed subtree, every node has an element or at least two
edges. -/
theorem wfNode_subnodes {α : Type} : ∀ n : Radnode α, wfNode n →
    ∀ m ∈ subnodes n, m.elem.isSome = true ∨ 2 ≤ m.children.length := by
  refine radnodeInd (fun el cs ih hwf m hm => ?_)
  rw [subnodes_mk, List.mem_cons] at hm
  rcases hm with rfl | hm
  · rw [wfNode_def] at hwf
    rcases hwf.2.2 with h | h
    · exact Or.inl h
    · exact Or.inr (by simpa [Radnode.children] using h)
  · obtain ⟨b, s, c, hmem, hmc⟩ := mem_subnodesEdges.mp hm
    rw [wfNode_def] at hwf
    exact ih b s c hmem (wfEdges_iff.mp hwf.2.1 b s c hmem) m hmc

theorem wfRoot_subnodesEdges {α : Type} {n : Radnode α} (hwf : wfRoot n) :
    ∀ m ∈ subnodesEdges n.children,
      m.elem.isSome = true ∨ 2 ≤ m.children.length := by
  intro m hm
  obtain ⟨b, s, c, hmem, hmc⟩ := mem_subnodesEdges.mp hm
  cases n with
  | mk el cs =>
    rw [wfRoot_iff] at hwf
    simp only [Radnode.children] at hmem
    exact wfNode_subnodes c (wfEdges_iff.mp hwf.2 b s c hmem) m hmc

end Radtree
namespace Radtree

/-! ### Claim theorems -/

/-- C1: if `radix_insert` succeeds for key `k` and element `e`, then
`radix_search` on the resulting tree returns the node holding that same
element `e`; and after `radix_delete` of that node, `radix_search`
returns absent (`NULL`). -/
theorem claim_C1 {α : Type} (rt : Rtree α) (k : Key) (e : α)
    (hwf : wfRoot rt.root)
    (hsucc : (radix_insert rt k e).2.isSome = true) :
    (∃ m, radix_search (radix_insert rt k e).1 k = some m ∧
      m.elem = some e) ∧
    radix_search (radix_delete (radix_insert rt k e).1 (some k)) k = none := by
  rw [radix_insert] at hsucc ⊢
  cases hi : insertNode rt.root k e with
  | none =>
    rw [hi] at hsucc
    simp at hsucc
  | some r =>
    rw [hi] at hsucc
    simp only
    have hse : searchElem r k = some e := insertNode_searchElem rt.root k e r hi
    have hwfr : wfRoot r := insertNode_wfRoot hi hwf
    constructor
    · rw [searchElem] at hse
      rw [radix_search]
      obtain ⟨m, hm, hme⟩ := Option.bind_eq_some.mp hse
      exact ⟨m, hm, hme⟩
    · rw [radix_delete]
      simp only
      rw [if_pos (by rw [hse]; rfl)]
      rw [radix_search]
      simp only
      rw [← searchElem_eq_none_iff]
      exact delNode_searchElem r hwfr k

/-- C1 witness: inserting element 5 at key `[97]` into the empty tree. -/
theorem claim_C1_witness :
    ((radix_insert (@radix_tree_create Nat) [97] 5).2.isSome = true) ∧
    ((∃ m, radix_search (radix_insert (@radix_tree_create Nat) [97] 5).1
        [97] = some m ∧ m.elem = some 5) ∧
      radix_search (radix_delete
        (radix_insert (@radix_tree_create Nat) [97] 5).1 (some [97]))
        [97] = none) := by
  refine ⟨?_, claim_C1 radix_tree_create [97] 5 ?_ ?_⟩
  · simp [radix_insert, radix_tree_create, insertNode, findEdge, addEdge]
  · rw [radix_tree_create, wfRoot_iff]
    simp [sortedEdges]
  · simp [radix_insert, radix_tree_create, insertNode, findEdge, addEdge]

/-- C4: `radix_insert` with a key whose node already holds an element
fails with the duplicate-key condition (`NULL` result) and performs no
mutation: the tree value, the stored element, and the count are
unchanged. -/
theorem claim_C4 {α : Type} (rt : Rtree α) (k : Key) (e0 e : α)
    (h : searchElem rt.root k = some e0) :
    radix_insert rt k e = (rt, none) ∧
      searchElem (radix_insert rt k e).1.root k = some e0 ∧
      (radix_insert rt k e).1.count = rt.count := by
  have hdup := insertNode_dup rt.root k e0 e h
  rw [radix_insert, hdup]
  exact ⟨rfl, h, rfl⟩

/-- C4 witness: inserting at key `[120]` twice; the second insert with a
different element reports duplicate-key and changes nothing. -/
theorem claim_C4_witness :
    (searchElem (radix_insert (@radix_tree_create Nat) [120] 1).1.root
      [120] = some 1) ∧
    (radix_insert (radix_insert (@radix_tree_create Nat) [120] 1).1 [120] 2 =
        ((radix_insert (@radix_tree_create Nat) [120] 1).1, none) ∧
      searchElem (radix_insert (radix_insert (@radix_tree_create Nat) [120] 1).1
        [120] 2).1.root [120] = some 1 ∧
      (radix_insert (radix_insert (@radix_tree_create Nat) [120] 1).1
        [120] 2).1.count =
        (radix_insert (@radix_tree_create Nat) [120] 1).1.count) := by
  refine ⟨?_, claim_C4 _ [120] 1 2 ?_⟩ <;>
    simp [radix_insert, radix_tree_create, insertNode, findEdge, addEdge,
      searchElem, searchNode, bstr_is_prefix_ext, Radnode.elem]

/-- C5: for every tree state reachable from the empty tree by public
operations (insert, delete, clear), the `count` field equals the number
of nodes holding a non-absent element. -/
theorem claim_C5 {α : Type} (ops : List (Op α)) :
    (runOps radix_tree_create ops).count =
      countElems (runOps radix_tree_create ops).root :=
  (treeInv_runOps ops radix_tree_create treeInv_create).2

/-- C6: in every tree state reachable from the empty tree, every
non-root node either holds an element or has at least two edges — no
elementless pass-through nodes exist. -/
theorem claim_C6 {α : Type} (ops : List (Op α)) :
    ∀ m ∈ subnodesEdges (runOps (@radix_tree_create α) ops).root.children,
      m.elem.isSome = true ∨ 2 ≤ m.children.length :=
  wfRoot_subnodesEdges (treeInv_runOps ops radix_tree_create treeInv_create).1

/-- C6 witness: after inserting keys `[97, 98]` and `[97, 99]`, the split
node below the root holds no element and has exactly two edges. -/
theorem claim_C6_witness :
    (Radnode.mk (none : Option Nat)
        [(98, [], Radnode.mk (some 1) []), (99, [], Radnode.mk (some 2) [])] ∈
      subnodesEdges (runOps (@radix_tree_create Nat)
        [Op.ins [97, 98] 1, Op.ins [97, 99] 2]).root.children) ∧
    ((Radnode.mk (none : Option Nat)
        [(98, [], Radnode.mk (some 1) []), (99, [], Radnode.mk (some 2) [])]).elem.isSome = true ∨
      2 ≤ (Radnode.mk (none : Option Nat)
        [(98, [], Radnode.mk (some 1) []), (99, [], Radnode.mk (some 2) [])]).children.length) := by
  refine ⟨?_, claim_C6 [Op.ins [97, 98] 1, Op.ins [97, 99] 2] _ ?_⟩ <;>
    simp [runOps, applyOp, radix_insert, radix_tree_create, insertNode,
      findEdge, addEdge, setEdge, bstr_is_prefix_ext, bstr_common_ext,
      subnodes, Radnode.children]

/-- C8: `radix_delete` with an absent node reference is a no-op: the
tree, its count, and its stored association list (traversal order) are
identical before and after the call. -/
theorem claim_C8 {α : Type} (rt : Rtree α) :
    radix_delete rt none = rt ∧ (radix_delete rt none).count = rt.count ∧
      toList (radix_delete rt none).root = toList rt.root :=
  ⟨rfl, rfl, rfl⟩

end Radtree
namespace Radtree

/-! ### Domain-name encoding (the radname adapter) -/

/-- Modelled from the spec (§6 adapter boundary; the implementation in
`radtree.c` is missing): parse a wireformat domain name into its list of
labels.  A valid name is a sequence of labels, each with a length byte
1..63 followed by that many content bytes, terminated by the root label
(a zero byte). -/
def parseName : List Nat → Option (List (List Nat))
  | [] => none
  | 0 :: rest => if rest = [] then some [] else none
  | (l + 1) :: rest =>
    if l + 1 ≤ 63 ∧ l + 1 ≤ rest.length then
      (parseName (rest.drop (l + 1))).map (fun ls => rest.take (l + 1) :: ls)
    else none
termination_by d => d.length
decreasing_by simp; omega

/-- Serialize labels in radname order: each label is emitted
length-prefixed. -/
def serLabels : List (List Nat) → List Nat
  | [] => []
  | lab :: rest => (lab.length :: lab) ++ serLabels rest

/-- Rebuild the wireformat name from labels: length-prefixed labels
followed by the root label. -/
def wireOf (ls : List (List Nat)) : List Nat := serLabels ls ++ [0]

/-- Modelled from the spec (§6; the implementation in `radtree.c` is
missing): parse a radname binary string back into labels. -/
def parseKey : List Nat → Option (List (List Nat))
  | [] => some []
  | 0 :: _ => none
  | (l + 1) :: rest =>
    if l + 1 ≤ 63 ∧ l + 1 ≤ rest.length then
      (parseKey (rest.drop (l + 1))).map (fun ls => rest.take (l + 1) :: ls)
    else none
termination_by k => k.length
decreasing_by simp; omega

/-- Modelled from the spec: `radomain_name_d2r` converts a wireformat
domain name into the binary string used as a radix-tree key: the labels
in reversed (root-first) order, each length-prefixed, which preserves the
ordering so that an ancestor's encoding is a prefix of the descendant's
encoding.  Parse failure is reported as absence. -/
def radomain_name_d2r (d : List Nat) : Option (List Nat) :=
  (parseName d).map (fun ls => serLabels ls.reverse)

/-- Modelled from the spec: `radomain_name_r2d` converts a radname binary
string back to the wireformat domain name. -/
def radomain_name_r2d (k : List Nat) : Option (List Nat) :=
  (parseKey k).map (fun ls => wireOf ls.reverse)

/-- All labels of a parsed name are well sized. -/
def validLabels (ls : List (List Nat)) : Prop :=
  ∀ lab ∈ ls, 1 ≤ lab.length ∧ lab.length ≤ 63

theorem parseName_nil : parseName [] = none := by
  rw [parseName.eq_def]

theorem parseName_cons0 (rest : List Nat) :
    parseName (0 :: rest) = if rest = [] then some [] else none := by
  rw [parseName.eq_def]

theorem parseName_consS (l : Nat) (rest : List Nat) :
    parseName ((l + 1) :: rest) =
      if l + 1 ≤ 63 ∧ l + 1 ≤ rest.length then
        (parseName (rest.drop (l + 1))).map (fun ls => rest.take (l + 1) :: ls)
      else none := by
  rw [parseName.eq_def]

theorem parseKey_nil : parseKey [] = some [] := by
  rw [parseKey.eq_def]

theorem parseKey_consS (l : Nat) (rest : List Nat) :
    parseKey ((l + 1) :: rest) =
      if l + 1 ≤ 63 ∧ l + 1 ≤ rest.length then
        (parseKey (rest.drop (l + 1))).map (fun ls => rest.take (l + 1) :: ls)
      else none := by
  rw [parseKey.eq_def]

theorem parseName_sound : ∀ (d : List Nat) (ls : List (List Nat)),
    parseName d = some ls → d = wireOf ls ∧ validLabels ls := by
  intro d
  induction d using parseName.induct with
  | case1 =>
    intro ls h
    rw [parseName_nil] at h
    cases h
  | case2 =>
    intro ls h
    rw [parseName_cons0, if_pos rfl] at h
    obtain rfl := Option.some.inj h
    exact ⟨rfl, by simp [validLabels]⟩
  | case3 rest hrest =>
    intro ls h
    rw [parseName_cons0, if_neg hrest] at h
    cases h
  | case4 l rest hcond ih =>
    intro ls h
    rw [parseName_consS, if_pos hcond] at h
    cases hrec : parseName (rest.drop (l + 1)) with
    | none => rw [hrec] at h; cases h
    | some ls' =>
      rw [hrec] at h
      obtain rfl := Option.some.inj h
      obtain ⟨hw, hv⟩ := ih ls' hrec
      constructor
      · rw [wireOf, serLabels]
        have hlen : (rest.take (l + 1)).length = l + 1 := by
          rw [List.length_take]
          omega
        rw [hlen]
        have hsplit : rest = rest.take (l + 1) ++ rest.drop (l + 1) :=
          (List.take_append_drop _ _).symm
        conv_lhs => rw [hsplit]
        rw [wireOf] at hw
        simp [hw]
      · intro lab hlab
        rcases List.mem_cons.mp hlab with rfl | hlab
        · rw [List.length_take]
          omega
        · exact hv lab hlab
  | case5 l rest hcond =>
    intro ls h
    rw [parseName_consS, if_neg hcond] at h
    cases h

theorem parseKey_ser : ∀ ls : List (List Nat), validLabels ls →
    parseKey (serLabels ls) = some ls := by
  intro ls
  induction ls with
  | nil => intro _; rw [serLabels, parseKey_nil]
  | cons lab rest ih =>
    intro hv
    have hlab := hv lab (List.mem_cons_self _ _)
    cases hl : lab.length with
    | zero => omega
    | succ l =>
      rw [serLabels, hl, List.cons_append, parseKey_consS]
      have hcond : l + 1 ≤ 63 ∧ l + 1 ≤ (lab ++ serLabels rest).length := by
        rw [List.length_append]
        omega
      rw [if_pos hcond]
      have htake : (lab ++ serLabels rest).take (l + 1) = lab := by
        rw [← hl]
        exact List.take_left _ _
      have hdrop : (lab ++ serLabels rest).drop (l + 1) = serLabels rest := by
        rw [← hl]
        exact List.drop_left _ _
      rw [htake, hdrop, ih (fun lab2 h2 => hv lab2 (List.mem_cons_of_mem _ h2))]
      rfl

theorem serLabels_append (a b : List (List Nat)) :
    serLabels (a ++ b) = serLabels a ++ serLabels b := by
  induction a with
  | nil => simp [serLabels]
  | cons lab rest ih => simp [serLabels, ih]

/-- C9: the encoding is inverted exactly by the decoding on every valid
wireformat name, and the encoding of a name's ancestor (the name with its
first `i` labels removed) is a byte-string prefix of the name's own
encoding. -/
theorem claim_C9 (d d' : List Nat) (ls : List (List Nat)) (i : Nat)
    (hparse : parseName d = some ls)
    (hparse' : parseName d' = some (ls.drop i)) :
    (radomain_name_d2r d).bind radomain_name_r2d = some d ∧
    ∃ k k' t, radomain_name_d2r d = some k ∧
      radomain_name_d2r d' = some k' ∧ k = k' ++ t := by
  obtain ⟨hw, hv⟩ := parseName_sound d ls hparse
  constructor
  · rw [radomain_name_d2r, hparse]
    have hvrev : validLabels ls.reverse := by
      intro lab hlab
      exact hv lab (List.mem_reverse.mp hlab)
    show radomain_name_r2d (serLabels ls.reverse) = some d
    rw [radomain_name_r2d, parseKey_ser ls.reverse hvrev]
    show some (wireOf ls.reverse.reverse) = some d
    rw [List.reverse_reverse, ← hw]
  · refine ⟨serLabels ls.reverse, serLabels (ls.drop i).reverse,
      serLabels (ls.take i).reverse, ?_, ?_, ?_⟩
    · rw [radomain_name_d2r, hparse]
      rfl
    · rw [radomain_name_d2r, hparse']
      rfl
    · have hrev : ls.reverse = (ls.drop i).reverse ++ (ls.take i).reverse := by
        rw [← List.reverse_append, List.take_append_drop]
      rw [hrev, serLabels_append]

/-- C9 witness: the two-label name `[1, 97, 1, 98, 0]` (a.b) and its
ancestor `[1, 98, 0]` (b). -/
theorem claim_C9_witness :
    (parseName [1, 97, 1, 98, 0] = some [[97], [98]]) ∧
    (parseName [1, 98, 0] = some ([[97], [98]].drop 1)) ∧
    ((radomain_name_d2r [1, 97, 1, 98, 0]).bind radomain_name_r2d =
        some [1, 97, 1, 98, 0] ∧
      ∃ k k' t, radomain_name_d2r [1, 97, 1, 98, 0] = some k ∧
        radomain_name_d2r [1, 98, 0] = some k' ∧ k = k' ++ t) := by
  have h1 : parseName [1, 97, 1, 98, 0] = some [[97], [98]] := by
    rw [show (1 : Nat) = 0 + 1 from rfl, parseName_consS]
    norm_num
    rw [parseName_consS]
    norm_num
    rw [parseName_cons0]
    rfl
  have h2 : parseName [1, 98, 0] = some [[98]] := by
    rw [show (1 : Nat) = 0 + 1 from rfl, parseName_consS]
    norm_num
    rw [parseName_cons0]
    rfl
  exact ⟨h1, h2, claim_C9 _ _ [[97], [98]] 1 h1 h2⟩

end Radtree

namespace Radtree

/-! ### Public failure reporting (C10) -/

/-- Modelled from the spec (§6/§7; the implementation in `radtree.c` is
missing): `radomain_name_insert` converts the name and delegates to
`radix_insert`; a parse error is reported by the same `NULL` (absent)
result as the tree errors. -/
def radomain_name_insert {α : Type} (rt : Rtree α) (d : List Nat) (e : α) :
    Rtree α × Option Key :=
  match radomain_name_d2r d with
  | none => (rt, none)
  | some k => radix_insert rt k e

/-- C10: all failure kinds collapse to the same `NULL` return at the
public interface: out-of-memory (`radix_insert_alloc` with a failing
allocator), duplicate key, and — for `radomain_name_insert` — parse
error all return the absent node, so the result alone cannot tell the
failure kinds apart. -/
theorem claim_C10 {α : Type} (rt rt2 rt3 : Rtree α) (k : Key) (e0 e e2 e3 : α)
    (d : List Nat) (hdup : searchElem rt.root k = some e0)
    (hparse : radomain_name_d2r d = none) :
    (radix_insert_alloc false rt2 k e2).2 = none ∧
    (radix_insert_alloc true rt k e).2 = none ∧
    (radomain_name_insert rt3 d e3).2 = none := by
  refine ⟨rfl, ?_, ?_⟩
  · rw [radix_insert_alloc, if_pos rfl, radix_insert,
      insertNode_dup rt.root k e0 e hdup]
  · rw [radomain_name_insert.eq_def, hparse]

/-- C10 witness: a duplicate insert at key `[120]`, an allocation
failure, and a parse error on the malformed name `[99]`. -/
theorem claim_C10_witness :
    (searchElem (radix_insert (@radix_tree_create Nat) [120] 1).1.root [120] =
      some 1) ∧
    (radomain_name_d2r [99] = none) ∧
    ((radix_insert_alloc false (@radix_tree_create Nat) [120] 7).2 = none ∧
      (radix_insert_alloc true (radix_insert (@radix_tree_create Nat) [120] 1).1
        [120] 2).2 = none ∧
      (radomain_name_insert (@radix_tree_create Nat) [99] 3).2 = none) := by
  have h1 : searchElem (radix_insert (@radix_tree_create Nat) [120] 1).1.root
      [120] = some 1 := by
    simp [radix_insert, radix_tree_create, insertNode, findEdge, addEdge,
      searchElem, searchNode, bstr_is_prefix_ext, Radnode.elem]
  have h2 : radomain_name_d2r [99] = none := by
    rw [radomain_name_d2r, show (99 : Nat) = 98 + 1 from rfl, parseName_consS]
    norm_num
  exact ⟨h1, h2, claim_C10 _ radix_tree_create radix_tree_create [120] 1 2 7 3
    [99] h1 h2⟩

end Radtree
namespace Radtree

/-! ### Read-only descent with the tree threaded through (C7) -/

theorem setEdge_self {α : Type} {cs : List (Nat × Key × Radnode α)}
    {b : Nat} {s : Key} {c : Radnode α} (hf : findEdge cs b = some (s, c)) :
    setEdge cs b s c = cs := by
  induction cs with
  | nil => rfl
  | cons hd rest ih =>
    obtain ⟨b0, s0, c0⟩ := hd
    by_cases hb : b = b0
    · subst hb
      simp only [findEdge, eq_self_iff_true, if_true] at hf
      have := Option.some.inj hf
      obtain ⟨rfl, rfl⟩ : s0 = s ∧ c0 = c :=
        ⟨congrArg Prod.fst this, congrArg Prod.snd this⟩
      simp [setEdge]
    · simp only [findEdge, if_neg hb] at hf
      simp [setEdge, hb, ih hf]

/-- Replace the last edge of the lookup array. -/
def setLast {α : Type} (cs : List (Nat × Key × Radnode α))
    (x : Nat × Key × Radnode α) : List (Nat × Key × Radnode α) :=
  cs.dropLast ++ [x]

theorem setLast_self {α : Type} {cs : List (Nat × Key × Radnode α)}
    {x : Nat × Key × Radnode α} (h : cs.getLast? = some x) :
    setLast cs x = cs := by
  have hne : cs ≠ [] := by
    intro hnil
    subst hnil
    cases h
  obtain ⟨h2, hx⟩ := List.mem_getLast?_eq_getLast (l := cs) (x := x) h
  rw [setLast, hx]
  exact List.dropLast_append_getLast hne

/-- Modelled from the spec (§4.2): the search descent with the tree
passed along and returned, making the read-only frame property an
explicit theorem. -/
def searchNodeSt {α : Type} : Radnode α → Key → Radnode α × Option (Radnode α)
  | n, [] => (n, if n.elem.isSome then some n else none)
  | .mk el cs, b :: k' =>
    match h : findEdge cs b with
    | none => (.mk el cs, none)
    | some (s, c) =>
      if bstr_is_prefix_ext s k' then
        let r := searchNodeSt c (k'.drop s.length)
        (.mk el (setEdge cs b s r.1), r.2)
      else (.mk el cs, none)
termination_by n _ => sizeOf n
decreasing_by exact sizeOf_findEdge h _

theorem searchNodeSt_nil {α : Type} (n : Radnode α) :
    searchNodeSt n [] = (n, if n.elem.isSome then some n else none) := by
  cases n with
  | mk el cs => rw [searchNodeSt.eq_def]

theorem searchNodeSt_cons_none {α : Type} {el : Option α}
    {cs : List (Nat × Key × Radnode α)} {b : Nat} (k' : Key)
    (hf : findEdge cs b = none) :
    searchNodeSt (.mk el cs) (b :: k') = (.mk el cs, none) := by
  rw [searchNodeSt.eq_def]
  split
  all_goals try split
  all_goals simp_all

theorem searchNodeSt_cons_pfx {α : Type} {el : Option α}
    {cs : List (Nat × Key × Radnode α)} {b : Nat} {k' s : Key}
    {c : Radnode α} (hf : findEdge cs b = some (s, c))
    (hp : bstr_is_prefix_ext s k' = true) :
    searchNodeSt (.mk el cs) (b :: k') =
      (.mk el (setEdge cs b s (searchNodeSt c (k'.drop s.length)).1),
        (searchNodeSt c (k'.drop s.length)).2) := by
  rw [searchNodeSt.eq_def]
  split
  all_goals try split
  all_goals simp_all

theorem searchNodeSt_cons_nopfx {α : Type} {el : Option α}
    {cs : List (Nat × Key × Radnode α)} {b : Nat} {k' s : Key}
    {c : Radnode α} (hf : findEdge cs b = some (s, c))
    (hp : ¬ bstr_is_prefix_ext s k' = true) :
    searchNodeSt (.mk el cs) (b :: k') = (.mk el cs, none) := by
  rw [searchNodeSt.eq_def]
  split
  all_goals try split
  all_goals simp_all

/-- The threaded search returns the tree unchanged and computes exactly
the pure search result. -/
theorem searchNodeSt_spec {α : Type} : ∀ (n : Radnode α) (k : Key),
    searchNodeSt n k = (n, searchNode n k) := by
  refine radnodeInd (fun el cs ih k => ?_)
  cases k with
  | nil => rw [searchNodeSt_nil, searchNode_nil]
  | cons b k' =>
    cases hf : findEdge cs b with
    | none => rw [searchNodeSt_cons_none k' hf, searchNode_cons_none k' hf]
    | some sc =>
      obtain ⟨s, c⟩ := sc
      by_cases hp : bstr_is_prefix_ext s k'
      · rw [searchNodeSt_cons_pfx hf hp, searchNode_cons_pfx hf hp]
        rw [ih b s c (findEdge_mem hf) (k'.drop s.length)]
        simp only
        rw [setEdge_self hf]
      · rw [searchNodeSt_cons_nopfx hf hp, searchNode_cons_nopfx hf hp]

/-- `radix_search` with the tree state threaded through the call. -/
def radix_search_st {α : Type} (rt : Rtree α) (k : Key) :
    Rtree α × Option (Radnode α) :=
  (⟨(searchNodeSt rt.root k).1, rt.count⟩, (searchNodeSt rt.root k).2)

end Radtree
namespace Radtree

theorem maxEdgeBelow_mem {α : Type} {cs : List (Nat × Key × Radnode α)}
    {x : Nat} {p : Nat × Key × Radnode α} (h : maxEdgeBelow cs x = some p) :
    p ∈ cs := by
  induction cs generalizing p with
  | nil => cases h
  | cons hd rest ih =>
    obtain ⟨b, s0, c0⟩ := hd
    by_cases hb : b < x
    · rw [maxEdgeBelow, if_pos hb] at h
      cases hr : maxEdgeBelow rest x with
      | none =>
        rw [hr] at h
        obtain rfl := Option.some.inj h
        exact List.mem_cons_self _ _
      | some q =>
        rw [hr] at h
        obtain rfl := Option.some.inj h
        exact List.mem_cons_of_mem _ (ih hr)
    · rw [maxEdgeBelow, if_neg hb] at h
      cases h

/-- Modelled from the spec (§4.6): the last-element descent with the
tree threaded through. -/
def lastKeyNodeSt {α : Type} : Radnode α → Radnode α × Option Key
  | .mk el cs =>
    match h : cs.getLast? with
    | some (b, s, c) =>
      let r := lastKeyNodeSt c
      (.mk el (setLast cs (b, s, r.1)), r.2.map (fun t => b :: s ++ t))
    | none => (.mk el cs, if el.isSome then some [] else none)
termination_by n => sizeOf n
decreasing_by exact sizeOf_child_lt (mem_of_getLast?_eq h) _

theorem lastKeyNode_last_some {α : Type} {el : Option α}
    {cs : List (Nat × Key × Radnode α)} {b : Nat} {s : Key} {c : Radnode α}
    (hl : cs.getLast? = some (b, s, c)) :
    lastKeyNode (.mk el cs) = (lastKeyNode c).map (fun t => b :: s ++ t) := by
  rw [lastKeyNode.eq_def]
  split
  all_goals try split
  all_goals simp_all

theorem lastKeyNode_last_none {α : Type} {el : Option α}
    {cs : List (Nat × Key × Radnode α)} (hl : cs.getLast? = none) :
    lastKeyNode (.mk el cs) = if el.isSome then some [] else none := by
  rw [lastKeyNode.eq_def]
  split
  all_goals try split
  all_goals simp_all

theorem lastKeyNodeSt_last_some {α : Type} {el : Option α}
    {cs : List (Nat × Key × Radnode α)} {b : Nat} {s : Key} {c : Radnode α}
    (hl : cs.getLast? = some (b, s, c)) :
    lastKeyNodeSt (.mk el cs) =
      (.mk el (setLast cs (b, s, (lastKeyNodeSt c).1)),
        (lastKeyNodeSt c).2.map (fun t => b :: s ++ t)) := by
  rw [lastKeyNodeSt.eq_def]
  split
  all_goals try split
  all_goals simp_all

theorem lastKeyNodeSt_last_none {α : Type} {el : Option α}
    {cs : List (Nat × Key × Radnode α)} (hl : cs.getLast? = none) :
    lastKeyNodeSt (.mk el cs) =
      (.mk el cs, if el.isSome then some [] else none) := by
  rw [lastKeyNodeSt.eq_def]
  split
  all_goals try split
  all_goals simp_all

theorem lastKeyNodeSt_spec {α : Type} : ∀ n : Radnode α,
    lastKeyNodeSt n = (n, lastKeyNode n) := by
  refine radnodeInd (fun el cs ih => ?_)
  cases hl : cs.getLast? with
  | none => rw [lastKeyNodeSt_last_none hl, lastKeyNode_last_none hl]
  | some p =>
    obtain ⟨b, s, c⟩ := p
    rw [lastKeyNodeSt_last_some hl, lastKeyNode_last_some hl,
      ih b s c (mem_of_getLast?_eq hl)]
    simp only
    rw [setLast_self hl]

/-- Modelled from the spec (§4.5/4.6): the previous-sibling candidate
with the tree threaded through. -/
def prevHereKeySt {α : Type} (el : Option α)
    (cs : List (Nat × Key × Radnode α)) (b : Nat) :
    Radnode α × Option Key :=
  match maxEdgeBelow cs b with
  | some (b0, s0, c0) =>
    let r := lastKeyNodeSt c0
    (.mk el (setEdge cs b0 s0 r.1), r.2.map (fun t => b0 :: s0 ++ t))
  | none => (.mk el cs, if el.isSome then some [] else none)

theorem prevHereKeySt_spec {α : Type} (el : Option α)
    (cs : List (Nat × Key × Radnode α)) (b : Nat) (hs : sortedEdges cs) :
    prevHereKeySt el cs b = (.mk el cs, prevHereKey el cs b) := by
  rw [prevHereKeySt, prevHereKey]
  cases hm : maxEdgeBelow cs b with
  | none => simp
  | some p =>
    obtain ⟨b0, s0, c0⟩ := p
    simp only
    rw [lastKeyNodeSt_spec c0]
    simp only
    rw [setEdge_self (findEdge_of_mem hs (maxEdgeBelow_mem hm))]

/-- Modelled from the spec (§4.5): the find-less-equal descent with the
tree threaded through and returned. -/
def fleNodeSt {α : Type} : Radnode α → Key → Radnode α × (Bool × Option Key)
  | .mk el cs, [] =>
    (.mk el cs, if el.isSome then (true, some []) else (false, none))
  | .mk el cs, b :: k' =>
    match h : findEdge cs b with
    | none =>
      let r := prevHereKeySt el cs b
      (r.1, (false, r.2))
    | some (s, c) =>
      if bstr_is_prefix_ext s k' then
        let r := fleNodeSt c (k'.drop s.length)
        match r.2 with
        | (ex, some t) =>
          (.mk el (setEdge cs b s r.1), (ex, some (b :: s ++ t)))
        | (_, none) =>
          let r2 := prevHereKeySt el (setEdge cs b s r.1) b
          (r2.1, (false, r2.2))
      else if keyLtb k' s then
        let r := prevHereKeySt el cs b
        (r.1, (false, r.2))
      else
        let r := lastKeyNodeSt c
        (.mk el (setEdge cs b s r.1), (false, r.2.map (fun t => b :: s ++ t)))
termination_by n _ => sizeOf n
decreasing_by exact sizeOf_findEdge h _

theorem fleNode_nil {α : Type} (el : Option α)
    (cs : List (Nat × Key × Radnode α)) :
    fleNode (.mk el cs) [] =
      if el.isSome then (true, some []) else (false, none) := by
  rw [fleNode.eq_def]

theorem fleNode_cons_none {α : Type} {el : Option α}
    {cs : List (Nat × Key × Radnode α)} {b : Nat} (k' : Key)
    (hf : findEdge cs b = none) :
    fleNode (.mk el cs) (b :: k') = (false, prevHereKey el cs b) := by
  rw [fleNode.eq_def]
  split
  all_goals try split
  all_goals simp_all

theorem fleNode_cons_pfx {α : Type} {el : Option α}
    {cs : List (Nat × Key × Radnode α)} {b : Nat} {k' s : Key}
    {c : Radnode α} (hf : findEdge cs b = some (s, c))
    (hp : bstr_is_prefix_ext s k' = true) :
    fleNode (.mk el cs) (b :: k') =
      match fleNode c (k'.drop s.length) with
      | (ex, some r) => (ex, some (b :: s ++ r))
      | (_, none) => (false, prevHereKey el cs b) := by
  rw [fleNode.eq_def]
  split
  all_goals try split
  all_goals simp_all

theorem fleNode_cons_lt {α : Type} {el : Option α}
    {cs : List (Nat × Key × Radnode α)} {b : Nat} {k' s : Key}
    {c : Radnode α} (hf : findEdge cs b = some (s, c))
    (hp : ¬ bstr_is_prefix_ext s k' = true) (hlt : keyLtb k' s = true) :
    fleNode (.mk el cs) (b :: k') = (false, prevHereKey el cs b) := by
  rw [fleNode.eq_def]
  split
  all_goals try split
  all_goals simp_all

theorem fleNode_cons_gt {α : Type} {el : Option α}
    {cs : List (Nat × Key × Radnode α)} {b : Nat} {k' s : Key}
    {c : Radnode α} (hf : findEdge cs b = some (s, c))
    (hp : ¬ bstr_is_prefix_ext s k' = true)
    (hlt : ¬ keyLtb k' s = true) :
    fleNode (.mk el cs) (b :: k') =
      (false, (lastKeyNode c).map (fun r => b :: s ++ r)) := by
  rw [fleNode.eq_def]
  split
  all_goals try split
  all_goals simp_all

theorem fleNodeSt_nil {α : Type} (el : Option α)
    (cs : List (Nat × Key × Radnode α)) :
    fleNodeSt (.mk el cs) [] =
      (.mk el cs, if el.isSome then (true, some []) else (false, none)) := by
  rw [fleNodeSt.eq_def]

theorem fleNodeSt_cons_none {α : Type} {el : Option α}
    {cs : List (Nat × Key × Radnode α)} {b : Nat} (k' : Key)
    (hf : findEdge cs b = none) :
    fleNodeSt (.mk el cs) (b :: k') =
      ((prevHereKeySt el cs b).1, (false, (prevHereKeySt el cs b).2)) := by
  rw [fleNodeSt.eq_def]
  split
  all_goals try split
  all_goals simp_all

theorem fleNodeSt_cons_pfx {α : Type} {el : Option α}
    {cs : List (Nat × Key × Radnode α)} {b : Nat} {k' s : Key}
    {c : Radnode α} (hf : findEdge cs b = some (s, c))
    (hp : bstr_is_prefix_ext s k' = true) :
    fleNodeSt (.mk el cs) (b :: k') =
      (match (fleNodeSt c (k'.drop s.length)).2 with
      | (ex, some t) =>
        (.mk el (setEdge cs b s (fleNodeSt c (k'.drop s.length)).1),
          (ex, some (b :: s ++ t)))
      | (_, none) =>
        ((prevHereKeySt el
            (setEdge cs b s (fleNodeSt c (k'.drop s.length)).1) b).1,
          (false, (prevHereKeySt el
            (setEdge cs b s (fleNodeSt c (k'.drop s.length)).1) b).2))) := by
  rw [fleNodeSt.eq_def]
  split
  all_goals try split
  all_goals simp_all

theorem fleNodeSt_cons_lt {α : Type} {el : Option α}
    {cs : List (Nat × Key × Radnode α)} {b : Nat} {k' s : Key}
    {c : Radnode α} (hf : findEdge cs b = some (s, c))
    (hp : ¬ bstr_is_prefix_ext s k' = true) (hlt : keyLtb k' s = true) :
    fleNodeSt (.mk el cs) (b :: k') =
      ((prevHereKeySt el cs b).1, (false, (prevHereKeySt el cs b).2)) := by
  rw [fleNodeSt.eq_def]
  split
  all_goals try split
  all_goals simp_all

theorem fleNodeSt_cons_gt {α : Type} {el : Option α}
    {cs : List (Nat × Key × Radnode α)} {b : Nat} {k' s : Key}
    {c : Radnode α} (hf : findEdge cs b = some (s, c))
    (hp : ¬ bstr_is_prefix_ext s k' = true)
    (hlt : ¬ keyLtb k' s = true) :
    fleNodeSt (.mk el cs) (b :: k') =
      (.mk el (setEdge cs b s (lastKeyNodeSt c).1),
        (false, (lastKeyNodeSt c).2.map (fun t => b :: s ++ t))) := by
  rw [fleNodeSt.eq_def]
  split
  all_goals try split
  all_goals simp_all

/-- The threaded find-less-equal returns a well-formed tree unchanged
and computes exactly the pure result. -/
theorem fleNodeSt_spec {α : Type} : ∀ n : Radnode α, wfRoot n → ∀ k : Key,
    fleNodeSt n k = (n, fleNode n k) := by
  refine radnodeInd (fun el cs ih hwf k => ?_)
  rw [wfRoot_iff] at hwf
  cases k with
  | nil => rw [fleNodeSt_nil, fleNode_nil]
  | cons b k' =>
    cases hf : findEdge cs b with
    | none =>
      rw [fleNodeSt_cons_none k' hf, fleNode_cons_none k' hf,
        prevHereKeySt_spec el cs b hwf.1]
    | some sc =>
      obtain ⟨s, c⟩ := sc
      have hmem := findEdge_mem hf
      have hwfc : wfRoot c := wfNode_wfRoot (wfEdges_iff.mp hwf.2 _ _ _ hmem)
      by_cases hp : bstr_is_prefix_ext s k'
      · rw [fleNodeSt_cons_pfx hf hp, fleNode_cons_pfx hf hp]
        rw [ih b s c hmem hwfc (k'.drop s.length)]
        simp only
        rw [setEdge_self hf]
        cases hres : fleNode c (k'.drop s.length) with
        | mk ex r =>
          cases r with
          | some t => simp
          | none =>
            simp only
            rw [prevHereKeySt_spec el cs b hwf.1]
      · by_cases hlt : keyLtb k' s
        · rw [fleNodeSt_cons_lt hf hp hlt, fleNode_cons_lt hf hp hlt,
            prevHereKeySt_spec el cs b hwf.1]
        · rw [fleNodeSt_cons_gt hf hp hlt, fleNode_cons_gt hf hp hlt,
            lastKeyNodeSt_spec c]
          simp only
          rw [setEdge_self hf]

/-- `radix_find_less_equal` with the tree state threaded through. -/
def radix_find_less_equal_st {α : Type} (rt : Rtree α) (k : Key) :
    Rtree α × (Bool × Option Key) :=
  (⟨(fleNodeSt rt.root k).1, rt.count⟩, (fleNodeSt rt.root k).2)

/-- C7: `radix_search` and `radix_find_less_equal` never mutate the
tree: running the descent with the tree state threaded through returns
every node, edge, element and the count unchanged, while computing
exactly the pure results. -/
theorem claim_C7 {α : Type} (rt : Rtree α) (k : Key) (hwf : wfRoot rt.root) :
    radix_search_st rt k = (rt, radix_search rt k) ∧
    radix_find_less_equal_st rt k = (rt, radix_find_less_equal rt k) := by
  constructor
  · rw [radix_search_st, searchNodeSt_spec rt.root k, radix_search]
  · rw [radix_find_less_equal_st, fleNodeSt_spec rt.root hwf k,
      radix_find_less_equal]

/-- C7 witness: searching the two-element example tree. -/
theorem claim_C7_witness :
    wfRoot (runOps (@radix_tree_create Nat)
      [Op.ins [97] 1, Op.ins [98] 2]).root ∧
    (radix_search_st (runOps (@radix_tree_create Nat)
        [Op.ins [97] 1, Op.ins [98] 2]) [97] =
      ((runOps (@radix_tree_create Nat) [Op.ins [97] 1, Op.ins [98] 2]),
        radix_search (runOps (@radix_tree_create Nat)
          [Op.ins [97] 1, Op.ins [98] 2]) [97]) ∧
    radix_find_less_equal_st (runOps (@radix_tree_create Nat)
        [Op.ins [97] 1, Op.ins [98] 2]) [97] =
      ((runOps (@radix_tree_create Nat) [Op.ins [97] 1, Op.ins [98] 2]),
        radix_find_less_equal (runOps (@radix_tree_create Nat)
          [Op.ins [97] 1, Op.ins [98] 2]) [97])) := by
  have hwf : wfRoot (runOps (@radix_tree_create Nat)
      [Op.ins [97] 1, Op.ins [98] 2]).root :=
    (treeInv_runOps [Op.ins [97] 1, Op.ins [98] 2]
      radix_tree_create treeInv_create).1
  exact ⟨hwf, claim_C7 _ [97] hwf⟩

end Radtree
namespace Radtree

/-! ### First and last elements: correspondence with the stored list -/

theorem firstKeyNode_some_el {α : Type} (e : α)
    (cs : List (Nat × Key × Radnode α)) :
    firstKeyNode (.mk (some e) cs) = some [] := by
  rw [firstKeyNode.eq_def]

theorem firstKeyNode_none_nil {α : Type} :
    firstKeyNode (.mk (none : Option α) []) = none := by
  rw [firstKeyNode.eq_def]

theorem firstKeyNode_none_cons {α : Type} (b : Nat) (s : Key)
    (c : Radnode α) (rest : List (Nat × Key × Radnode α)) :
    firstKeyNode (.mk none ((b, s, c) :: rest)) =
      (firstKeyNode c).map (fun r => b :: s ++ r) := by
  rw [firstKeyNode.eq_def]

theorem toList_ne_nil {α : Type} : ∀ n : Radnode α, wfNode n →
    toList n ≠ [] := by
  refine radnodeInd (fun el cs ih hwf => ?_)
  rw [wfNode_def] at hwf
  cases el with
  | some e => simp
  | none =>
    rcases hwf.2.2 with h | h
    · cases h
    · cases cs with
      | nil => simp at h
      | cons hd rest =>
        obtain ⟨b, s, c⟩ := hd
        have hc : toList c ≠ [] :=
          ih b s c (List.mem_cons_self _ _)
            (wfEdges_iff.mp hwf.2.1 b s c (List.mem_cons_self _ _))
        simp only [toList_mk, toListEdges_cons, List.nil_append, ne_eq,
          List.append_eq_nil, List.map_eq_nil_iff]
        intro hcon
        exact hc hcon.1

theorem toListEdges_ne_nil {α : Type} {cs : List (Nat × Key × Radnode α)}
    (hne : cs ≠ []) (hw : wfEdges cs) : toListEdges cs ≠ [] := by
  cases cs with
  | nil => exact absurd rfl hne
  | cons hd rest =>
    obtain ⟨b, s, c⟩ := hd
    rw [wfEdges_cons] at hw
    have hc : toList c ≠ [] := toList_ne_nil c hw.1
    simp only [toListEdges_cons, ne_eq, List.append_eq_nil,
      List.map_eq_nil_iff]
    intro hcon
    exact hc hcon.1

theorem getLast?_map_own {β γ : Type} (f : β → γ) :
    ∀ l : List β, (l.map f).getLast? = (l.getLast?).map f := by
  intro l
  induction l with
  | nil => rfl
  | cons a t ih =>
    cases t with
    | nil => rfl
    | cons b t2 =>
      rw [List.map_cons, List.map_cons, List.getLast?_cons_cons,
        List.getLast?_cons_cons, ← List.map_cons, ih]

theorem firstKeyNode_spec {α : Type} : ∀ n : Radnode α, wfRoot n →
    firstKeyNode n = ((toList n).head?).map Prod.fst := by
  refine radnodeInd (fun el cs ih hwf => ?_)
  rw [wfRoot_iff] at hwf
  cases el with
  | some e => rw [firstKeyNode_some_el, toList_mk]; rfl
  | none =>
    cases cs with
    | nil =>
      rw [firstKeyNode_none_nil, toList_mk, toListEdges_nil]
      rfl
    | cons hd rest =>
      obtain ⟨b, s, c⟩ := hd
      have hwfc : wfNode c := wfEdges_iff.mp hwf.2 b s c (List.mem_cons_self _ _)
      rw [firstKeyNode_none_cons,
        ih b s c (List.mem_cons_self _ _) (wfNode_wfRoot hwfc)]
      rw [toList_mk, toListEdges_cons]
      rw [List.nil_append, List.head?_append_of_ne_nil]
      · rw [List.head?_map]
        cases (toList c).head? with
        | none => rfl
        | some p => rfl
      · simp only [ne_eq, List.map_eq_nil_iff]
        exact toList_ne_nil c hwfc

theorem toListEdges_getLast {α : Type} :
    ∀ (cs : List (Nat × Key × Radnode α)) (b : Nat) (s : Key) (c : Radnode α),
    wfEdges cs → cs.getLast? = some (b, s, c) →
    (toListEdges cs).getLast? =
      ((toList c).getLast?).map (fun p => (b :: s ++ p.1, p.2)) := by
  intro cs
  induction cs with
  | nil => intro b s c _ h; cases h
  | cons hd rest ih =>
    intro b s c hw hl
    obtain ⟨b0, s0, c0⟩ := hd
    rw [wfEdges_cons] at hw
    cases rest with
    | nil =>
      simp only [List.getLast?_singleton] at hl
      obtain ⟨rfl, rfl, rfl⟩ : b = b0 ∧ s = s0 ∧ c = c0 := by
        simpa using hl.symm
      rw [toListEdges_cons, toListEdges_nil, List.append_nil,
        getLast?_map_own]
    | cons hd2 rest2 =>
      rw [List.getLast?_cons_cons] at hl
      rw [toListEdges_cons, List.getLast?_append_of_ne_nil _
        (toListEdges_ne_nil (by simp) hw.2)]
      exact ih b s c hw.2 hl

theorem lastKeyNode_spec {α : Type} : ∀ n : Radnode α, wfRoot n →
    lastKeyNode n = ((toList n).getLast?).map Prod.fst := by
  refine radnodeInd (fun el cs ih hwf => ?_)
  rw [wfRoot_iff] at hwf
  cases hl : cs.getLast? with
  | none =>
    have hnil : cs = [] := List.getLast?_eq_none_iff.mp hl
    subst hnil
    rw [lastKeyNode_last_none hl, toList_mk, toListEdges_nil, List.append_nil]
    cases el with
    | some e => rfl
    | none => rfl
  | some p =>
    obtain ⟨b, s, c⟩ := p
    have hmem := mem_of_getLast?_eq hl
    have hwfc : wfNode c := wfEdges_iff.mp hwf.2 b s c hmem
    rw [lastKeyNode_last_some hl,
      ih b s c hmem (wfNode_wfRoot hwfc)]
    have hne : cs ≠ [] := by
      intro hnil
      subst hnil
      cases hl
    rw [toList_mk, List.getLast?_append_of_ne_nil _
      (toListEdges_ne_nil hne hwf.2)]
    rw [toListEdges_getLast cs b s c hwf.2 hl]
    cases (toList c).getLast? with
    | none => rfl
    | some q => rfl

theorem sorted_head_min {α : Type} {l : List (Key × α)} {p : Key × α}
    (hs : sortedKeys l) (hh : l.head? = some p) :
    ∀ q ∈ l, p = q ∨ keyLtb p.1 q.1 = true := by
  cases l with
  | nil => cases hh
  | cons a t =>
    obtain rfl : a = p := Option.some.inj hh
    intro q hq
    rcases List.mem_cons.mp hq with rfl | hq
    · exact Or.inl rfl
    · exact Or.inr ((List.pairwise_cons.mp hs).1 q hq)

theorem sorted_getLast_max {α : Type} : ∀ {l : List (Key × α)} {p : Key × α},
    sortedKeys l → l.getLast? = some p →
    ∀ q ∈ l, q = p ∨ keyLtb q.1 p.1 = true := by
  intro l
  induction l with
  | nil => intro p _ h; cases h
  | cons a t ih =>
    intro p hs hl q hq
    cases t with
    | nil =>
      obtain rfl : a = p := by simpa using hl
      rcases List.mem_cons.mp hq with rfl | hq
      · exact Or.inl rfl
      · cases hq
    | cons b2 t2 =>
      rw [List.getLast?_cons_cons] at hl
      rcases List.mem_cons.mp hq with rfl | hq
      · right
        have hpmem : p ∈ b2 :: t2 := mem_of_getLast?_eq hl
        exact (List.pairwise_cons.mp hs).1 p hpmem
      · exact ih (List.pairwise_cons.mp hs).2 hl q hq

end Radtree
namespace Radtree

/-! ### Sibling selection lemmas -/

theorem keyLtb_nil_right : ∀ x : Key, keyLtb x [] = false
  | [] => rfl
  | _ :: _ => rfl

theorem minEdgeAbove_some {α : Type} :
    ∀ {cs : List (Nat × Key × Radnode α)} {x b2 : Nat} {s2 : Key}
    {c2 : Radnode α}, sortedEdges cs →
    minEdgeAbove cs x = some (b2, s2, c2) →
    (b2, s2, c2) ∈ cs ∧ x < b2 ∧
      ∀ b3 s3 c3, (b3, s3, c3) ∈ cs → x < b3 → b2 ≤ b3 := by
  intro cs
  induction cs with
  | nil => intro x b2 s2 c2 _ h; cases h
  | cons hd rest ih =>
    intro x b2 s2 c2 hs h
    obtain ⟨b, s0, c0⟩ := hd
    by_cases hlt : x < b
    · rw [minEdgeAbove, if_pos hlt] at h
      obtain ⟨rfl, rfl, rfl⟩ : b = b2 ∧ s0 = s2 ∧ c0 = c2 := by
        simpa using h
      refine ⟨List.mem_cons_self _ _, hlt, ?_⟩
      intro b3 s3 c3 hm _
      rcases List.mem_cons.mp hm with heq | hm
      · obtain rfl : b = b3 := by simpa using congrArg Prod.fst heq.symm
        exact le_refl _
      · exact le_of_lt ((List.pairwise_cons.mp hs).1 (b3, s3, c3) hm)
    · rw [minEdgeAbove, if_neg hlt] at h
      obtain ⟨hmem, hxb, hmin⟩ := ih (List.pairwise_cons.mp hs).2 h
      refine ⟨List.mem_cons_of_mem _ hmem, hxb, ?_⟩
      intro b3 s3 c3 hm hx3
      rcases List.mem_cons.mp hm with heq | hm
      · obtain rfl : b = b3 := by simpa using congrArg Prod.fst heq.symm
        exact absurd hx3 hlt
      · exact hmin b3 s3 c3 hm hx3

theorem minEdgeAbove_none {α : Type} :
    ∀ {cs : List (Nat × Key × Radnode α)} {x : Nat},
    minEdgeAbove cs x = none →
    ∀ b3 s3 c3, (b3, s3, c3) ∈ cs → ¬ x < b3 := by
  intro cs
  induction cs with
  | nil => intro x _ b3 s3 c3 hm; cases hm
  | cons hd rest ih =>
    intro x h b3 s3 c3 hm
    obtain ⟨b, s0, c0⟩ := hd
    by_cases hlt : x < b
    · rw [minEdgeAbove, if_pos hlt] at h
      cases h
    · rw [minEdgeAbove, if_neg hlt] at h
      rcases List.mem_cons.mp hm with heq | hm
      · obtain rfl : b = b3 := by simpa using congrArg Prod.fst heq.symm
        exact hlt
      · exact ih h b3 s3 c3 hm

theorem maxEdgeBelow_none {α : Type} :
    ∀ {cs : List (Nat × Key × Radnode α)} {x : Nat}, sortedEdges cs →
    maxEdgeBelow cs x = none →
    ∀ b3 s3 c3, (b3, s3, c3) ∈ cs → ¬ b3 < x := by
  intro cs
  induction cs with
  | nil => intro x _ _ b3 s3 c3 hm; cases hm
  | cons hd rest ih =>
    intro x hs h b3 s3 c3 hm
    obtain ⟨b, s1, c1⟩ := hd
    by_cases hlt : b < x
    · rw [maxEdgeBelow, if_pos hlt] at h
      cases hr : maxEdgeBelow rest x with
      | none => rw [hr] at h; cases h
      | some q => rw [hr] at h; cases h
    · rcases List.mem_cons.mp hm with heq | hm
      · obtain rfl : b = b3 := by simpa using congrArg Prod.fst heq.symm
        exact hlt
      · have hb3 : b < b3 := (List.pairwise_cons.mp hs).1 (b3, s3, c3) hm
        omega

theorem maxEdgeBelow_some {α : Type} :
    ∀ {cs : List (Nat × Key × Radnode α)} {x b0 : Nat} {s0 : Key}
    {c0 : Radnode α}, sortedEdges cs →
    maxEdgeBelow cs x = some (b0, s0, c0) →
    (b0, s0, c0) ∈ cs ∧ b0 < x ∧
      ∀ b3 s3 c3, (b3, s3, c3) ∈ cs → b3 < x → b3 ≤ b0 := by
  intro cs
  induction cs with
  | nil => intro x b0 s0 c0 _ h; cases h
  | cons hd rest ih =>
    intro x b0 s0 c0 hs h
    obtain ⟨b, s1, c1⟩ := hd
    by_cases hlt : b < x
    · rw [maxEdgeBelow, if_pos hlt] at h
      cases hr : maxEdgeBelow rest x with
      | none =>
        rw [hr] at h
        obtain ⟨rfl, rfl, rfl⟩ : b = b0 ∧ s1 = s0 ∧ c1 = c0 := by
          simpa using h
        refine ⟨List.mem_cons_self _ _, hlt, ?_⟩
        intro b3 s3 c3 hm hx3
        rcases List.mem_cons.mp hm with heq | hm
        · obtain rfl : b = b3 := by simpa using congrArg Prod.fst heq.symm
          exact le_refl _
        · exact absurd hx3
            (maxEdgeBelow_none (List.pairwise_cons.mp hs).2 hr b3 s3 c3 hm)
      | some q =>
        rw [hr] at h
        obtain rfl := Option.some.inj h
        obtain ⟨hmem, hbx, hmax⟩ := ih (List.pairwise_cons.mp hs).2 hr
        refine ⟨List.mem_cons_of_mem _ hmem, hbx, ?_⟩
        intro b3 s3 c3 hm hx3
        rcases List.mem_cons.mp hm with heq | hm
        · obtain rfl : b = b3 := by simpa using congrArg Prod.fst heq.symm
          exact le_of_lt ((List.pairwise_cons.mp hs).1 _ hmem)
        · exact hmax b3 s3 c3 hm hx3
    · rw [maxEdgeBelow, if_neg hlt] at h
      cases h

end Radtree

namespace Radtree

theorem lastKeyNode_isSome {α : Type} {c : Radnode α} (hwf : wfNode c) :
    ∃ t, lastKeyNode c = some t := by
  rw [lastKeyNode_spec c (wfNode_wfRoot hwf)]
  cases hl : (toList c).getLast? with
  | none =>
    exact absurd (List.getLast?_eq_none_iff.mp hl) (toList_ne_nil c hwf)
  | some p => exact ⟨p.1, rfl⟩

theorem lastKeyNode_mem_max {α : Type} {c : Radnode α} {t : Key}
    (hwf : wfNode c) (hl : lastKeyNode c = some t) :
    (∃ e, (t, e) ∈ toList c) ∧
      ∀ q ∈ toList c, q.1 = t ∨ keyLtb q.1 t = true := by
  rw [lastKeyNode_spec c (wfNode_wfRoot hwf)] at hl
  cases hg : (toList c).getLast? with
  | none => rw [hg] at hl; cases hl
  | some p =>
    rw [hg] at hl
    obtain rfl : p.1 = t := Option.some.inj hl
    have hs := toList_sorted c (wfNode_wfRoot hwf)
    constructor
    · exact ⟨p.2, mem_of_getLast?_eq hg⟩
    · intro q hq
      rcases sorted_getLast_max hs hg q hq with rfl | hlt
      · exact Or.inl rfl
      · exact Or.inr hlt

theorem prevHereKey_eq_some {α : Type} {el : Option α}
    {cs : List (Nat × Key × Radnode α)} {b b0 : Nat} {s0 : Key}
    {c0 : Radnode α} (hm : maxEdgeBelow cs b = some (b0, s0, c0)) :
    prevHereKey el cs b = (lastKeyNode c0).map (fun t => b0 :: s0 ++ t) := by
  rw [prevHereKey, hm]

theorem prevHereKey_eq_none {α : Type} {el : Option α}
    {cs : List (Nat × Key × Radnode α)} {b : Nat}
    (hm : maxEdgeBelow cs b = none) :
    prevHereKey el cs b = if el.isSome then some [] else none := by
  rw [prevHereKey, hm]

theorem keyLtb_cons_single {b3 b : Nat} (xs : Key) :
    keyLtb (b3 :: xs) [b] = decide (b3 < b) := by
  simp only [keyLtb, keyLtb_nil_right, Bool.and_false, Bool.or_false]

/-- `prevHereKey` finds nothing exactly when no stored key is below the
byte `b` (compared against the one-byte key `[b]`). -/
theorem prevHereKey_none {α : Type} {el : Option α}
    {cs : List (Nat × Key × Radnode α)} {b : Nat}
    (hwf : wfRoot (.mk el cs)) (h : prevHereKey el cs b = none) :
    ∀ q ∈ toList (Radnode.mk el cs), ¬ keyLtb q.1 [b] = true := by
  rw [wfRoot_iff] at hwf
  cases hm : maxEdgeBelow cs b with
  | some p =>
    obtain ⟨b0, s0, c0⟩ := p
    rw [prevHereKey_eq_some hm] at h
    have hwfc : wfNode c0 :=
      wfEdges_iff.mp hwf.2 b0 s0 c0 (maxEdgeBelow_mem hm)
    obtain ⟨t, ht⟩ := lastKeyNode_isSome hwfc
    rw [ht] at h
    cases h
  | none =>
    rw [prevHereKey_eq_none hm] at h
    intro q hq
    rcases mem_toList_mk.mp hq with ⟨hel, hq1⟩ | hq2
    · rw [hel] at h
      simp at h
    · obtain ⟨b3, s3, c3, hmem, q2, -, rfl⟩ := mem_toListEdges.mp hq2
      have hnb : ¬ b3 < b := maxEdgeBelow_none hwf.1 hm b3 s3 c3 hmem
      simp only [List.cons_append, keyLtb_cons_single, decide_eq_true_eq]
      exact hnb

/-- When `prevHereKey` finds a key, it is the greatest stored key below
the byte `b`. -/
theorem prevHereKey_some {α : Type} {el : Option α}
    {cs : List (Nat × Key × Radnode α)} {b : Nat} {j : Key}
    (hwf : wfRoot (.mk el cs)) (h : prevHereKey el cs b = some j) :
    (∃ e, (j, e) ∈ toList (Radnode.mk el cs)) ∧ keyLtb j [b] = true ∧
      ∀ q ∈ toList (Radnode.mk el cs), keyLtb q.1 [b] = true →
        (q.1 = j ∨ keyLtb q.1 j = true) := by
  rw [wfRoot_iff] at hwf
  cases hm : maxEdgeBelow cs b with
  | none =>
    rw [prevHereKey_eq_none hm] at h
    cases hel : el with
    | none =>
      rw [hel] at h
      simp at h
    | some e =>
      rw [hel] at h
      simp only [Option.isSome_some, if_true] at h
      obtain rfl : [] = j := Option.some.inj h
      refine ⟨⟨e, mem_toList_mk.mpr (Or.inl ⟨rfl, rfl⟩)⟩, rfl, ?_⟩
      intro q hq hqb
      rcases mem_toList_mk.mp hq with ⟨-, hq1⟩ | hq2
      · exact Or.inl hq1
      · obtain ⟨b3, s3, c3, hmem, q2, -, rfl⟩ := mem_toListEdges.mp hq2
        have hnb : ¬ b3 < b := maxEdgeBelow_none hwf.1 hm b3 s3 c3 hmem
        rw [List.cons_append, keyLtb_cons_single] at hqb
        simp at hqb
        exact absurd hqb hnb
  | some p =>
    obtain ⟨b0, s0, c0⟩ := p
    rw [prevHereKey_eq_some hm] at h
    obtain ⟨hmem0, hb0, hmax0⟩ := maxEdgeBelow_some hwf.1 hm
    have hwfc : wfNode c0 := wfEdges_iff.mp hwf.2 b0 s0 c0 hmem0
    obtain ⟨t, ht⟩ := lastKeyNode_isSome hwfc
    rw [ht] at h
    obtain rfl : b0 :: s0 ++ t = j := by simpa using h
    obtain ⟨⟨e, hte⟩, htmax⟩ := lastKeyNode_mem_max hwfc ht
    refine ⟨⟨e, mem_toList_mk.mpr (Or.inr (mem_toListEdges.mpr
      ⟨b0, s0, c0, hmem0, (t, e), hte, rfl⟩))⟩,
      keyLtb_cons_lt _ _ hb0, ?_⟩
    intro q hq hqb
    rcases mem_toList_mk.mp hq with ⟨-, hq1⟩ | hq2
    · rw [hq1]
      exact Or.inr rfl
    · obtain ⟨b3, s3, c3, hmem3, q2, hq2mem, rfl⟩ := mem_toListEdges.mp hq2
      have hb3 : b3 < b := by
        rw [List.cons_append, keyLtb_cons_single] at hqb
        simpa using hqb
      have hle : b3 ≤ b0 := hmax0 b3 s3 c3 hmem3 hb3
      rcases lt_or_eq_of_le hle with hlt | heq
      · exact Or.inr (keyLtb_cons_lt _ _ hlt)
      · subst heq
        have hse : s3 = s0 ∧ c3 = c0 := by
          have h1 := findEdge_of_mem hwf.1 hmem3
          have h2 := findEdge_of_mem hwf.1 hmem0
          rw [h1] at h2
          have h3 := Option.some.inj h2
          exact ⟨congrArg Prod.fst h3, congrArg Prod.snd h3⟩
        obtain ⟨rfl, rfl⟩ := hse
        rcases htmax q2 hq2mem with hq2t | hq2t
        · left
          rw [hq2t]
        · right
          rw [keyLtb_append_left]
          exact hq2t

end Radtree
namespace Radtree

/-! ### Find-less-equal: characterization (C2) -/

theorem keyLtb_seg_same {b : Nat} (s x y : Key) :
    keyLtb (b :: s ++ x) (b :: s ++ y) = keyLtb x y :=
  keyLtb_append_left (b :: s) x y

theorem keyLtb_seg_lt {b b2 : Nat} (hlt : b < b2) (s x s2 y : Key) :
    keyLtb (b :: s ++ x) (b2 :: s2 ++ y) = true := by
  rw [List.cons_append, List.cons_append]
  exact keyLtb_cons_lt _ _ hlt

theorem keyLtb_nil_seg {b : Nat} (s x : Key) :
    keyLtb [] (b :: s ++ x) = true := by
  rw [List.cons_append]
  rfl

theorem keyLtb_seg_single {b b2 : Nat} (s x : Key) :
    keyLtb (b :: s ++ x) [b2] = decide (b < b2) := by
  rw [List.cons_append]
  exact keyLtb_cons_single _

theorem keyLtb_single_le {j : Key} {b : Nat} (h : keyLtb j [b] = true)
    (k' : Key) : keyLtb j (b :: k') = true := by
  cases j with
  | nil => rfl
  | cons b0 xs =>
    rw [keyLtb_cons_single] at h
    exact keyLtb_cons_lt _ _ (by simpa using h)

theorem keyLtb_asymm_eq {a c : Key} (h1 : a = c ∨ keyLtb a c = true)
    (h2 : c = a ∨ keyLtb c a = true) : a = c := by
  rcases h1 with h1 | h1
  · exact h1
  · rcases h2 with h2 | h2
    · exact h2.symm
    · have := keyLtb_trans h1 h2
      rw [keyLtb_irrefl] at this
      exact absurd this Bool.false_ne_true

/-- A stored key of the node that is below the selection byte `b` forces
`prevHereKey` to return the greatest such key. -/
theorem prevHereKey_eq_max {α : Type} {el : Option α}
    {cs : List (Nat × Key × Radnode α)} {b : Nat} {j : Key} {e : α}
    (hwf : wfRoot (.mk el cs)) (hj : (j, e) ∈ toList (Radnode.mk el cs))
    (hjb : keyLtb j [b] = true)
    (hmax : ∀ q ∈ toList (Radnode.mk el cs), keyLtb q.1 [b] = true →
      q.1 = j ∨ keyLtb q.1 j = true) :
    prevHereKey el cs b = some j := by
  cases hph : prevHereKey el cs b with
  | none => exact absurd hjb (prevHereKey_none hwf hph (j, e) hj)
  | some j2 =>
    obtain ⟨⟨e2, hj2⟩, hj2b, hmax2⟩ := prevHereKey_some hwf hph
    have h1 := hmax2 (j, e) hj hjb
    have h2 := hmax (j2, e2) hj2 hj2b
    have h3 : j2 = j := keyLtb_asymm_eq h2 h1
    rw [h3]

theorem fle_exact {α : Type} : ∀ n : Radnode α, wfRoot n → ∀ (k : Key) (e : α),
    (k, e) ∈ toList n → fleNode n k = (true, some k) := by
  refine radnodeInd (fun el cs ih hwf k e hk => ?_)
  have hwf' := hwf
  rw [wfRoot_iff] at hwf
  cases k with
  | nil =>
    rcases mem_toList_mk.mp hk with ⟨hel, -⟩ | hk2
    · rw [fleNode_nil, hel]
      rfl
    · obtain ⟨b2, s2, c2, -, q, -, heq⟩ := mem_toListEdges.mp hk2
      exact absurd (congrArg Prod.fst heq) (by simp)
  | cons b k' =>
    rcases mem_toList_mk.mp hk with ⟨-, habs⟩ | hk2
    · exact absurd habs (by simp)
    · obtain ⟨b2, s2, c2, hm2, q, hq, heq⟩ := mem_toListEdges.mp hk2
      have hfst := congrArg Prod.fst heq
      rw [List.cons_append] at hfst
      injection hfst with hb2 hk'
      subst hb2
      have hf : findEdge cs b = some (s2, c2) := findEdge_of_mem hwf.1 hm2
      have hp : bstr_is_prefix_ext s2 k' = true :=
        bstr_is_prefix_iff.mpr ⟨q.1, hk'⟩
      rw [fleNode_cons_pfx hf hp]
      have hdrop : k'.drop s2.length = q.1 := by
        rw [hk']
        exact List.drop_left _ _
      have hsnd : q.2 = e := (congrArg Prod.snd heq).symm
      have hrec : fleNode c2 (k'.drop s2.length) = (true, some q.1) := by
        rw [hdrop]
        exact ih b s2 c2 hm2
          (wfNode_wfRoot (wfEdges_iff.mp hwf.2 _ _ _ hm2)) q.1 q.2
          (by rw [← Prod.mk.eta (p := q)] at hq; exact hq)
      rw [hrec]
      simp only
      rw [List.cons_append, ← hk']

end Radtree
namespace Radtree

theorem keyLtb_cons_ne {y x : Nat} (hne : y ≠ x) (u v : Key) :
    keyLtb (y :: u) (x :: v) = decide (y < x) := by
  simp [keyLtb, hne]

theorem bstr_cases {s k' : Key} (hp : ¬ bstr_is_prefix_ext s k' = true) :
    s.take (bstr_common_ext s k') = k'.take (bstr_common_ext s k') ∧
    ∃ x srest, s.drop (bstr_common_ext s k') = x :: srest ∧
      (k'.drop (bstr_common_ext s k') = [] ∨
        ∃ y krest, k'.drop (bstr_common_ext s k') = y :: krest ∧ x ≠ y) := by
  refine ⟨bstr_common_take s k', ?_⟩
  cases hds : s.drop (bstr_common_ext s k') with
  | nil =>
    exfalso
    have h1 : (s.drop (bstr_common_ext s k')).length =
        s.length - bstr_common_ext s k' := List.length_drop _ _
    rw [hds] at h1
    simp at h1
    have h2 : bstr_common_ext s k' ≤ s.length := bstr_common_le_left s k'
    have h3 : bstr_common_ext s k' = s.length := by omega
    have h4 : s.take (bstr_common_ext s k') = s := by
      rw [h3, List.take_length]
    have h5 : k' = s ++ k'.drop (bstr_common_ext s k') := by
      conv_lhs => rw [← List.take_append_drop (bstr_common_ext s k') k']
      rw [← bstr_common_take s k', h4]
    exact hp (bstr_is_prefix_iff.mpr ⟨_, h5⟩)
  | cons x srest =>
    refine ⟨x, srest, rfl, ?_⟩
    cases hdk : k'.drop (bstr_common_ext s k') with
    | nil => exact Or.inl rfl
    | cons y krest =>
      exact Or.inr ⟨y, krest, rfl, bstr_common_ne s k' hds hdk⟩

/-- When the edge label sorts above the key remainder, every key in the
edge's subtree is greater than the search key. -/
theorem seg_all_gt {b : Nat} {s k' : Key}
    (hp : ¬ bstr_is_prefix_ext s k' = true) (hlt : keyLtb k' s = true)
    (x0 : Key) : keyLtb (b :: k') (b :: s ++ x0) = true := by
  rw [List.cons_append, keyLtb_cons_same]
  obtain ⟨htake, x, srest, hds, hrest⟩ := bstr_cases hp
  rcases hrest with hdk | ⟨y, krest, hdk, hne⟩
  · have hk : k' = s.take (bstr_common_ext s k') := by
      conv_lhs => rw [← List.take_append_drop (bstr_common_ext s k') k', hdk]
      rw [← htake, List.append_nil]
    have hs : s ++ x0 = k' ++ (x :: (srest ++ x0)) := by
      conv_lhs => rw [← List.take_append_drop (bstr_common_ext s k') s, hds]
      rw [← hk]
      simp
    rw [hs]
    exact keyLtb_self_append k' (by simp)
  · have hk : k' = k'.take (bstr_common_ext s k') ++ (y :: krest) := by
      conv_lhs => rw [← List.take_append_drop (bstr_common_ext s k') k', hdk]
    have hs : s ++ x0 = k'.take (bstr_common_ext s k') ++
        (x :: (srest ++ x0)) := by
      conv_lhs => rw [← List.take_append_drop (bstr_common_ext s k') s, hds,
        htake]
      simp
    have hs2 : s = k'.take (bstr_common_ext s k') ++ (x :: srest) := by
      conv_lhs => rw [← List.take_append_drop (bstr_common_ext s k') s, hds,
        htake]
    have hyx : y < x := by
      have hlt2 : keyLtb (k'.take (bstr_common_ext s k') ++ (y :: krest))
          (k'.take (bstr_common_ext s k') ++ (x :: srest)) = true := by
        rw [← hk, ← hs2]; exact hlt
      rw [keyLtb_append_left, keyLtb_cons_ne (Ne.symm hne)] at hlt2
      exact of_decide_eq_true hlt2
    rw [hk, hs, keyLtb_append_left]
    exact keyLtb_cons_lt _ _ hyx

/-- When the edge label sorts below the key remainder (and is not a
prefix of it), every key in the edge's subtree is smaller than the
search key. -/
theorem seg_all_lt {b : Nat} {s k' : Key}
    (hp : ¬ bstr_is_prefix_ext s k' = true)
    (hnlt : ¬ keyLtb k' s = true)
    (x0 : Key) : keyLtb (b :: s ++ x0) (b :: k') = true := by
  rw [List.cons_append, keyLtb_cons_same]
  obtain ⟨htake, x, srest, hds, hrest⟩ := bstr_cases hp
  rcases hrest with hdk | ⟨y, krest, hdk, hne⟩
  · exfalso
    have hk : k' = s.take (bstr_common_ext s k') := by
      conv_lhs => rw [← List.take_append_drop (bstr_common_ext s k') k', hdk]
      rw [← htake, List.append_nil]
    have hs : s = k' ++ (x :: srest) := by
      conv_lhs => rw [← List.take_append_drop (bstr_common_ext s k') s, hds]
      rw [← hk]
    refine hnlt ?_
    rw [hs]
    exact keyLtb_self_append k' (by simp)
  · have hk : k' = k'.take (bstr_common_ext s k') ++ (y :: krest) := by
      conv_lhs => rw [← List.take_append_drop (bstr_common_ext s k') k', hdk]
    have hs : s ++ x0 = k'.take (bstr_common_ext s k') ++
        (x :: (srest ++ x0)) := by
      conv_lhs => rw [← List.take_append_drop (bstr_common_ext s k') s, hds,
        htake]
      simp
    have hs2 : s = k'.take (bstr_common_ext s k') ++ (x :: srest) := by
      conv_lhs => rw [← List.take_append_drop (bstr_common_ext s k') s, hds,
        htake]
    have hxy : x < y := by
      have hnlt2 : ¬ keyLtb (k'.take (bstr_common_ext s k') ++ (y :: krest))
          (k'.take (bstr_common_ext s k') ++ (x :: srest)) = true := by
        rw [← hk, ← hs2]; exact hnlt
      rw [keyLtb_append_left, keyLtb_cons_ne (Ne.symm hne)] at hnlt2
      simp at hnlt2
      omega
    rw [hk, hs, keyLtb_append_left]
    exact keyLtb_cons_lt _ _ hxy

end Radtree
namespace Radtree

/-- A stored key is either the node's own (empty) key or lies in the
subtree of the unique edge selected by its first byte. -/
theorem mem_toList_cases {α : Type} {el : Option α}
    {cs : List (Nat × Key × Radnode α)} {j : Key} {e : α}
    (hs : sortedEdges cs)
    (hj : (j, e) ∈ toList (Radnode.mk el cs)) :
    (j = [] ∧ el = some e) ∨
      ∃ b3 s3 c3, findEdge cs b3 = some (s3, c3) ∧
        ∃ t e3, (t, e3) ∈ toList c3 ∧ j = b3 :: s3 ++ t := by
  rcases mem_toList_mk.mp hj with ⟨hel, hj1⟩ | hj2
  · exact Or.inl ⟨hj1, hel⟩
  · obtain ⟨b3, s3, c3, hmem, q, hq, heq⟩ := mem_toListEdges.mp hj2
    refine Or.inr ⟨b3, s3, c3, findEdge_of_mem hs hmem, q.1, q.2, ?_, ?_⟩
    · rw [Prod.mk.eta]
      exact hq
    · exact congrArg Prod.fst heq

theorem keyLtb_seg_first_lt {b3 b : Nat} {s3 t k' : Key} (hne : b3 ≠ b)
    (h : keyLtb (b3 :: s3 ++ t) (b :: k') = true) : b3 < b := by
  rw [List.cons_append, keyLtb_cons_ne hne] at h
  exact of_decide_eq_true h

/-- When every stored key is greater than the search key the descent
finds nothing at all: no exact hit and no smaller element. -/
theorem fle_none {α : Type} : ∀ n : Radnode α, wfRoot n → ∀ k : Key,
    (∀ q ∈ toList n, keyLtb k q.1 = true) → fleNode n k = (false, none) := by
  refine radnodeInd (fun el cs ih hwf k hall => ?_)
  have hwf' := hwf
  rw [wfRoot_iff] at hwf
  cases k with
  | nil =>
    rw [fleNode_nil]
    cases hel : el with
    | none => simp
    | some e =>
      have hm : (([] : Key), e) ∈ toList (Radnode.mk el cs) :=
        mem_toList_mk.mpr (Or.inl ⟨by rw [hel], rfl⟩)
      have hlt := hall _ hm
      rw [keyLtb_irrefl] at hlt
      cases hlt
  | cons b k' =>
    have hph : prevHereKey el cs b = none := by
      cases hp : prevHereKey el cs b with
      | none => rfl
      | some j =>
        obtain ⟨⟨e, hj⟩, hjb, -⟩ := prevHereKey_some hwf' hp
        have h1 : keyLtb (b :: k') j = true := hall (j, e) hj
        have h2 : keyLtb j (b :: k') = true := keyLtb_single_le hjb k'
        have h3 := keyLtb_trans h1 h2
        rw [keyLtb_irrefl] at h3
        cases h3
    cases hf : findEdge cs b with
    | none => rw [fleNode_cons_none k' hf, hph]
    | some p =>
      obtain ⟨s, c⟩ := p
      have hmem := findEdge_mem hf
      have hwfc : wfNode c := wfEdges_iff.mp hwf.2 _ _ _ hmem
      have hfull : ∀ q ∈ toList c,
          (b :: s ++ q.1, q.2) ∈ toList (Radnode.mk el cs) := by
        intro q hq
        refine mem_toList_mk.mpr (Or.inr (mem_toListEdges.mpr
          ⟨b, s, c, hmem, q, hq, rfl⟩))
      by_cases hp : bstr_is_prefix_ext s k' = true
      · have hk'd : k' = s ++ k'.drop s.length := bstr_prefix_drop hp
        have hrec : fleNode c (k'.drop s.length) = (false, none) := by
          refine ih b s c hmem (wfNode_wfRoot hwfc) _ (fun q hq => ?_)
          have h1 : keyLtb (b :: k') (b :: s ++ q.1) = true :=
            hall _ (hfull q hq)
          rw [hk'd, ← List.cons_append, keyLtb_append_left] at h1
          exact h1
        rw [fleNode_cons_pfx hf hp, hrec]
        simp only
        rw [hph]
      · by_cases hlt : keyLtb k' s = true
        · rw [fleNode_cons_lt hf hp hlt, hph]
        · exfalso
          cases htl : toList c with
          | nil => exact toList_ne_nil c hwfc htl
          | cons q rest =>
            have hq : q ∈ toList c := htl ▸ List.mem_cons_self _ _
            have h1 : keyLtb (b :: k') (b :: s ++ q.1) = true :=
              hall _ (hfull q hq)
            have h2 : keyLtb (b :: s ++ q.1) (b :: k') = true :=
              seg_all_lt hp hlt q.1
            have h3 := keyLtb_trans h1 h2
            rw [keyLtb_irrefl] at h3
            exact Bool.false_ne_true h3

end Radtree
namespace Radtree

/-- If the greatest stored key below `b :: k'` does not lie in the
subtree of the edge selected by `b`, then `prevHereKey` returns it. -/
theorem pred_prevHere {α : Type} {el : Option α}
    {cs : List (Nat × Key × Radnode α)} {b : Nat} {k' j : Key} {e : α}
    (hwf : wfRoot (.mk el cs))
    (hj : (j, e) ∈ toList (Radnode.mk el cs))
    (hjk : keyLtb j (b :: k') = true)
    (hmax : ∀ q ∈ toList (Radnode.mk el cs), keyLtb q.1 (b :: k') = true →
      q.1 = j ∨ keyLtb q.1 j = true)
    (hseg : ∀ s3 c3, findEdge cs b = some (s3, c3) →
      ∀ t e3, (t, e3) ∈ toList c3 → j ≠ b :: s3 ++ t) :
    prevHereKey el cs b = some j := by
  have hs : sortedEdges cs := (wfRoot_iff.mp hwf).1
  have hjb : keyLtb j [b] = true := by
    rcases mem_toList_cases hs hj with ⟨rfl, -⟩ |
      ⟨b3, s3, c3, hf3, t, e3, hmem, rfl⟩
    · simp
    · by_cases hb3 : b3 = b
      · subst hb3
        exact absurd rfl (hseg s3 c3 hf3 t e3 hmem)
      · rw [keyLtb_seg_single]
        exact decide_eq_true (keyLtb_seg_first_lt hb3 hjk)
  refine prevHereKey_eq_max hwf hj hjb (fun q hq hqb => ?_)
  exact hmax q hq (keyLtb_single_le hqb k')

theorem findEdge_inj {α : Type} {cs : List (Nat × Key × Radnode α)}
    {b : Nat} {s s3 : Key} {c c3 : Radnode α}
    (h1 : findEdge cs b = some (s, c))
    (h2 : findEdge cs b = some (s3, c3)) : s3 = s ∧ c3 = c := by
  rw [h1] at h2
  have h3 := Option.some.inj h2
  rw [Prod.mk.injEq] at h3
  exact ⟨h3.1.symm, h3.2.symm⟩

/-- When some stored key is below the search key, the descent returns
the greatest such key (no exact hit, given none equals the search key). -/
theorem fle_pred {α : Type} : ∀ n : Radnode α, wfRoot n →
    ∀ (k j : Key) (e : α), (j, e) ∈ toList n → keyLtb j k = true →
    (∀ q ∈ toList n, q.1 ≠ k) →
    (∀ q ∈ toList n, keyLtb q.1 k = true → q.1 = j ∨ keyLtb q.1 j = true) →
    fleNode n k = (false, some j) := by
  refine radnodeInd (fun el cs ih hwf k j e hj hjk hne hmax => ?_)
  have hwf' := hwf
  rw [wfRoot_iff] at hwf
  cases k with
  | nil =>
    rw [keyLtb_nil_right] at hjk
    cases hjk
  | cons b k' =>
    cases hf : findEdge cs b with
    | none =>
      rw [fleNode_cons_none k' hf]
      rw [pred_prevHere hwf' hj hjk hmax (fun s3 c3 h3 => by
        rw [hf] at h3; cases h3)]
    | some p =>
      obtain ⟨s, c⟩ := p
      have hmem := findEdge_mem hf
      have hwfc : wfNode c := wfEdges_iff.mp hwf.2 _ _ _ hmem
      have hfull : ∀ q ∈ toList c,
          (b :: s ++ q.1, q.2) ∈ toList (Radnode.mk el cs) := by
        intro q hq
        exact mem_toList_mk.mpr (Or.inr (mem_toListEdges.mpr
          ⟨b, s, c, hmem, q, hq, rfl⟩))
      by_cases hp : bstr_is_prefix_ext s k' = true
      · have hk'd : k' = s ++ k'.drop s.length := bstr_prefix_drop hp
        by_cases hA : ∃ q ∈ toList c, keyLtb q.1 (k'.drop s.length) = true
        · obtain ⟨q0, hq0, hq0lt⟩ := hA
          have hq0k : keyLtb (b :: s ++ q0.1) (b :: k') = true := by
            rw [hk'd, ← List.cons_append, keyLtb_append_left]
            exact hq0lt
          have hjseg : ∃ t, (∃ e3, (t, e3) ∈ toList c) ∧
              j = b :: s ++ t := by
            rcases mem_toList_cases hwf.1 hj with ⟨rfl, -⟩ |
              ⟨b3, s3, c3, hf3, t, e3, hmemt, rfl⟩
            · exfalso
              rcases hmax _ (hfull q0 hq0) hq0k with h1 | h1
              · have h2 : b :: s ++ q0.1 = [] := h1
                simp at h2
              · have h2 : keyLtb (b :: s ++ q0.1) [] = true := h1
                rw [keyLtb_nil_right] at h2
                cases h2
            · by_cases hb3 : b3 = b
              · subst hb3
                obtain ⟨rfl, rfl⟩ := findEdge_inj hf hf3
                exact ⟨t, ⟨e3, hmemt⟩, rfl⟩
              · exfalso
                have hb3b : b3 < b := keyLtb_seg_first_lt hb3 hjk
                have hjq0 : keyLtb (b3 :: s3 ++ t) (b :: s ++ q0.1) = true :=
                  keyLtb_seg_lt hb3b _ _ _ _
                rcases hmax _ (hfull q0 hq0) hq0k with h1 | h1
                · have h2 : b :: s ++ q0.1 = b3 :: s3 ++ t := h1
                  rw [h2, keyLtb_irrefl] at hjq0
                  cases hjq0
                · have h2 : keyLtb (b :: s ++ q0.1) (b3 :: s3 ++ t) = true :=
                    h1
                  have h3 := keyLtb_trans h2 hjq0
                  rw [keyLtb_irrefl] at h3
                  cases h3
          obtain ⟨t, ⟨e3, hmemt⟩, rfl⟩ := hjseg
          have htd : keyLtb t (k'.drop s.length) = true := by
            rw [hk'd, ← List.cons_append, keyLtb_append_left] at hjk
            exact hjk
          have hrec : fleNode c (k'.drop s.length) = (false, some t) := by
            refine ih b s c hmem (wfNode_wfRoot hwfc) _ t e3 hmemt htd
              (fun q hq hqd => ?_) (fun q hq hqd => ?_)
            · refine hne _ (hfull q hq) ?_
              show b :: s ++ q.1 = b :: k'
              rw [hk'd, hqd]
              exact List.cons_append _ _ _
            · have hqk : keyLtb (b :: s ++ q.1) (b :: k') = true := by
                rw [hk'd, ← List.cons_append, keyLtb_append_left]
                exact hqd
              rcases hmax _ (hfull q hq) hqk with h1 | h1
              · left
                have h2 : (b :: s) ++ q.1 = (b :: s) ++ t := h1
                exact List.append_cancel_left h2
              · right
                have h2 : keyLtb ((b :: s) ++ q.1) ((b :: s) ++ t) = true :=
                  h1
                rw [keyLtb_append_left] at h2
                exact h2
          rw [fleNode_cons_pfx hf hp, hrec]
        · have hB : ∀ q ∈ toList c, keyLtb (k'.drop s.length) q.1 = true := by
            intro q hq
            rcases keyLtb_total (k'.drop s.length) q.1 with h1 | h1 | h1
            · exact h1
            · exfalso
              refine hne _ (hfull q hq) ?_
              show b :: s ++ q.1 = b :: k'
              rw [hk'd, ← h1]
              exact List.cons_append _ _ _
            · exact absurd ⟨q, hq, h1⟩ hA
          have hrec : fleNode c (k'.drop s.length) = (false, none) :=
            fle_none c (wfNode_wfRoot hwfc) _ hB
          rw [fleNode_cons_pfx hf hp, hrec]
          simp only
          have hsegp : ∀ s3 c3, findEdge cs b = some (s3, c3) →
              ∀ t e3, (t, e3) ∈ toList c3 → j ≠ b :: s3 ++ t := by
            intro s3 c3 h3 t e3 hmemt
            obtain ⟨h4, h5⟩ := findEdge_inj hf h3
            rw [h4]
            rw [h5] at hmemt
            intro hjt
            have h1 : keyLtb t (k'.drop s.length) = true := by
              rw [hjt, hk'd, ← List.cons_append, keyLtb_append_left] at hjk
              exact hjk
            have h2 := keyLtb_trans h1 (hB (t, e3) hmemt)
            rw [keyLtb_irrefl] at h2
            cases h2
          rw [pred_prevHere hwf' hj hjk hmax hsegp]
      · by_cases hlt : keyLtb k' s = true
        · rw [fleNode_cons_lt hf hp hlt]
          have hsegp : ∀ s3 c3, findEdge cs b = some (s3, c3) →
              ∀ t e3, (t, e3) ∈ toList c3 → j ≠ b :: s3 ++ t := by
            intro s3 c3 h3 t e3 hmemt
            obtain ⟨h4, h5⟩ := findEdge_inj hf h3
            rw [h4]
            intro hjt
            have h1 : keyLtb (b :: k') (b :: s ++ t) = true :=
              seg_all_gt hp hlt t
            rw [← hjt] at h1
            have h2 := keyLtb_trans hjk h1
            rw [keyLtb_irrefl] at h2
            cases h2
          rw [pred_prevHere hwf' hj hjk hmax hsegp]
        · obtain ⟨t, hlast⟩ := lastKeyNode_isSome hwfc
          obtain ⟨⟨e3, hmemt⟩, hmaxc⟩ := lastKeyNode_mem_max hwfc hlast
          have hjt : b :: s ++ t = j := by
            have hjtk : keyLtb (b :: s ++ t) (b :: k') = true :=
              seg_all_lt hp hlt t
            have h1 := hmax _ (hfull (t, e3) hmemt) hjtk
            have h1' : b :: s ++ t = j ∨ keyLtb (b :: s ++ t) j = true := h1
            have h2 : j = b :: s ++ t ∨ keyLtb j (b :: s ++ t) = true := by
              rcases mem_toList_cases hwf.1 hj with ⟨rfl, -⟩ |
                ⟨b3, s3, c3, hf3, t3, e4, hmemt3, rfl⟩
              · right
                rw [List.cons_append]
                rfl
              · by_cases hb3 : b3 = b
                · subst hb3
                  obtain ⟨rfl, rfl⟩ := findEdge_inj hf hf3
                  rcases hmaxc (t3, e4) hmemt3 with h3 | h3
                  · left
                    have h4 : t3 = t := h3
                    rw [h4]
                  · right
                    have h4 : keyLtb t3 t = true := h3
                    rw [keyLtb_seg_same]
                    exact h4
                · right
                  exact keyLtb_seg_lt (keyLtb_seg_first_lt hb3 hjk) _ _ _ _
            exact keyLtb_asymm_eq h1' h2
          rw [fleNode_cons_gt hf hp hlt, hlast]
          show (false, some (b :: s ++ t)) = ((false : Bool), some j)
          rw [hjt]

end Radtree
namespace Radtree

theorem exists_max_below {α : Type} {l : List (Key × α)} (hs : sortedKeys l)
    {k : Key} {q : Key × α} (hq : q ∈ l) (hqk : keyLtb q.1 k = true) :
    ∃ p ∈ l, keyLtb p.1 k = true ∧
      ∀ r ∈ l, keyLtb r.1 k = true → r.1 = p.1 ∨ keyLtb r.1 p.1 = true := by
  have hqf : q ∈ l.filter (fun p => keyLtb p.1 k) :=
    List.mem_filter.mpr ⟨hq, hqk⟩
  have hfne : l.filter (fun p => keyLtb p.1 k) ≠ [] := by
    intro h
    rw [h] at hqf
    cases hqf
  cases hg : (l.filter (fun p => keyLtb p.1 k)).getLast? with
  | none => exact absurd (List.getLast?_eq_none_iff.mp hg) hfne
  | some p =>
    have hpf : p ∈ l.filter (fun p => keyLtb p.1 k) := mem_of_getLast?_eq hg
    have hpl : p ∈ l := (List.mem_filter.mp hpf).1
    have hpk : keyLtb p.1 k = true := by
      simpa using (List.mem_filter.mp hpf).2
    have hsf : sortedKeys (l.filter (fun p => keyLtb p.1 k)) :=
      List.Pairwise.sublist (List.filter_sublist l) hs
    refine ⟨p, hpl, hpk, fun r hr hrk => ?_⟩
    have hrf : r ∈ l.filter (fun p => keyLtb p.1 k) :=
      List.mem_filter.mpr ⟨hr, hrk⟩
    rcases sorted_getLast_max hsf hg r hrf with rfl | h
    · exact Or.inl rfl
    · exact Or.inr h

/-- C2: `radix_find_less_equal` is exact: a present key yields the exact
match `(true, that key)`; when every stored key is greater than the
search key (in particular in the empty tree) it yields `(false, none)`;
otherwise (key absent, some stored key not greater) it yields
`(false, some j)` with `j` the greatest stored key strictly less than
the search key, in the strict byte-lexicographic order `keyLtb` in which
a strict prefix sorts before its extensions. -/
theorem claim_C2 {α : Type} (rt : Rtree α) (hwf : wfRoot rt.root) (k : Key) :
    (∀ e, (k, e) ∈ toList rt.root →
      radix_find_less_equal rt k = (true, some k)) ∧
    ((∀ q ∈ toList rt.root, keyLtb k q.1 = true) →
      radix_find_less_equal rt k = (false, none)) ∧
    ((∀ e, (k, e) ∉ toList rt.root) →
      ∀ q0 ∈ toList rt.root, ¬ keyLtb k q0.1 = true →
      ∃ j e, (j, e) ∈ toList rt.root ∧ keyLtb j k = true ∧
        (∀ r ∈ toList rt.root, keyLtb r.1 k = true →
          r.1 = j ∨ keyLtb r.1 j = true) ∧
        radix_find_less_equal rt k = (false, some j)) := by
  refine ⟨?_, ?_, ?_⟩
  · intro e hm
    exact fle_exact rt.root hwf k e hm
  · intro h
    exact fle_none rt.root hwf k h
  · intro hnp q0 hq0 hq0k
    have hne : ∀ q ∈ toList rt.root, q.1 ≠ k := by
      intro q hq hqk
      refine hnp q.2 ?_
      rw [← hqk, Prod.mk.eta]
      exact hq
    have hq0lt : keyLtb q0.1 k = true := by
      rcases keyLtb_total q0.1 k with h1 | h1 | h1
      · exact h1
      · exact absurd h1 (hne q0 hq0)
      · exact absurd h1 hq0k
    obtain ⟨p, hp, hpk, hmax⟩ :=
      exists_max_below (toList_sorted rt.root hwf) hq0 hq0lt
    refine ⟨p.1, p.2, ?_, hpk, hmax, ?_⟩
    · rw [Prod.mk.eta]
      exact hp
    · exact fle_pred rt.root hwf k p.1 p.2 (by rw [Prod.mk.eta]; exact hp)
        hpk hne hmax

end Radtree
namespace Radtree

/-- C2 witness: in the tree holding keys `[97]` and `[97, 98]`, searching
less-equal for the absent key `[97, 99]` exercises the characterization;
the greatest smaller stored key is `[97, 98]`. -/
theorem claim_C2_witness :
    wfRoot (Rtree.mk (Radnode.mk (none : Option Nat)
        [(97, [], Radnode.mk (some 1) [(98, [], Radnode.mk (some 2) [])])])
        2).root ∧
    ((∀ e, (([97, 99] : Key), e) ∈ toList (Rtree.mk (Radnode.mk
          (none : Option Nat)
          [(97, [], Radnode.mk (some 1) [(98, [], Radnode.mk (some 2) [])])])
          2).root →
      radix_find_less_equal (Rtree.mk (Radnode.mk (none : Option Nat)
          [(97, [], Radnode.mk (some 1) [(98, [], Radnode.mk (some 2) [])])])
          2) [97, 99] = (true, some [97, 99])) ∧
    ((∀ q ∈ toList (Rtree.mk (Radnode.mk (none : Option Nat)
          [(97, [], Radnode.mk (some 1) [(98, [], Radnode.mk (some 2) [])])])
          2).root, keyLtb [97, 99] q.1 = true) →
      radix_find_less_equal (Rtree.mk (Radnode.mk (none : Option Nat)
          [(97, [], Radnode.mk (some 1) [(98, [], Radnode.mk (some 2) [])])])
          2) [97, 99] = (false, none)) ∧
    ((∀ e, (([97, 99] : Key), e) ∉ toList (Rtree.mk (Radnode.mk
          (none : Option Nat)
          [(97, [], Radnode.mk (some 1) [(98, [], Radnode.mk (some 2) [])])])
          2).root) →
      ∀ q0 ∈ toList (Rtree.mk (Radnode.mk (none : Option Nat)
          [(97, [], Radnode.mk (some 1) [(98, [], Radnode.mk (some 2) [])])])
          2).root, ¬ keyLtb [97, 99] q0.1 = true →
      ∃ j e, (j, e) ∈ toList (Rtree.mk (Radnode.mk (none : Option Nat)
          [(97, [], Radnode.mk (some 1) [(98, [], Radnode.mk (some 2) [])])])
          2).root ∧ keyLtb j [97, 99] = true ∧
        (∀ r ∈ toList (Rtree.mk (Radnode.mk (none : Option Nat)
          [(97, [], Radnode.mk (some 1) [(98, [], Radnode.mk (some 2) [])])])
          2).root, keyLtb r.1 [97, 99] = true →
          r.1 = j ∨ keyLtb r.1 j = true) ∧
        radix_find_less_equal (Rtree.mk (Radnode.mk (none : Option Nat)
          [(97, [], Radnode.mk (some 1) [(98, [], Radnode.mk (some 2) [])])])
          2) [97, 99] = (false, some j))) := by
  refine ⟨?_, claim_C2 _ ?_ _⟩ <;>
    simp [wfRoot_iff, wfNode_def, sortedEdges]

end Radtree
namespace Radtree

/-! ### Traversal step: unfolding lemmas -/

theorem nextKeyNode_nil_nil {α : Type} (el : Option α) :
    nextKeyNode (.mk el []) [] = none := by
  rw [nextKeyNode.eq_def]

theorem nextKeyNode_nil_cons {α : Type} (el : Option α) (b : Nat) (s : Key)
    (c : Radnode α) (rest : List (Nat × Key × Radnode α)) :
    nextKeyNode (.mk el ((b, s, c) :: rest)) [] =
      (firstKeyNode c).map (fun r => b :: s ++ r) := by
  rw [nextKeyNode.eq_def]

theorem nextKeyNode_cons_none {α : Type} {el : Option α}
    {cs : List (Nat × Key × Radnode α)} {b : Nat} (k' : Key)
    (hf : findEdge cs b = none) :
    nextKeyNode (.mk el cs) (b :: k') = none := by
  rw [nextKeyNode.eq_def]
  split
  all_goals try split
  all_goals simp_all

theorem nextKeyNode_cons_nopfx {α : Type} {el : Option α}
    {cs : List (Nat × Key × Radnode α)} {b : Nat} {k' s : Key}
    {c : Radnode α} (hf : findEdge cs b = some (s, c))
    (hp : ¬ bstr_is_prefix_ext s k' = true) :
    nextKeyNode (.mk el cs) (b :: k') = none := by
  rw [nextKeyNode.eq_def]
  split
  all_goals try split
  all_goals simp_all

theorem nextKeyNode_cons_pfx {α : Type} {el : Option α}
    {cs : List (Nat × Key × Radnode α)} {b : Nat} {k' s : Key}
    {c : Radnode α} (hf : findEdge cs b = some (s, c))
    (hp : bstr_is_prefix_ext s k' = true) :
    nextKeyNode (.mk el cs) (b :: k') =
      match nextKeyNode c (k'.drop s.length) with
      | some r => some (b :: s ++ r)
      | none =>
        match minEdgeAbove cs b with
        | none => none
        | some (b2, s2, c2) => (firstKeyNode c2).map (fun r => b2 :: s2 ++ r) := by
  rw [nextKeyNode.eq_def]
  split
  all_goals try split
  all_goals simp_all

theorem prevKeyNode_nil {α : Type} (n : Radnode α) :
    prevKeyNode n [] = none := by
  cases n with
  | mk el cs => rw [prevKeyNode.eq_def]

theorem prevKeyNode_cons_none {α : Type} {el : Option α}
    {cs : List (Nat × Key × Radnode α)} {b : Nat} (k' : Key)
    (hf : findEdge cs b = none) :
    prevKeyNode (.mk el cs) (b :: k') = none := by
  rw [prevKeyNode.eq_def]
  split
  all_goals try split
  all_goals simp_all

theorem prevKeyNode_cons_nopfx {α : Type} {el : Option α}
    {cs : List (Nat × Key × Radnode α)} {b : Nat} {k' s : Key}
    {c : Radnode α} (hf : findEdge cs b = some (s, c))
    (hp : ¬ bstr_is_prefix_ext s k' = true) :
    prevKeyNode (.mk el cs) (b :: k') = none := by
  rw [prevKeyNode.eq_def]
  split
  all_goals try split
  all_goals simp_all

theorem prevKeyNode_cons_pfx {α : Type} {el : Option α}
    {cs : List (Nat × Key × Radnode α)} {b : Nat} {k' s : Key}
    {c : Radnode α} (hf : findEdge cs b = some (s, c))
    (hp : bstr_is_prefix_ext s k' = true) :
    prevKeyNode (.mk el cs) (b :: k') =
      match prevKeyNode c (k'.drop s.length) with
      | some r => some (b :: s ++ r)
      | none => prevHereKey el cs b := by
  rw [prevKeyNode.eq_def]
  split
  all_goals try split
  all_goals simp_all

end Radtree
namespace Radtree

/-- When every stored key is at most the given key, there is no next
element. -/
theorem next_none {α : Type} : ∀ n : Radnode α, wfRoot n → ∀ k : Key,
    (∀ q ∈ toList n, q.1 = k ∨ keyLtb q.1 k = true) →
    nextKeyNode n k = none := by
  refine radnodeInd (fun el cs ih hwf k hall => ?_)
  have hwf' := hwf
  rw [wfRoot_iff] at hwf
  cases k with
  | nil =>
    cases hcs : cs with
    | nil => exact nextKeyNode_nil_nil el
    | cons hd rest =>
      obtain ⟨b, s, c⟩ := hd
      exfalso
      have hmem : (b, s, c) ∈ cs := by
        rw [hcs]
        exact List.mem_cons_self _ _
      have hwfc : wfNode c := wfEdges_iff.mp hwf.2 _ _ _ hmem
      cases htl : toList c with
      | nil => exact toList_ne_nil c hwfc htl
      | cons q rest2 =>
        have hq : q ∈ toList c := htl ▸ List.mem_cons_self _ _
        have hfq : (b :: s ++ q.1, q.2) ∈ toList (Radnode.mk el cs) :=
          mem_toList_mk.mpr (Or.inr (mem_toListEdges.mpr
            ⟨b, s, c, hmem, q, hq, rfl⟩))
        rcases hall _ hfq with h1 | h1
        · have h2 : b :: s ++ q.1 = [] := h1
          simp at h2
        · have h2 : keyLtb (b :: s ++ q.1) [] = true := h1
          rw [keyLtb_nil_right] at h2
          cases h2
  | cons b k' =>
    cases hf : findEdge cs b with
    | none => exact nextKeyNode_cons_none k' hf
    | some p =>
      obtain ⟨s, c⟩ := p
      have hmem := findEdge_mem hf
      have hwfc : wfNode c := wfEdges_iff.mp hwf.2 _ _ _ hmem
      have hfull : ∀ q ∈ toList c,
          (b :: s ++ q.1, q.2) ∈ toList (Radnode.mk el cs) := by
        intro q hq
        exact mem_toList_mk.mpr (Or.inr (mem_toListEdges.mpr
          ⟨b, s, c, hmem, q, hq, rfl⟩))
      by_cases hp : bstr_is_prefix_ext s k' = true
      · have hk'd : k' = s ++ k'.drop s.length := bstr_prefix_drop hp
        have hrec : nextKeyNode c (k'.drop s.length) = none := by
          refine ih b s c hmem (wfNode_wfRoot hwfc) _ (fun q hq => ?_)
          rcases hall _ (hfull q hq) with h1 | h1
          · left
            have h2 : (b :: s) ++ q.1 = b :: k' := h1
            rw [hk'd, ← List.cons_append] at h2
            exact List.append_cancel_left h2
          · right
            have h2 : keyLtb ((b :: s) ++ q.1) (b :: k') = true := h1
            rw [hk'd, ← List.cons_append, keyLtb_append_left] at h2
            exact h2
        rw [nextKeyNode_cons_pfx hf hp, hrec]
        simp only
        cases hm : minEdgeAbove cs b with
        | none => rfl
        | some p2 =>
          obtain ⟨b2, s2, c2⟩ := p2
          exfalso
          obtain ⟨hm2, hb2, -⟩ := minEdgeAbove_some hwf.1 hm
          have hwfc2 : wfNode c2 := wfEdges_iff.mp hwf.2 _ _ _ hm2
          cases htl : toList c2 with
          | nil => exact toList_ne_nil c2 hwfc2 htl
          | cons q rest2 =>
            have hq : q ∈ toList c2 := htl ▸ List.mem_cons_self _ _
            have hfq : (b2 :: s2 ++ q.1, q.2) ∈ toList (Radnode.mk el cs) :=
              mem_toList_mk.mpr (Or.inr (mem_toListEdges.mpr
                ⟨b2, s2, c2, hm2, q, hq, rfl⟩))
            have hkq : keyLtb (b :: k') (b2 :: s2 ++ q.1) = true := by
              rw [List.cons_append]
              exact keyLtb_cons_lt _ _ hb2
            rcases hall _ hfq with h1 | h1
            · have h2 : b2 :: s2 ++ q.1 = b :: k' := h1
              rw [h2, keyLtb_irrefl] at hkq
              cases hkq
            · have h2 : keyLtb (b2 :: s2 ++ q.1) (b :: k') = true := h1
              have h3 := keyLtb_trans hkq h2
              rw [keyLtb_irrefl] at h3
              cases h3
      · exact nextKeyNode_cons_nopfx hf hp

/-- When every stored key is at least the given key, there is no
previous element. -/
theorem prev_none {α : Type} : ∀ n : Radnode α, wfRoot n → ∀ k : Key,
    (∀ q ∈ toList n, q.1 = k ∨ keyLtb k q.1 = true) →
    prevKeyNode n k = none := by
  refine radnodeInd (fun el cs ih hwf k hall => ?_)
  have hwf' := hwf
  rw [wfRoot_iff] at hwf
  cases k with
  | nil => exact prevKeyNode_nil _
  | cons b k' =>
    cases hf : findEdge cs b with
    | none => exact prevKeyNode_cons_none k' hf
    | some p =>
      obtain ⟨s, c⟩ := p
      have hmem := findEdge_mem hf
      have hwfc : wfNode c := wfEdges_iff.mp hwf.2 _ _ _ hmem
      have hfull : ∀ q ∈ toList c,
          (b :: s ++ q.1, q.2) ∈ toList (Radnode.mk el cs) := by
        intro q hq
        exact mem_toList_mk.mpr (Or.inr (mem_toListEdges.mpr
          ⟨b, s, c, hmem, q, hq, rfl⟩))
      by_cases hp : bstr_is_prefix_ext s k' = true
      · have hk'd : k' = s ++ k'.drop s.length := bstr_prefix_drop hp
        have hrec : prevKeyNode c (k'.drop s.length) = none := by
          refine ih b s c hmem (wfNode_wfRoot hwfc) _ (fun q hq => ?_)
          rcases hall _ (hfull q hq) with h1 | h1
          · left
            have h2 : (b :: s) ++ q.1 = b :: k' := h1
            rw [hk'd, ← List.cons_append] at h2
            exact List.append_cancel_left h2
          · right
            have h2 : keyLtb (b :: k') ((b :: s) ++ q.1) = true := h1
            rw [hk'd, ← List.cons_append, keyLtb_append_left] at h2
            exact h2
        rw [prevKeyNode_cons_pfx hf hp, hrec]
        simp only
        cases hph : prevHereKey el cs b with
        | none => rfl
        | some j =>
          exfalso
          obtain ⟨⟨e, hj⟩, hjb, -⟩ := prevHereKey_some hwf' hph
          have hjk : keyLtb j (b :: k') = true := keyLtb_single_le hjb k'
          rcases hall _ hj with h1 | h1
          · have h2 : j = b :: k' := h1
            rw [h2, keyLtb_irrefl] at hjk
            cases hjk
          · have h2 : keyLtb (b :: k') j = true := h1
            have h3 := keyLtb_trans hjk h2
            rw [keyLtb_irrefl] at h3
            cases h3
      · exact prevKeyNode_cons_nopfx hf hp

end Radtree
namespace Radtree

theorem keyLtb_first_lt {x y : Nat} {u v : Key} (hne : x ≠ y)
    (h : keyLtb (x :: u) (y :: v) = true) : x < y := by
  rw [keyLtb_cons_ne hne] at h
  exact of_decide_eq_true h

/-- The previous element of a stored key is the greatest stored key
strictly below it. -/
theorem prev_some {α : Type} : ∀ n : Radnode α, wfRoot n →
    ∀ (k j : Key) (e0 e : α), (k, e0) ∈ toList n → (j, e) ∈ toList n →
    keyLtb j k = true →
    (∀ q ∈ toList n, keyLtb q.1 k = true → q.1 = j ∨ keyLtb q.1 j = true) →
    prevKeyNode n k = some j := by
  refine radnodeInd (fun el cs ih hwf k j e0 e hk hj hjk hmax => ?_)
  have hwf' := hwf
  rw [wfRoot_iff] at hwf
  cases k with
  | nil =>
    rw [keyLtb_nil_right] at hjk
    cases hjk
  | cons b k' =>
    rcases mem_toList_cases hwf.1 hk with ⟨heq, -⟩ |
      ⟨b3, s3, c3, hf3, t, e3, hmemt, hkeq⟩
    · cases heq
    · have hb3 : b = b3 ∧ k' = s3 ++ t := by
        have h1 : b :: k' = b3 :: (s3 ++ t) := hkeq
        exact ⟨by injection h1, by injection h1⟩
      obtain ⟨rfl, hk2⟩ := hb3
      have hf : findEdge cs b = some (s3, c3) := hf3
      have hmem := findEdge_mem hf
      have hwfc : wfNode c3 := wfEdges_iff.mp hwf.2 _ _ _ hmem
      have hp : bstr_is_prefix_ext s3 k' = true :=
        bstr_is_prefix_iff.mpr ⟨t, hk2⟩
      have hd : k'.drop s3.length = t := by
        rw [hk2]
        exact List.drop_left _ _
      have hfull : ∀ q ∈ toList c3,
          (b :: s3 ++ q.1, q.2) ∈ toList (Radnode.mk el cs) := by
        intro q hq
        exact mem_toList_mk.mpr (Or.inr (mem_toListEdges.mpr
          ⟨b, s3, c3, hmem, q, hq, rfl⟩))
      by_cases hjseg : ∃ tj ej, (tj, ej) ∈ toList c3 ∧ j = b :: s3 ++ tj
      · obtain ⟨tj, ej, hmemtj, rfl⟩ := hjseg
        have hrec : prevKeyNode c3 (k'.drop s3.length) = some tj := by
          rw [hd]
          refine ih b s3 c3 hmem (wfNode_wfRoot hwfc) t tj e3 ej hmemt
            hmemtj ?_ ?_
          · have h1 : keyLtb ((b :: s3) ++ tj) ((b :: s3) ++ t) = true := by
              rw [List.cons_append]
              have h2 : b :: k' = (b :: s3) ++ t := by
                rw [hk2]
                exact (List.cons_append _ _ _).symm
              rw [← h2]
              exact hjk
            rw [keyLtb_append_left] at h1
            exact h1
          · intro q hq hqt
            have hqk : keyLtb (b :: s3 ++ q.1) (b :: k') = true := by
              rw [hk2, ← List.cons_append, keyLtb_append_left]
              exact hqt
            rcases hmax _ (hfull q hq) hqk with h1 | h1
            · left
              have h2 : (b :: s3) ++ q.1 = (b :: s3) ++ tj := h1
              exact List.append_cancel_left h2
            · right
              have h2 : keyLtb ((b :: s3) ++ q.1) ((b :: s3) ++ tj) = true :=
                h1
              rw [keyLtb_append_left] at h2
              exact h2
        rw [prevKeyNode_cons_pfx hf hp, hrec]
      · have hnone : prevKeyNode c3 (k'.drop s3.length) = none := by
          rw [hd]
          refine prev_none c3 (wfNode_wfRoot hwfc) t (fun q hq => ?_)
          rcases keyLtb_total q.1 t with h1 | h1 | h1
          · exfalso
            have hqk : keyLtb (b :: s3 ++ q.1) (b :: k') = true := by
              rw [hk2, ← List.cons_append, keyLtb_append_left]
              exact h1
            rcases hmax _ (hfull q hq) hqk with h2 | h2
            · exact hjseg ⟨q.1, q.2, hq, h2.symm⟩
            · have h3 : keyLtb (b :: (s3 ++ q.1)) j = true := h2
              rcases mem_toList_cases hwf.1 hj with ⟨rfl, -⟩ |
                ⟨b4, s4, c4, hf4, tj, e4, hmemtj, rfl⟩
              · rw [keyLtb_nil_right] at h3
                cases h3
              · by_cases hb4 : b4 = b
                · subst hb4
                  obtain ⟨h5, h6⟩ := findEdge_inj hf hf4
                  refine hjseg ⟨tj, e4, ?_, ?_⟩
                  · rw [h6] at hmemtj
                    exact hmemtj
                  · rw [h5]
                · have h4 : keyLtb (b4 :: (s4 ++ tj)) (b :: k') = true := hjk
                  have hlt4 : b4 < b := keyLtb_first_lt hb4 h4
                  have h5 : keyLtb (b :: (s3 ++ q.1))
                      (b4 :: (s4 ++ tj)) = true := h3
                  have hlt5 : b < b4 :=
                    keyLtb_first_lt (fun h => hb4 h.symm) h5
                  omega
          · exact Or.inl h1
          · exact Or.inr h1
        rw [prevKeyNode_cons_pfx hf hp, hnone]
        simp only
        refine pred_prevHere hwf' hj hjk hmax (fun s5 c5 h5 t5 e5 hmemt5 => ?_)
        obtain ⟨h6, h7⟩ := findEdge_inj hf h5
        intro hjt
        refine hjseg ⟨t5, e5, ?_, ?_⟩
        · rw [h7] at hmemt5
          exact hmemt5
        · rw [hjt, h6]

end Radtree
namespace Radtree

/-- The next element of a stored key is the least stored key strictly
above it. -/
theorem next_some {α : Type} : ∀ n : Radnode α, wfRoot n →
    ∀ (k j : Key) (e0 e : α), (k, e0) ∈ toList n → (j, e) ∈ toList n →
    keyLtb k j = true →
    (∀ q ∈ toList n, keyLtb k q.1 = true → q.1 = j ∨ keyLtb j q.1 = true) →
    nextKeyNode n k = some j := by
  refine radnodeInd (fun el cs ih hwf k j e0 e hk hj hkj hmin => ?_)
  have hwf' := hwf
  rw [wfRoot_iff] at hwf
  have hjne : j ≠ [] := by
    intro hjn
    rw [hjn, keyLtb_nil_right] at hkj
    cases hkj
  obtain ⟨b3, s3, c3, hf3, tj, e3, hmemtj, hjeq⟩ :
      ∃ b3 s3 c3, findEdge cs b3 = some (s3, c3) ∧
        ∃ t e3, (t, e3) ∈ toList c3 ∧ j = b3 :: s3 ++ t := by
    rcases mem_toList_cases hwf.1 hj with ⟨hjn, -⟩ | h
    · exact absurd hjn hjne
    · exact h
  have hmem3 := findEdge_mem hf3
  have hwfc3 : wfNode c3 := wfEdges_iff.mp hwf.2 _ _ _ hmem3
  cases k with
  | nil =>
    cases hcs : cs with
    | nil =>
      exfalso
      rw [hcs] at hmem3
      cases hmem3
    | cons hd rest =>
      obtain ⟨b, s, c⟩ := hd
      have hmem : (b, s, c) ∈ cs := by
        rw [hcs]
        exact List.mem_cons_self _ _
      have hwfc : wfNode c := wfEdges_iff.mp hwf.2 _ _ _ hmem
      rw [nextKeyNode_nil_cons]
      cases htl : toList c with
      | nil => exact absurd htl (toList_ne_nil c hwfc)
      | cons q0 rest2 =>
        have hq0 : q0 ∈ toList c := htl ▸ List.mem_cons_self _ _
        have hfq0 : (b :: s ++ q0.1, q0.2) ∈ toList (Radnode.mk el cs) :=
          mem_toList_mk.mpr (Or.inr (mem_toListEdges.mpr
            ⟨b, s, c, hmem, q0, hq0, rfl⟩))
        have hkq0 : keyLtb [] (b :: s ++ q0.1) = true := by
          rw [List.cons_append]
          rfl
        have heq : b :: s ++ q0.1 = j := by
          rcases hmin _ hfq0 hkq0 with h1 | h1
          · exact h1
          · exfalso
            have h2 : keyLtb (b3 :: s3 ++ tj) (b :: s ++ q0.1) = true := by
              rw [← hjeq]
              exact h1
            have hb3cs : b3 = b ∨ b < b3 := by
              rw [hcs] at hmem3
              rcases List.mem_cons.mp hmem3 with h3 | h3
              · left
                simpa using congrArg Prod.fst h3
              · right
                rw [hcs] at hwf
                exact (List.pairwise_cons.mp hwf.1).1 _ h3
            rcases hb3cs with rfl | hb3b
            · obtain ⟨h4, h5⟩ := findEdge_inj (findEdge_of_mem hwf.1 hmem) hf3
              rw [h4] at h2
              rw [h5] at hmemtj
              have h6 : keyLtb ((b3 :: s) ++ tj) ((b3 :: s) ++ q0.1) = true :=
                h2
              rw [keyLtb_append_left] at h6
              have hh : (toList c).head? = some q0 := by
                rw [htl]
                rfl
              rcases sorted_head_min (toList_sorted c (wfNode_wfRoot hwfc))
                  hh (tj, e3) hmemtj with h7 | h7
              · have h8 : q0.1 = tj := congrArg Prod.fst h7
                rw [h8, keyLtb_irrefl] at h6
                cases h6
              · have h8 := keyLtb_trans h6 h7
                rw [keyLtb_irrefl] at h8
                cases h8
            · have h3 : b3 < b :=
                keyLtb_first_lt (fun h => (Nat.lt_irrefl b) (h ▸ hb3b)) h2
              omega
        rw [firstKeyNode_spec c (wfNode_wfRoot hwfc), htl]
        show some (b :: s ++ q0.1) = some j
        rw [heq]
  | cons b k' =>
    rcases mem_toList_cases hwf.1 hk with ⟨heq, -⟩ |
      ⟨b4, s4, c4, hf4, t, e4, hmemt, hkeq⟩
    · cases heq
    · have hb4 : b = b4 ∧ k' = s4 ++ t := by
        have h1 : b :: k' = b4 :: (s4 ++ t) := hkeq
        exact ⟨by injection h1, by injection h1⟩
      obtain ⟨rfl, hk2⟩ := hb4
      have hf : findEdge cs b = some (s4, c4) := hf4
      have hmem := findEdge_mem hf
      have hwfc : wfNode c4 := wfEdges_iff.mp hwf.2 _ _ _ hmem
      have hp : bstr_is_prefix_ext s4 k' = true :=
        bstr_is_prefix_iff.mpr ⟨t, hk2⟩
      have hd : k'.drop s4.length = t := by
        rw [hk2]
        exact List.drop_left _ _
      have hfull : ∀ q ∈ toList c4,
          (b :: s4 ++ q.1, q.2) ∈ toList (Radnode.mk el cs) := by
        intro q hq
        exact mem_toList_mk.mpr (Or.inr (mem_toListEdges.mpr
          ⟨b, s4, c4, hmem, q, hq, rfl⟩))
      by_cases hjseg : ∃ tx ex, (tx, ex) ∈ toList c4 ∧ j = b :: s4 ++ tx
      · obtain ⟨tx, ex, hmemtx, rfl⟩ := hjseg
        have hrec : nextKeyNode c4 (k'.drop s4.length) = some tx := by
          rw [hd]
          refine ih b s4 c4 hmem (wfNode_wfRoot hwfc) t tx e4 ex hmemt
            hmemtx ?_ ?_
          · have h1 : keyLtb ((b :: s4) ++ t) ((b :: s4) ++ tx) = true := by
              have h2 : b :: k' = (b :: s4) ++ t := by
                rw [hk2]
                exact (List.cons_append _ _ _).symm
              rw [← h2, List.cons_append]
              exact hkj
            rw [keyLtb_append_left] at h1
            exact h1
          · intro q hq hqt
            have hqk : keyLtb (b :: k') (b :: s4 ++ q.1) = true := by
              rw [hk2, ← List.cons_append, keyLtb_append_left]
              exact hqt
            rcases hmin _ (hfull q hq) hqk with h1 | h1
            · left
              have h2 : (b :: s4) ++ q.1 = (b :: s4) ++ tx := h1
              exact List.append_cancel_left h2
            · right
              have h2 : keyLtb ((b :: s4) ++ tx) ((b :: s4) ++ q.1) = true :=
                h1
              rw [keyLtb_append_left] at h2
              exact h2
        rw [nextKeyNode_cons_pfx hf hp, hrec]
      · have hb3b : b < b3 := by
          by_cases hb3 : b3 = b
          · exfalso
            subst hb3
            obtain ⟨h5, h6⟩ := findEdge_inj hf hf3
            refine hjseg ⟨tj, e3, ?_, ?_⟩
            · rw [h6] at hmemtj
              exact hmemtj
            · rw [hjeq, h5]
          · have h1 : keyLtb (b :: k') (b3 :: s3 ++ tj) = true := by
              rw [← hjeq]
              exact hkj
            exact keyLtb_first_lt (fun h => hb3 h.symm) h1
        have hnone : nextKeyNode c4 (k'.drop s4.length) = none := by
          rw [hd]
          refine next_none c4 (wfNode_wfRoot hwfc) t (fun q hq => ?_)
          rcases keyLtb_total q.1 t with h1 | h1 | h1
          · exact Or.inr h1
          · exact Or.inl h1
          · exfalso
            have hqk : keyLtb (b :: k') (b :: s4 ++ q.1) = true := by
              rw [hk2, ← List.cons_append, keyLtb_append_left]
              exact h1
            rcases hmin _ (hfull q hq) hqk with h2 | h2
            · refine hjseg ⟨q.1, q.2, hq, ?_⟩
              have h2a : b :: s4 ++ q.1 = j := h2
              exact h2a.symm
            · have h3 : keyLtb (b3 :: s3 ++ tj) (b :: s4 ++ q.1) = true := by
                rw [← hjeq]
                exact h2
              have h4 : b3 < b :=
                keyLtb_first_lt (fun h => absurd (h ▸ hb3b) (Nat.lt_irrefl b))
                  h3
              omega
        rw [nextKeyNode_cons_pfx hf hp, hnone]
        simp only
        cases hm : minEdgeAbove cs b with
        | none =>
          exfalso
          exact minEdgeAbove_none hm b3 s3 c3 hmem3 hb3b
        | some p2 =>
          obtain ⟨b2, s2, c2⟩ := p2
          obtain ⟨hm2, hb2, hminb⟩ := minEdgeAbove_some hwf.1 hm
          have hwfc2 : wfNode c2 := wfEdges_iff.mp hwf.2 _ _ _ hm2
          have hb23 : b2 ≤ b3 := hminb b3 s3 c3 hmem3 hb3b
          cases htl : toList c2 with
          | nil => exact absurd htl (toList_ne_nil c2 hwfc2)
          | cons q2 rest2 =>
            have hq2 : q2 ∈ toList c2 := htl ▸ List.mem_cons_self _ _
            have hfq2 : (b2 :: s2 ++ q2.1, q2.2) ∈
                toList (Radnode.mk el cs) :=
              mem_toList_mk.mpr (Or.inr (mem_toListEdges.mpr
                ⟨b2, s2, c2, hm2, q2, hq2, rfl⟩))
            have hkq2 : keyLtb (b :: k') (b2 :: s2 ++ q2.1) = true := by
              rw [List.cons_append]
              exact keyLtb_cons_lt _ _ hb2
            have heq2 : b2 :: s2 ++ q2.1 = j := by
              rcases hmin _ hfq2 hkq2 with h1 | h1
              · exact h1
              · exfalso
                have h2 : keyLtb (b3 :: s3 ++ tj)
                    (b2 :: s2 ++ q2.1) = true := by
                  rw [← hjeq]
                  exact h1
                by_cases hb32 : b3 = b2
                · subst hb32
                  obtain ⟨h4, h5⟩ := findEdge_inj
                    (findEdge_of_mem hwf.1 hm2) hf3
                  rw [h4] at h2
                  rw [h5] at hmemtj
                  have h6 : keyLtb ((b3 :: s2) ++ tj)
                      ((b3 :: s2) ++ q2.1) = true := h2
                  rw [keyLtb_append_left] at h6
                  have hh : (toList c2).head? = some q2 := by
                    rw [htl]
                    rfl
                  rcases sorted_head_min (toList_sorted c2
                      (wfNode_wfRoot hwfc2)) hh (tj, e3)
                      hmemtj with h7 | h7
                  · have h8 : q2.1 = tj := congrArg Prod.fst h7
                    rw [h8, keyLtb_irrefl] at h6
                    cases h6
                  · have h8 := keyLtb_trans h6 h7
                    rw [keyLtb_irrefl] at h8
                    cases h8
                · have h3 : b3 < b2 := keyLtb_first_lt hb32 h2
                  omega
            show (firstKeyNode c2).map (fun r => b2 :: s2 ++ r) = some j
            rw [firstKeyNode_spec c2 (wfNode_wfRoot hwfc2), htl]
            show some (b2 :: s2 ++ q2.1) = some j
            rw [heq2]

end Radtree
namespace Radtree

theorem sorted_index_lt {α : Type} {l : List (Key × α)} (hs : sortedKeys l)
    {i1 i2 : Nat} {p q : Key × α} (h1 : l[i1]? = some p)
    (h2 : l[i2]? = some q) (hij : i1 < i2) : keyLtb p.1 q.1 = true := by
  obtain ⟨hl1, he1⟩ := List.getElem?_eq_some.mp h1
  obtain ⟨hl2, he2⟩ := List.getElem?_eq_some.mp h2
  have h3 := (List.pairwise_iff_getElem.mp hs) i1 i2 hl1 hl2 hij
  rw [he1, he2] at h3
  exact h3

/-- C3: traversal is total and ordered: `radix_first`/`radix_last` are
the first/last entries of the stored association list (which is sorted
in ascending prefix-before-extension byte order), and from the element
at any position `i`, `radix_next` moves to position `i + 1` (absent
after the last) while `radix_prev` moves to position `i - 1` (absent
before the first); so first/next visits exactly the stored elements in
ascending key order and last/prev visits them in the mirror order. -/
theorem claim_C3 {α : Type} (rt : Rtree α) (hwf : wfRoot rt.root) :
    sortedKeys (toList rt.root) ∧
    radix_first rt = ((toList rt.root).head?).map Prod.fst ∧
    radix_last rt = ((toList rt.root).getLast?).map Prod.fst ∧
    (∀ (i : Nat) (p : Key × α), (toList rt.root)[i]? = some p →
      radix_next rt p.1 = ((toList rt.root)[i+1]?).map Prod.fst) ∧
    (∀ (i : Nat) (p : Key × α), (toList rt.root)[i]? = some p →
      radix_prev rt p.1 = if i = 0 then none
        else ((toList rt.root)[i-1]?).map Prod.fst) := by
  have hs := toList_sorted rt.root hwf
  refine ⟨hs, firstKeyNode_spec rt.root hwf, lastKeyNode_spec rt.root hwf,
    ?_, ?_⟩
  · intro i p hp
    have hpmem : p ∈ toList rt.root := List.getElem?_mem hp
    cases hnext : (toList rt.root)[i+1]? with
    | none =>
      have hlen : (toList rt.root).length ≤ i + 1 :=
        List.getElem?_eq_none_iff.mp hnext
      show nextKeyNode rt.root p.1 = none
      refine next_none rt.root hwf p.1 (fun q hq => ?_)
      obtain ⟨iq, hiq⟩ := List.mem_iff_getElem?.mp hq
      have hiql : iq < (toList rt.root).length :=
        (List.getElem?_eq_some.mp hiq).1
      rcases Nat.lt_or_ge iq i with hlt | hge
      · exact Or.inr (sorted_index_lt hs hiq hp hlt)
      · left
        have hieq : iq = i := by omega
        rw [hieq] at hiq
        have h1 : q = p := Option.some.inj (hiq.symm.trans hp)
        rw [h1]
    | some p' =>
      show nextKeyNode rt.root p.1 = some p'.1
      refine next_some rt.root hwf p.1 p'.1 p.2 p'.2 ?_ ?_
        (sorted_index_lt hs hp hnext (by omega)) ?_
      · rw [Prod.mk.eta]
        exact hpmem
      · rw [Prod.mk.eta]
        exact List.getElem?_mem hnext
      · intro q hq hpq
        obtain ⟨iq, hiq⟩ := List.mem_iff_getElem?.mp hq
        rcases Nat.lt_trichotomy iq (i + 1) with hlt | heq | hgt
        · exfalso
          rcases Nat.lt_or_ge iq i with hlt2 | hge2
          · have h1 := sorted_index_lt hs hiq hp hlt2
            have h2 := keyLtb_trans hpq h1
            rw [keyLtb_irrefl] at h2
            cases h2
          · have hieq : iq = i := by omega
            rw [hieq] at hiq
            have h1 : q = p := Option.some.inj (hiq.symm.trans hp)
            rw [h1, keyLtb_irrefl] at hpq
            cases hpq
        · left
          rw [heq] at hiq
          have h1 : q = p' := Option.some.inj (hiq.symm.trans hnext)
          rw [h1]
        · exact Or.inr (sorted_index_lt hs hnext hiq hgt)
  · intro i p hp
    have hpmem : p ∈ toList rt.root := List.getElem?_mem hp
    rcases Nat.eq_zero_or_pos i with rfl | hpos
    · rw [if_pos rfl]
      show prevKeyNode rt.root p.1 = none
      refine prev_none rt.root hwf p.1 (fun q hq => ?_)
      obtain ⟨iq, hiq⟩ := List.mem_iff_getElem?.mp hq
      rcases Nat.eq_zero_or_pos iq with rfl | hqpos
      · left
        have h1 : q = p := Option.some.inj (hiq.symm.trans hp)
        rw [h1]
      · exact Or.inr (sorted_index_lt hs hp hiq hqpos)
    · have hne0 : i ≠ 0 := Nat.pos_iff_ne_zero.mp hpos
      rw [if_neg hne0]
      have hi : i < (toList rt.root).length :=
        (List.getElem?_eq_some.mp hp).1
      obtain ⟨pm, hpm⟩ : ∃ pm, (toList rt.root)[i-1]? = some pm := by
        have h1 : i - 1 < (toList rt.root).length := by omega
        exact ⟨_, List.getElem?_eq_some.mpr ⟨h1, rfl⟩⟩
      rw [hpm]
      show prevKeyNode rt.root p.1 = some pm.1
      refine prev_some rt.root hwf p.1 pm.1 p.2 pm.2 ?_ ?_
        (sorted_index_lt hs hpm hp (by omega)) ?_
      · rw [Prod.mk.eta]
        exact hpmem
      · rw [Prod.mk.eta]
        exact List.getElem?_mem hpm
      · intro q hq hqp
        obtain ⟨iq, hiq⟩ := List.mem_iff_getElem?.mp hq
        rcases Nat.lt_trichotomy iq (i - 1) with hlt | heq | hgt
        · exact Or.inr (sorted_index_lt hs hiq hpm hlt)
        · left
          rw [heq] at hiq
          have h1 : q = pm := Option.some.inj (hiq.symm.trans hpm)
          rw [h1]
        · exfalso
          rcases Nat.lt_trichotomy iq i with hlt2 | heq2 | hgt2
          · omega
          · rw [heq2] at hiq
            have h1 : q = p := Option.some.inj (hiq.symm.trans hp)
            rw [h1, keyLtb_irrefl] at hqp
            cases hqp
          · have h1 := sorted_index_lt hs hp hiq hgt2
            have h2 := keyLtb_trans hqp h1
            rw [keyLtb_irrefl] at h2
            cases h2

end Radtree
namespace Radtree

/-- C3 witness: the traversal characterization applied to the tree
holding keys `[97]` and `[97, 98]`. -/
theorem claim_C3_witness :
    wfRoot (Rtree.mk (Radnode.mk (none : Option Nat)
        [(97, [], Radnode.mk (some 1) [(98, [], Radnode.mk (some 2) [])])])
        2).root ∧
    (sortedKeys (toList (Rtree.mk (Radnode.mk (none : Option Nat)
        [(97, [], Radnode.mk (some 1) [(98, [], Radnode.mk (some 2) [])])])
        2).root) ∧
    radix_first (Rtree.mk (Radnode.mk (none : Option Nat)
        [(97, [], Radnode.mk (some 1) [(98, [], Radnode.mk (some 2) [])])])
        2) = ((toList (Rtree.mk (Radnode.mk (none : Option Nat)
        [(97, [], Radnode.mk (some 1) [(98, [], Radnode.mk (some 2) [])])])
        2).root).head?).map Prod.fst ∧
    radix_last (Rtree.mk (Radnode.mk (none : Option Nat)
        [(97, [], Radnode.mk (some 1) [(98, [], Radnode.mk (some 2) [])])])
        2) = ((toList (Rtree.mk (Radnode.mk (none : Option Nat)
        [(97, [], Radnode.mk (some 1) [(98, [], Radnode.mk (some 2) [])])])
        2).root).getLast?).map Prod.fst ∧
    (∀ (i : Nat) (p : Key × Nat), (toList (Rtree.mk (Radnode.mk
        (none : Option Nat)
        [(97, [], Radnode.mk (some 1) [(98, [], Radnode.mk (some 2) [])])])
        2).root)[i]? = some p →
      radix_next (Rtree.mk (Radnode.mk (none : Option Nat)
        [(97, [], Radnode.mk (some 1) [(98, [], Radnode.mk (some 2) [])])])
        2) p.1 = ((toList (Rtree.mk (Radnode.mk (none : Option Nat)
        [(97, [], Radnode.mk (some 1) [(98, [], Radnode.mk (some 2) [])])])
        2).root)[i+1]?).map Prod.fst) ∧
    (∀ (i : Nat) (p : Key × Nat), (toList (Rtree.mk (Radnode.mk
        (none : Option Nat)
        [(97, [], Radnode.mk (some 1) [(98, [], Radnode.mk (some 2) [])])])
        2).root)[i]? = some p →
      radix_prev (Rtree.mk (Radnode.mk (none : Option Nat)
        [(97, [], Radnode.mk (some 1) [(98, [], Radnode.mk (some 2) [])])])
        2) p.1 = if i = 0 then none
        else ((toList (Rtree.mk (Radnode.mk (none : Option Nat)
        [(97, [], Radnode.mk (some 1) [(98, [], Radnode.mk (some 2) [])])])
        2).root)[i-1]?).map Prod.fst)) := by
  refine ⟨?_, claim_C3 _ ?_⟩ <;>
    simp [wfRoot_iff, wfNode_def, sortedEdges]

end Radtree
